import Mathlib

/-!
# Flood fill and minesweeper: a shallow embedding of `floodfill.cpp`

The grid type `Array2D`, the breadth-first `floodFill`, the adjacency pass at
the start of `mineLoop`, one round of the game loop, `mineFill` and
`mineReveal` are translated from the C++ source.  Conventions:

* `int` is modelled by `Int`.  No value in the program comes near the limits
  of a machine `int` unless `width * height` does, which is left out of scope.
* `char` is modelled by `Char`; `++c` is `incChar`.  The only increments in the
  program start from `'0'` and happen at most eight times.
* `char** array` is modelled by a total function `Int → Int → Char`.  The
  program only indexes the array after `pointValid` (or under the documented
  precondition of `floodFill`), so the values at out-of-range indices are
  never consulted.
* `std::queue` is a `List` with the front at the head.
* The two `while (!Q.empty())` loops take a fuel argument and return `none`
  when the fuel runs out before the queue is empty.
* Console output is modelled only as far as the three message lines
  `Tile is flagged!`, `Game Over!` and `You Win!` are concerned; the board
  renderings are omitted.
-/

namespace FloodFill

/-! ## Constants -/

def emptyChar : Char := ' '
def solidChar : Char := '#'
def mineTileChar : Char := '-'
def mineSelectedChar : Char := '^'
def mineFlaggedChar : Char := '!'

def tileOffsetsOrthog : List (Int × Int) := [(1, 0), (0, 1), (-1, 0), (0, -1)]

def tileOffsetsExtend : List (Int × Int) :=
  [(-1, -1), (0, -1), (1, -1), (-1, 0), (1, 0), (-1, 1), (0, 1), (1, 1)]

/-! ## The grid -/

/-- Utility struct keeping width and height with the array. -/
structure Array2D where
  width : Int
  height : Int
  array : Int → Int → Char

namespace Array2D

/-- The constructor `Array2D(w, h, initValue)`. -/
def init (w h : Int) (initValue : Char) : Array2D :=
  { width := w, height := h, array := fun _ _ => initValue }

/-- Helper function to check if index is in bounds. -/
def pointValid (a : Array2D) (x y : Int) : Bool :=
  decide (x ≥ 0) && decide (x < a.width) && decide (y ≥ 0) && decide (y < a.height)

/-- Reading `a[x][y]`. -/
def get (a : Array2D) (x y : Int) : Char := a.array x y

/-- The assignment `a[x][y] = v`. -/
def set (a : Array2D) (x y : Int) (v : Char) : Array2D :=
  { a with array := fun i j => if i = x ∧ j = y then v else a.array i j }

/-- The rows of the grid in the order `operator<<` prints them (row `j`, then
column `i`), without the border. -/
def rows (a : Array2D) : List (List Char) :=
  (List.range a.height.toNat).map fun (j : Nat) =>
    (List.range a.width.toNat).map fun (i : Nat) => a.array (i : Int) (j : Int)

end Array2D

/-- The increment `++c` on a `char`. -/
def incChar (c : Char) : Char := Char.ofNat (c.toNat + 1)

/-! ## floodFill -/

/-- The body of the `for` loop over `tileOffsetsOrthog` in `floodFill`, for the
dequeued cell `(x, y)`. -/
def floodStep (fillChar : Char) (x y : Int) (st : Array2D × List (Int × Int))
    (d : Int × Int) : Array2D × List (Int × Int) :=
  let tx := x + d.1
  let ty := y + d.2
  if st.1.pointValid tx ty && st.1.get tx ty != fillChar && st.1.get tx ty != solidChar then
    (st.1.set tx ty fillChar, st.2 ++ [(tx, ty)])
  else
    st

/-- The loop `while (!Q.empty())` of `floodFill`. -/
def floodLoop (fillChar : Char) : Nat → Array2D → List (Int × Int) → Option Array2D
  | _, array, [] => some array
  | 0, _, _ :: _ => none
  | fuel + 1, array, (x, y) :: Q =>
    let st := tileOffsetsOrthog.foldl (floodStep fillChar x y) (array, Q)
    floodLoop fillChar fuel st.1 st.2

/-- The function `floodFill(array, fillChar, startX, startY)`. -/
def floodFill (fuel : Nat) (array : Array2D) (fillChar : Char) (startX startY : Int) :
    Option Array2D :=
  floodLoop fillChar fuel (array.set startX startY fillChar) [(startX, startY)]

/-! ## The preparation pass of mineLoop -/

/-- The body of the `for` loop over `tileOffsetsExtend` in the preparation
pass, for the cell `(i, j)`: `++mines[i][j]` when the neighbour is a mine. -/
def countStep (i j : Int) (mines : Array2D) (d : Int × Int) : Array2D :=
  let tx := i + d.1
  let ty := j + d.2
  if mines.pointValid tx ty && mines.get tx ty == solidChar then
    mines.set i j (incChar (mines.get i j))
  else
    mines

/-- The body of the two nested `for` loops of the preparation pass. -/
def prepareCell (mines : Array2D) (i j : Int) : Array2D :=
  if mines.get i j == solidChar then
    mines
  else
    tileOffsetsExtend.foldl (countStep i j) (mines.set i j '0')

/-- The preparation pass: `for i < width`, `for j < height`. -/
def prepare (mines : Array2D) : Array2D :=
  (List.range mines.width.toNat).foldl
    (fun (m : Array2D) (i : Nat) => (List.range m.height.toNat).foldl
      (fun (m : Array2D) (j : Nat) => prepareCell m (i : Int) (j : Int)) m)
    mines

/-! ## mineFill and mineReveal -/

/-- The state of the loop of `mineFill`: the board, the counter passed by
reference and the queue. -/
structure FillState where
  board : Array2D
  numUnrevealed : Int
  Q : List (Int × Int)

/-- The body of the `for` loop over `tileOffsetsExtend` in `mineFill`, for the
dequeued cell `(x, y)`. -/
def mineFillStep (mines : Array2D) (x y : Int) (st : FillState) (d : Int × Int) : FillState :=
  let tx := x + d.1
  let ty := y + d.2
  if mines.pointValid tx ty && st.board.get tx ty == mineTileChar
      && mines.get tx ty != solidChar then
    if mines.get tx ty == '0' then
      { board := st.board.set tx ty emptyChar,
        numUnrevealed := st.numUnrevealed - 1,
        Q := st.Q ++ [(tx, ty)] }
    else
      { board := st.board.set tx ty (mines.get tx ty),
        numUnrevealed := st.numUnrevealed - 1,
        Q := st.Q }
  else
    st

/-- The loop `while (!Q.empty())` of `mineFill`. -/
def mineFillLoop (mines : Array2D) : Nat → FillState → Option (Array2D × Int)
  | _, ⟨board, numUnrevealed, []⟩ => some (board, numUnrevealed)
  | 0, ⟨_, _, _ :: _⟩ => none
  | fuel + 1, ⟨board, numUnrevealed, (x, y) :: Q⟩ =>
    mineFillLoop mines fuel
      (tileOffsetsExtend.foldl (mineFillStep mines x y) ⟨board, numUnrevealed, Q⟩)

/-- The function `mineFill(mines, board, startX, startY, numUnrevealed)`; the
result is the board and the counter after the call. -/
def mineFill (fuel : Nat) (mines board : Array2D) (startX startY : Int) (numUnrevealed : Int) :
    Option (Array2D × Int) :=
  mineFillLoop mines fuel
    { board := board.set startX startY emptyChar,
      numUnrevealed := numUnrevealed - 1,
      Q := [(startX, startY)] }

/-- The function `mineReveal(mines, board)`. -/
def mineReveal (mines board : Array2D) : Array2D :=
  (List.range mines.width.toNat).foldl
    (fun (b : Array2D) (x : Nat) => (List.range mines.height.toNat).foldl
      (fun (b : Array2D) (y : Nat) => if mines.get (x : Int) (y : Int) == solidChar
        then b.set (x : Int) (y : Int) solidChar else b) b)
    board

/-! ## The game loop -/

/-- The local variables of `mineLoop`, with the message lines printed so far. -/
structure GameState where
  mines : Array2D
  numMines : Int
  board : Array2D
  numUnrevealed : Int
  numFlagged : Int
  running : Bool
  output : List String

/-- The state of `mineLoop` when the game loop is entered. -/
def mineInit (mines : Array2D) (numMines : Int) : GameState :=
  { board := Array2D.init mines.width mines.height mineTileChar,
    numUnrevealed := mines.width * mines.height,
    numFlagged := 0,
    mines := prepare mines,
    numMines := numMines,
    running := true,
    output := [] }

/-- The `switch (c)` of a round; `s` is the state after the tile `(x, y)` has
been drawn as selected and `oldChar` is what the tile showed before. -/
def confirm (fuel : Nat) (s : GameState) (x y : Int) (oldChar c : Char) : Option GameState :=
  if c = 'F' then
    if oldChar = mineTileChar then
      some { s with board := s.board.set x y mineFlaggedChar, numFlagged := s.numFlagged + 1 }
    else if oldChar = mineFlaggedChar then
      some { s with board := s.board.set x y mineTileChar, numFlagged := s.numFlagged - 1 }
    else
      some s
  else if c = 'R' then
    if oldChar = mineFlaggedChar then
      some { s with output := s.output ++ ["Tile is flagged!"], board := s.board.set x y oldChar }
    else if s.mines.get x y = solidChar then
      some { s with board := mineReveal s.mines s.board,
                    output := s.output ++ ["Game Over!"],
                    running := false }
    else if s.mines.get x y = '0' then
      (mineFill fuel s.mines s.board x y s.numUnrevealed).map fun r =>
        { s with board := r.1, numUnrevealed := r.2 }
    else
      some { s with board := s.board.set x y (s.mines.get x y),
                    numUnrevealed := s.numUnrevealed - 1 }
  else
    some { s with board := s.board.set x y oldChar }

/-- The check for the win condition at the end of a round. -/
def winCheck (s : GameState) : GameState :=
  if s.numUnrevealed = s.numMines then
    { s with board := mineReveal s.mines s.board,
             output := s.output ++ ["You Win!"],
             running := false }
  else
    s

/-- One pass through the body of `while (running)`: the coordinates `x`, `y`
are read, and `c` is the answer to the prompt, read only when the tile is
accepted. -/
def mineRound (fuel : Nat) (s : GameState) (x y : Int) (c : Char) : Option GameState :=
  if !s.board.pointValid x y
      || (s.board.get x y != mineTileChar && s.board.get x y != mineFlaggedChar) then
    some s
  else
    let oldChar := s.board.get x y
    (confirm fuel { s with board := s.board.set x y mineSelectedChar } x y oldChar c).map winCheck

/-- The loop `while (running)` over the inputs of successive rounds; when the
inputs are used up the state reached is returned. -/
def mineRounds (fuel : Nat) : GameState → List (Int × Int × Char) → Option GameState
  | s, [] => some s
  | s, (x, y, c) :: rest =>
    if s.running then
      (mineRound fuel s x y c).bind fun s1 => mineRounds fuel s1 rest
    else
      some s

/-- The function `mineLoop(mines, numMines)` run on a list of inputs. -/
def mineLoop (fuel : Nat) (mines : Array2D) (numMines : Int)
    (inputs : List (Int × Int × Char)) : Option GameState :=
  mineRounds fuel (mineInit mines numMines) inputs

/-! ## An abstract worklist scheme

Both breadth-first loops have the same shape: dequeue a cell, and for each
offset test a guard on the current value of the neighbour; when it passes,
overwrite the neighbour, decrement a counter and possibly enqueue it.  The
scheme below is that shape with the guard `G`, the written value `w` and the
enqueue test `e` left open; it is used only to reason about the two loops. -/

/-- The parameters of the worklist scheme. -/
structure Scheme where
  offs : List (Int × Int)
  G : Int → Int → Char → Bool
  w : Int → Int → Char
  e : Int → Int → Bool

/-- The state of the worklist scheme. -/
structure Work where
  b : Int → Int → Char
  n : Int
  Q : List (Int × Int)

/-- One neighbour test of the scheme. -/
def Scheme.step (B : Scheme) (x y : Int) (st : Work) (d : Int × Int) : Work :=
  if B.G (x + d.1) (y + d.2) (st.b (x + d.1) (y + d.2)) = true then
    { b := fun i j => if i = x + d.1 ∧ j = y + d.2 then B.w (x + d.1) (y + d.2) else st.b i j,
      n := st.n - 1,
      Q := if B.e (x + d.1) (y + d.2) = true then st.Q ++ [(x + d.1, y + d.2)] else st.Q }
  else
    st

/-- The loop of the scheme. -/
def Scheme.loop (B : Scheme) : Nat → Work → Option Work
  | _, ⟨b, n, []⟩ => some ⟨b, n, []⟩
  | 0, ⟨_, _, _ :: _⟩ => none
  | fuel + 1, ⟨b, n, (x, y) :: Q⟩ => B.loop fuel (B.offs.foldl (B.step x y) ⟨b, n, Q⟩)

/-- The number of cells of `S` that would still be enqueued if tested. -/
def Scheme.pending (B : Scheme) (S : Finset (Int × Int)) (b : Int → Int → Char) : Nat :=
  (S.filter fun p => B.G p.1 p.2 (b p.1 p.2) = true ∧ B.e p.1 p.2 = true).card

/-- The cells in bounds of a grid of the given width and height. -/
def box (w h : Int) : Finset (Int × Int) := Finset.Ico 0 w ×ˢ Finset.Ico 0 h

/-! ## Specification predicates, invariants and test data -/

/-- The cells the scheme enqueues when run from `s` on the grid `b1`. -/
inductive Scheme.Enq (B : Scheme) (b1 : Int → Int → Char) (s : Int × Int) : Int × Int → Prop
  | start : Scheme.Enq B b1 s s
  | step {c d : Int × Int} : Scheme.Enq B b1 s c → d ∈ B.offs →
      B.G (c.1 + d.1) (c.2 + d.2) (b1 (c.1 + d.1) (c.2 + d.2)) = true →
      B.e (c.1 + d.1) (c.2 + d.2) = true → Scheme.Enq B b1 s (c.1 + d.1, c.2 + d.2)

/-- The cells the scheme overwrites when run from `s` on the grid `b1`. -/
def Scheme.Hit (B : Scheme) (b1 : Int → Int → Char) (s : Int × Int) (p : Int × Int) : Prop :=
  B.G p.1 p.2 (b1 p.1 p.2) = true ∧
    ∃ c d, B.Enq b1 s c ∧ d ∈ B.offs ∧ p = (c.1 + d.1, c.2 + d.2)

/-- All neighbours of `p` that passed the guard at the start are overwritten. -/
def Scheme.Done (B : Scheme) (b1 b : Int → Int → Char) (p : Int × Int) : Prop :=
  ∀ d ∈ B.offs, B.G (p.1 + d.1) (p.2 + d.2) (b1 (p.1 + d.1) (p.2 + d.2)) = true →
    b (p.1 + d.1) (p.2 + d.2) = B.w (p.1 + d.1) (p.2 + d.2)

/-- The loop invariant of the scheme; `cur` is the cell being expanded. -/
structure Scheme.Inv (B : Scheme) (b1 : Int → Int → Char) (s : Int × Int)
    (cur : Option (Int × Int)) (st : Work) : Prop where
  a : ∀ x y, st.b x y = b1 x y ∨ (B.Hit b1 s (x, y) ∧ st.b x y = B.w x y)
  q : ∀ c ∈ st.Q, B.Enq b1 s c
  c : ∀ p : Int × Int, (p = s ∨ (B.G p.1 p.2 (b1 p.1 p.2) = true ∧ B.e p.1 p.2 = true ∧
        st.b p.1 p.2 = B.w p.1 p.2)) → some p = cur ∨ p ∈ st.Q ∨ B.Done b1 st.b p

/-- The scheme of `floodFill` on a grid with the bounds of `a`. -/
def floodScheme (a : Array2D) (fillChar : Char) : Scheme :=
  { offs := tileOffsetsOrthog,
    G := fun x y ch => a.pointValid x y && ch != fillChar && ch != solidChar,
    w := fun _ _ => fillChar,
    e := fun _ _ => true }

/-- The loop state of `floodFill` seen as a state of the scheme. -/
def FloodRel (a : Array2D) (st : Array2D × List (Int × Int)) (wk : Work) : Prop :=
  st.1.width = a.width ∧ st.1.height = a.height ∧ st.1.array = wk.b ∧ st.2 = wk.Q

/-- The cells reached from the start by orthogonal steps onto cells in bounds
that are not solid and do not already hold the fill marker. -/
inductive FillReach (array : Array2D) (fillChar : Char) (startX startY : Int) :
    Int → Int → Prop
  | start : FillReach array fillChar startX startY startX startY
  | step {x y : Int} {d : Int × Int} : FillReach array fillChar startX startY x y →
      d ∈ tileOffsetsOrthog → array.pointValid (x + d.1) (y + d.2) = true →
      array.get (x + d.1) (y + d.2) ≠ fillChar → array.get (x + d.1) (y + d.2) ≠ solidChar →
      FillReach array fillChar startX startY (x + d.1) (y + d.2)

/-- The cells reached from the start by orthogonal steps onto cells in bounds
that are not solid: the 4-connected non-solid component of the start. -/
inductive OpenReach (array : Array2D) (startX startY : Int) : Int → Int → Prop
  | start : OpenReach array startX startY startX startY
  | step {x y : Int} {d : Int × Int} : OpenReach array startX startY x y →
      d ∈ tileOffsetsOrthog → array.pointValid (x + d.1) (y + d.2) = true →
      array.get (x + d.1) (y + d.2) ≠ solidChar →
      OpenReach array startX startY (x + d.1) (y + d.2)

/-- A 3 by 1 grid without solid cells whose middle cell already holds `'X'`. -/
def stripeGrid : Array2D := (Array2D.init 3 1 emptyChar).set 1 0 'X'

/-- The character `'0' + k`. -/
def digitChar (k : Nat) : Char := Char.ofNat ('0'.toNat + k)

/-- The number of the eight neighbours `(x + dx, y + dy)`, with `(dx, dy)` in
`{-1, 0, 1} × {-1, 0, 1}` other than `(0, 0)`, that are in bounds and mines. -/
def neighbourMines (mines : Array2D) (x y : Int) : Nat :=
  (((({-1, 0, 1} : Finset Int) ×ˢ ({-1, 0, 1} : Finset Int)).erase (0, 0)).filter fun d =>
    (mines.pointValid (x + d.1) (y + d.2) && mines.get (x + d.1) (y + d.2) == solidChar)
      = true).card

/-- The count of `neighbourMines` taken over the table `tileOffsetsExtend`. -/
def mineCountList (mines : Array2D) (x y : Int) : Nat :=
  (tileOffsetsExtend.filter fun d =>
    mines.pointValid (x + d.1) (y + d.2) && mines.get (x + d.1) (y + d.2) == solidChar).length

/-- What a cell holds once the preparation pass has visited it. -/
def prepTarget (mines : Array2D) (x y : Int) : Char :=
  if mines.get x y = solidChar then solidChar else digitChar (mineCountList mines x y)

/-- The invariant of the preparation pass: the bounds are those of the layout
and every cell is either untouched or final. -/
def PrepInv (mines m : Array2D) : Prop :=
  m.width = mines.width ∧ m.height = mines.height ∧
    ∀ x y, m.get x y = mines.get x y ∨ m.get x y = prepTarget mines x y

/-- The 3 by 3 layout whose only mine is at `(0, 0)`. -/
def cornerLayout : Array2D := (Array2D.init 3 3 emptyChar).set 0 0 solidChar

/-- The scheme of `mineFill` over the layout `mines`. -/
def mineScheme (mines : Array2D) : Scheme :=
  { offs := tileOffsetsExtend,
    G := fun x y ch => mines.pointValid x y && ch == mineTileChar && mines.get x y != solidChar,
    w := fun x y => if mines.get x y == '0' then emptyChar else mines.get x y,
    e := fun x y => mines.get x y == '0' }

/-- The loop state of `mineFill` seen as a state of the scheme. -/
def MineRel (bd : Array2D) (st : FillState) (wk : Work) : Prop :=
  st.board.width = bd.width ∧ st.board.height = bd.height ∧ st.board.array = wk.b ∧
    st.numUnrevealed = wk.n ∧ st.Q = wk.Q

/-- The layout holds a correct adjacency count in every non-mine cell. -/
def CorrectCounts (mines : Array2D) : Prop :=
  ∀ x y, mines.pointValid x y = true → mines.get x y ≠ solidChar →
    mines.get x y = digitChar (neighbourMines mines x y)

/-- The set `Z`: the cells reached from the start by 8-connected steps onto
in-bounds cells that are Hidden on the input board, are not mines and have
count `'0'`. -/
inductive ZeroReach (mines board : Array2D) (startX startY : Int) : Int → Int → Prop
  | start : ZeroReach mines board startX startY startX startY
  | step {x y : Int} {d : Int × Int} : ZeroReach mines board startX startY x y →
      d ∈ tileOffsetsExtend → mines.pointValid (x + d.1) (y + d.2) = true →
      board.get (x + d.1) (y + d.2) = mineTileChar →
      mines.get (x + d.1) (y + d.2) ≠ solidChar → mines.get (x + d.1) (y + d.2) = '0' →
      ZeroReach mines board startX startY (x + d.1) (y + d.2)

/-- The cell `(x, y)` is Hidden on the input board, is not a mine and is
8-adjacent to a cell of `Z`. -/
def Uncovered (mines board : Array2D) (startX startY x y : Int) : Prop :=
  board.get x y = mineTileChar ∧ mines.pointValid x y = true ∧ mines.get x y ≠ solidChar ∧
    ∃ cx cy d, ZeroReach mines board startX startY cx cy ∧ d ∈ tileOffsetsExtend ∧
      x = cx + d.1 ∧ y = cy + d.2

/-- The invariant of `mineReveal`: the bounds of the board are kept and every
tile is either untouched or a disclosed mine. -/
def RevealInv (mines board b : Array2D) : Prop :=
  b.width = board.width ∧ b.height = board.height ∧
    ∀ x y, b.get x y = board.get x y ∨
      (mines.pointValid x y = true ∧ mines.get x y = solidChar ∧ b.get x y = solidChar)

/-- The states `mineLoop` can be in at the top of `while (running)`, for any
layout and any `numMines` it is called with. -/
inductive Reachable : GameState → Prop
  | init (mines : Array2D) (numMines : Int) : Reachable (mineInit mines numMines)
  | round {s s1 : GameState} (fuel : Nat) (x y : Int) (c : Char) : Reachable s →
      s.running = true → mineRound fuel s x y c = some s1 → Reachable s1

/-- Facts that hold in every state of the game loop. -/
structure GameInv (s : GameState) : Prop where
  width : s.board.width = s.mines.width
  height : s.board.height = s.mines.height
  counts : CorrectCounts s.mines
  fresh : s.running = true → s.numUnrevealed = s.numMines →
    ∀ x y, s.board.get x y = mineTileChar

/-- The tile `(x, y)` is accepted by the validity test of a round. -/
def Selectable (s : GameState) (x y : Int) : Prop :=
  s.board.pointValid x y = true ∧
    (s.board.get x y = mineTileChar ∨ s.board.get x y = mineFlaggedChar)

/-- The state after the first round `(1, 1, F)` on the 3 by 3 layout with one
mine at `(0, 0)`. -/
def flaggedState : GameState :=
  (mineRound 9 (mineInit cornerLayout 1) 1 1 'F').getD (mineInit cornerLayout 1)

/-- The 3 by 3 layout with mines at `(0, 0)` and `(2, 1)`. -/
def twoMines : Array2D := ((Array2D.init 3 3 emptyChar).set 0 0 solidChar).set 2 1 solidChar

/-- The message lines printed between the state `s` and the later state `s1`. -/
def printed (s s1 : GameState) : List String := s1.output.drop s.output.length

/-- The tile shows Hidden or Flagged. -/
def isUnrevealed (ch : Char) : Bool := ch == mineTileChar || ch == mineFlaggedChar

/-- The tile shows a revealed non-mine state: `emptyChar` or a digit `'1'` to
`'8'`. -/
def isRevealed (ch : Char) : Bool :=
  ch == emptyChar || ['1', '2', '3', '4', '5', '6', '7', '8'].contains ch

/-- The tiles whose visible state went from unrevealed on the board `before`
to a revealed non-mine state on the board `after`. -/
def newlyRevealed (before after : Array2D) : Finset (Int × Int) :=
  (box before.width before.height).filter fun p =>
    (isUnrevealed (before.get p.1 p.2) && isRevealed (after.get p.1 p.2)) = true

/-- Reading `a[x][y]` as an access that faults outside the bounds the array
was allocated with. -/
def Array2D.read (a : Array2D) (x y : Int) : Option Char :=
  if a.pointValid x y then some (a.array x y) else none

/-- Writing `a[x][y] = v` as an access that faults outside the bounds the
array was allocated with. -/
def Array2D.write (a : Array2D) (x y : Int) (v : Char) : Option Array2D :=
  if a.pointValid x y then some (a.set x y v) else none

/-- The validity test of a round and the selection that follows it, with the
accesses to the board bounds-checked and `||`, `&&` evaluated left to right
with short circuit.  The outer `none` is a fault; `some none` is the
`continue`; `some (some (oldChar, board))` is the selection. -/
def selectTile (board : Array2D) (x y : Int) : Option (Option (Char × Array2D)) :=
  if !board.pointValid x y then
    some none
  else
    (board.read x y).bind fun c1 =>
      (if c1 != mineTileChar then
        (board.read x y).map fun c2 => c2 != mineFlaggedChar
      else
        some false).bind fun rejected =>
        if rejected then
          some none
        else
          (board.read x y).bind fun oldChar =>
            (board.write x y mineSelectedChar).map fun b => some (oldChar, b)

/-- The cells the loop of the scheme takes from the queue, in order. -/
def Scheme.visits (B : Scheme) : Nat → Work → Option (List (Int × Int))
  | _, ⟨_, _, []⟩ => some []
  | 0, ⟨_, _, _ :: _⟩ => none
  | fuel + 1, ⟨b, n, (x, y) :: Q⟩ =>
    (B.visits fuel (B.offs.foldl (B.step x y) ⟨b, n, Q⟩)).map fun L => (x, y) :: L

/-- The cells the loop of `floodFill` takes from the queue, in order.  The
queue is first in, first out and the loop ends when it is empty, so this is
also the list of the cells put on the queue, in order. -/
def floodDequeues (fillChar : Char) : Nat → Array2D → List (Int × Int) →
    Option (List (Int × Int))
  | _, _, [] => some []
  | 0, _, _ :: _ => none
  | fuel + 1, array, (x, y) :: Q =>
    let st := tileOffsetsOrthog.foldl (floodStep fillChar x y) (array, Q)
    (floodDequeues fillChar fuel st.1 st.2).map fun L => (x, y) :: L

/-- The cells a call of `floodFill` takes from its queue, in order. -/
def floodFillDequeues (fuel : Nat) (array : Array2D) (fillChar : Char) (startX startY : Int) :
    Option (List (Int × Int)) :=
  floodDequeues fillChar fuel (array.set startX startY fillChar) [(startX, startY)]

/-- The cells the loop of `mineFill` takes from the queue, in order. -/
def mineDequeues (mines : Array2D) : Nat → FillState → Option (List (Int × Int))
  | _, ⟨_, _, []⟩ => some []
  | 0, ⟨_, _, _ :: _⟩ => none
  | fuel + 1, ⟨board, numUnrevealed, (x, y) :: Q⟩ =>
    (mineDequeues mines fuel
      (tileOffsetsExtend.foldl (mineFillStep mines x y) ⟨board, numUnrevealed, Q⟩)).map
      fun L => (x, y) :: L

/-- The cells a call of `mineFill` takes from its queue, in order. -/
def mineFillDequeues (fuel : Nat) (mines board : Array2D) (startX startY : Int)
    (numUnrevealed : Int) : Option (List (Int × Int)) :=
  mineDequeues mines fuel
    { board := board.set startX startY emptyChar,
      numUnrevealed := numUnrevealed - 1,
      Q := [(startX, startY)] }

/-- The queue holds no cell twice and none of its cells passes the guard. -/
def Scheme.QueueOk (B : Scheme) (st : Work) : Prop :=
  st.Q.Nodup ∧ ∀ c ∈ st.Q, B.G c.1 c.2 (st.b c.1 c.2) = false

/-- The all-Hidden 3 by 3 board with `(2, 1)` Flagged and `(2, 2)` drawn as
selected. -/
def flagBoard : Array2D :=
  ((Array2D.init 3 3 mineTileChar).set 2 1 mineFlaggedChar).set 2 2 mineSelectedChar

/-- What the switch of a round can make of the state `s` in which the tile
`(x, y)` was Hidden or Flagged: a flag toggled, the state kept (a rejected
reveal or a cancel), the game lost, or tiles revealed. -/
inductive Outcome (s : GameState) (x y : Int) : GameState → Prop
  | toggle (t : Char) (k : Int) :
      ((s.board.get x y = mineTileChar ∧ t = mineFlaggedChar ∧ k = 1) ∨
        (s.board.get x y = mineFlaggedChar ∧ t = mineTileChar ∧ k = -1)) →
      Outcome s x y { s with board := s.board.set x y t, numFlagged := s.numFlagged + k }
  | keep (out : List String) : "You Win!" ∉ out → "Game Over!" ∉ out →
      Outcome s x y { s with output := s.output ++ out }
  | lose : s.board.get x y = mineTileChar → s.mines.get x y = solidChar →
      Outcome s x y
        { s with board := mineReveal s.mines (s.board.set x y mineSelectedChar),
                 output := s.output ++ ["Game Over!"],
                 running := false }
  | reveal (b2 : Array2D) (n2 : Int) :
      s.board.get x y = mineTileChar → s.mines.get x y ≠ solidChar →
      b2.width = s.board.width → b2.height = s.board.height →
      isRevealed (b2.get x y) = true →
      (∀ i j, ¬ (i = x ∧ j = y) → b2.get i j ≠ s.board.get i j →
        s.board.get i j = mineTileChar ∧ isRevealed (b2.get i j) = true ∧
          s.mines.pointValid i j = true ∧ s.mines.get i j ≠ solidChar) →
      n2 = s.numUnrevealed - 1 - (((box s.mines.width s.mines.height).filter fun p =>
        ¬ (p.1 = x ∧ p.2 = y) ∧ b2.get p.1 p.2 ≠ s.board.get p.1 p.2).card : Int) →
      Outcome s x y { s with board := b2, numUnrevealed := n2 }

/-- Every tile that shows a revealed non-mine value lies in bounds on a cell
that is not a mine. -/
def RevealedOk (s : GameState) : Prop :=
  ∀ i j, isRevealed (s.board.get i j) = true →
    s.mines.pointValid i j = true ∧ s.mines.get i j ≠ solidChar

/-- The state after the round `(2, 2, R)` on the 3 by 3 layout with mines at
`(0, 0)` and `(2, 1)`, which reveals the number at `(2, 2)`. -/
def numberState : GameState :=
  (mineRound 9 (mineInit twoMines 2) 2 2 'R').getD (mineInit twoMines 2)

/-- The number of mine cells of a layout. -/
def mineCells (mines : Array2D) : Nat :=
  ((box mines.width mines.height).filter fun p => mines.get p.1 p.2 = solidChar).card

/-- The game is either running with neither end message printed and the win
condition not met, or stopped with exactly one of the two end messages
printed. -/
def StatusOk (s : GameState) : Prop :=
  (s.running = true →
    s.numUnrevealed ≠ s.numMines ∧ "Game Over!" ∉ s.output ∧ "You Win!" ∉ s.output) ∧
  (s.running = false →
    ("Game Over!" ∈ s.output ∧ "You Win!" ∉ s.output) ∨
      ("You Win!" ∈ s.output ∧ "Game Over!" ∉ s.output))

/-- The number of tiles of a board that show `mineFlaggedChar`. -/
def flagCount (b : Array2D) : Nat :=
  ((box b.width b.height).filter fun p => b.get p.1 p.2 = mineFlaggedChar).card

/-- While the loop runs `numFlagged` is the number of Flagged tiles, and it
always lies between 0 and the number of tiles. -/
def FlagOk (s : GameState) : Prop :=
  (s.running = true → s.numFlagged = (flagCount s.board : Int)) ∧ 0 ≤ s.numFlagged ∧
    s.numFlagged ≤ ((s.mines.width.toNat * s.mines.height.toNat : Nat) : Int)

/-- The number of tiles of a board that show Hidden or Flagged. -/
def unrevealedCount (b : Array2D) : Nat :=
  ((box b.width b.height).filter fun p => isUnrevealed (b.get p.1 p.2) = true).card

/-- The counter and the board agree: `numUnrevealed` is the number of tiles
that are Hidden or Flagged, no tile is Selected, every mine tile is Hidden or
Flagged, and every tile is Hidden, Flagged or revealed. -/
structure Consistent (s : GameState) : Prop where
  count : s.numUnrevealed = (unrevealedCount s.board : Int)
  noSelected : ∀ i j, s.board.pointValid i j = true → s.board.get i j ≠ mineSelectedChar
  minesHidden : ∀ i j, s.mines.pointValid i j = true → s.mines.get i j = solidChar →
    isUnrevealed (s.board.get i j) = true
  tiles : ∀ i j, s.board.pointValid i j = true →
    isUnrevealed (s.board.get i j) = true ∨ isRevealed (s.board.get i j) = true

/-- On a grid with non-negative bounds: a running state is consistent, and
when `numMines` is the number of mine cells it is at most `numUnrevealed`. -/
def ConsOk (s : GameState) : Prop :=
  0 ≤ s.mines.width → 0 ≤ s.mines.height →
    (s.running = true → Consistent s) ∧
      (s.numMines = (mineCells s.mines : Int) → s.numMines ≤ s.numUnrevealed)

/-! ## The worklist scheme: termination, invariant and result -/

theorem mem_box {w h : Int} {p : Int × Int} :
    p ∈ box w h ↔ 0 ≤ p.1 ∧ p.1 < w ∧ 0 ≤ p.2 ∧ p.2 < h := by
  simp [box, Finset.mem_product, and_assoc]

theorem card_box (w h : Int) : (box w h).card = w.toNat * h.toNat := by
  simp [box, Finset.card_product]

theorem Scheme.step_pending (B : Scheme) (S : Finset (Int × Int))
    (hS : ∀ x y ch, B.G x y ch = true → (x, y) ∈ S)
    (hK : ∀ x y, B.e x y = true → B.G x y (B.w x y) = false)
    (x y : Int) (st : Work) (d : Int × Int) :
    (B.step x y st d).Q.length + B.pending S (B.step x y st d).b
      = st.Q.length + B.pending S st.b := by
  unfold Scheme.step
  by_cases hg : B.G (x + d.1) (y + d.2) (st.b (x + d.1) (y + d.2)) = true
  · rw [if_pos hg]
    by_cases he : B.e (x + d.1) (y + d.2) = true
    · have hmem : (x + d.1, y + d.2) ∈
          S.filter fun p => B.G p.1 p.2 (st.b p.1 p.2) = true ∧ B.e p.1 p.2 = true := by
        simp [hS _ _ _ hg, hg, he]
      have heq : (S.filter fun p : Int × Int =>
            B.G p.1 p.2 (if p.1 = x + d.1 ∧ p.2 = y + d.2 then B.w (x + d.1) (y + d.2)
              else st.b p.1 p.2) = true ∧ B.e p.1 p.2 = true)
          = (S.filter fun p => B.G p.1 p.2 (st.b p.1 p.2) = true ∧ B.e p.1 p.2 = true).erase
              (x + d.1, y + d.2) := by
        ext ⟨q1, q2⟩
        by_cases hq : q1 = x + d.1 ∧ q2 = y + d.2
        · obtain ⟨rfl, rfl⟩ := hq
          simp [hK _ _ he]
        · have : (q1, q2) ≠ (x + d.1, y + d.2) := by
            intro h; apply hq; simpa using h
          simp [hq, this]
      simp only [Scheme.pending, if_pos he, List.length_append, List.length_singleton, heq,
        Finset.card_erase_of_mem hmem]
      have := Finset.card_pos.mpr ⟨_, hmem⟩
      omega
    · have heq : (S.filter fun p : Int × Int =>
            B.G p.1 p.2 (if p.1 = x + d.1 ∧ p.2 = y + d.2 then B.w (x + d.1) (y + d.2)
              else st.b p.1 p.2) = true ∧ B.e p.1 p.2 = true)
          = (S.filter fun p => B.G p.1 p.2 (st.b p.1 p.2) = true ∧ B.e p.1 p.2 = true) := by
        ext ⟨q1, q2⟩
        by_cases hq : q1 = x + d.1 ∧ q2 = y + d.2
        · obtain ⟨rfl, rfl⟩ := hq
          simp [he]
        · simp [hq]
      simp only [Scheme.pending, if_neg he, heq]
  · rw [if_neg hg]

theorem Scheme.fold_pending (B : Scheme) (S : Finset (Int × Int))
    (hS : ∀ x y ch, B.G x y ch = true → (x, y) ∈ S)
    (hK : ∀ x y, B.e x y = true → B.G x y (B.w x y) = false)
    (x y : Int) (ds : List (Int × Int)) (st : Work) :
    (ds.foldl (B.step x y) st).Q.length + B.pending S (ds.foldl (B.step x y) st).b
      = st.Q.length + B.pending S st.b := by
  induction ds generalizing st with
  | nil => rfl
  | cons d ds ih => rw [List.foldl_cons, ih, B.step_pending S hS hK]

/-- The loop of the scheme returns as soon as the fuel covers the queue and
the cells still to be enqueued. -/
theorem Scheme.loop_returns (B : Scheme) (S : Finset (Int × Int))
    (hS : ∀ x y ch, B.G x y ch = true → (x, y) ∈ S)
    (hK : ∀ x y, B.e x y = true → B.G x y (B.w x y) = false)
    (fuel : Nat) (st : Work) (h : st.Q.length + B.pending S st.b ≤ fuel) :
    ∃ r, B.loop fuel st = some r := by
  induction fuel generalizing st with
  | zero =>
    obtain ⟨b, n, Q⟩ := st
    cases Q with
    | nil => exact ⟨_, rfl⟩
    | cons c Q => simp at h
  | succ fuel ih =>
    obtain ⟨b, n, Q⟩ := st
    cases Q with
    | nil => exact ⟨_, rfl⟩
    | cons c Q =>
      obtain ⟨x, y⟩ := c
      simp only [Scheme.loop]
      apply ih
      rw [B.fold_pending S hS hK]
      simp at h ⊢
      omega

theorem Scheme.step_inv (B : Scheme) (b1 : Int → Int → Char) (s : Int × Int)
    (hW : ∀ x y ch, B.G x y ch = true → B.G x y (B.w x y) = false)
    (c : Int × Int) (hc : B.Enq b1 s c) (st : Work) (d : Int × Int) (hd : d ∈ B.offs)
    (hI : B.Inv b1 s (some c) st) :
    B.Inv b1 s (some c) (B.step c.1 c.2 st d) ∧
    (∀ x y, st.b x y = B.w x y → (B.step c.1 c.2 st d).b x y = B.w x y) ∧
    (B.G (c.1 + d.1) (c.2 + d.2) (b1 (c.1 + d.1) (c.2 + d.2)) = true →
      (B.step c.1 c.2 st d).b (c.1 + d.1) (c.2 + d.2) = B.w (c.1 + d.1) (c.2 + d.2)) := by
  unfold Scheme.step
  by_cases hg : B.G (c.1 + d.1) (c.2 + d.2) (st.b (c.1 + d.1) (c.2 + d.2)) = true
  · rw [if_pos hg]
    have hb : st.b (c.1 + d.1) (c.2 + d.2) = b1 (c.1 + d.1) (c.2 + d.2) := by
      rcases hI.a (c.1 + d.1) (c.2 + d.2) with h | ⟨-, h⟩
      · exact h
      · rw [h] at hg
        rw [hW _ _ _ hg] at hg
        exact absurd hg (by simp)
    have hg1 : B.G (c.1 + d.1) (c.2 + d.2) (b1 (c.1 + d.1) (c.2 + d.2)) = true := hb ▸ hg
    have hmono : ∀ x y, st.b x y = B.w x y →
        (if x = c.1 + d.1 ∧ y = c.2 + d.2 then B.w (c.1 + d.1) (c.2 + d.2) else st.b x y)
          = B.w x y := by
      intro x y h
      by_cases hxy : x = c.1 + d.1 ∧ y = c.2 + d.2
      · rw [if_pos hxy, hxy.1, hxy.2]
      · rw [if_neg hxy, h]
    refine ⟨⟨?_, ?_, ?_⟩, hmono, fun _ => by simp⟩
    · intro x y
      by_cases hxy : x = c.1 + d.1 ∧ y = c.2 + d.2
      · right
        obtain ⟨rfl, rfl⟩ := hxy
        exact ⟨⟨hg1, c, d, hc, hd, rfl⟩, by simp⟩
      · simp only [if_neg hxy]
        exact hI.a x y
    · intro p hp
      by_cases he : B.e (c.1 + d.1) (c.2 + d.2) = true
      · simp only [if_pos he, List.mem_append, List.mem_singleton] at hp
        rcases hp with hp | rfl
        · exact hI.q p hp
        · exact Scheme.Enq.step hc hd hg1 he
      · simp only [if_neg he] at hp
        exact hI.q p hp
    · intro p hp
      have hQ : ∀ q, q ∈ st.Q → q ∈ (if B.e (c.1 + d.1) (c.2 + d.2) = true
          then st.Q ++ [(c.1 + d.1, c.2 + d.2)] else st.Q) := by
        intro q hq
        split
        · exact List.mem_append_left _ hq
        · exact hq
      have hold : (p = s ∨ (B.G p.1 p.2 (b1 p.1 p.2) = true ∧ B.e p.1 p.2 = true ∧
          st.b p.1 p.2 = B.w p.1 p.2)) → some p = some c ∨
          p ∈ (if B.e (c.1 + d.1) (c.2 + d.2) = true
            then st.Q ++ [(c.1 + d.1, c.2 + d.2)] else st.Q) ∨
          B.Done b1 (fun i j => if i = c.1 + d.1 ∧ j = c.2 + d.2
            then B.w (c.1 + d.1) (c.2 + d.2) else st.b i j) p := by
        intro h
        rcases hI.c p h with h1 | h1 | h1
        · exact Or.inl h1
        · exact Or.inr (Or.inl (hQ p h1))
        · exact Or.inr (Or.inr (fun d2 hd2 hg2 => hmono _ _ (h1 d2 hd2 hg2)))
      rcases hp with rfl | ⟨hp1, hp2, hp3⟩
      · exact hold (Or.inl rfl)
      · by_cases hxy : p.1 = c.1 + d.1 ∧ p.2 = c.2 + d.2
        · right; left
          have hpe : p = (c.1 + d.1, c.2 + d.2) := Prod.ext hxy.1 hxy.2
          have he : B.e (c.1 + d.1) (c.2 + d.2) = true := by rw [← hxy.1, ← hxy.2]; exact hp2
          rw [if_pos he, hpe]
          simp
        · simp only [if_neg hxy] at hp3
          exact hold (Or.inr ⟨hp1, hp2, hp3⟩)
  · rw [if_neg hg]
    refine ⟨hI, fun _ _ h => h, fun hg1 => ?_⟩
    rcases hI.a (c.1 + d.1) (c.2 + d.2) with h | ⟨-, h⟩
    · rw [h] at hg
      exact absurd hg1 hg
    · exact h

theorem Scheme.fold_inv (B : Scheme) (b1 : Int → Int → Char) (s : Int × Int)
    (hW : ∀ x y ch, B.G x y ch = true → B.G x y (B.w x y) = false)
    (c : Int × Int) (hc : B.Enq b1 s c) (ds : List (Int × Int)) (hds : ∀ d ∈ ds, d ∈ B.offs)
    (st : Work) (hI : B.Inv b1 s (some c) st) :
    B.Inv b1 s (some c) (ds.foldl (B.step c.1 c.2) st) ∧
    (∀ x y, st.b x y = B.w x y → (ds.foldl (B.step c.1 c.2) st).b x y = B.w x y) ∧
    (∀ d ∈ ds, B.G (c.1 + d.1) (c.2 + d.2) (b1 (c.1 + d.1) (c.2 + d.2)) = true →
      (ds.foldl (B.step c.1 c.2) st).b (c.1 + d.1) (c.2 + d.2)
        = B.w (c.1 + d.1) (c.2 + d.2)) := by
  induction ds generalizing st with
  | nil => exact ⟨hI, fun _ _ h => h, fun d hd => absurd hd (List.not_mem_nil d)⟩
  | cons d ds ih =>
    obtain ⟨h1, h2, h3⟩ := B.step_inv b1 s hW c hc st d (hds d (List.mem_cons_self d ds)) hI
    obtain ⟨k1, k2, k3⟩ := ih (fun d2 hd2 => hds d2 (List.mem_cons_of_mem d hd2)) _ h1
    rw [List.foldl_cons]
    refine ⟨k1, fun x y h => k2 x y (h2 x y h), fun d2 hd2 hg => ?_⟩
    rcases List.mem_cons.mp hd2 with rfl | hd2
    · exact k2 _ _ (h3 hg)
    · exact k3 d2 hd2 hg

theorem Scheme.loop_inv (B : Scheme) (b1 : Int → Int → Char) (s : Int × Int)
    (hW : ∀ x y ch, B.G x y ch = true → B.G x y (B.w x y) = false)
    (fuel : Nat) (st r : Work) (hI : B.Inv b1 s none st) (hr : B.loop fuel st = some r) :
    B.Inv b1 s none r ∧ r.Q = [] := by
  induction fuel generalizing st with
  | zero =>
    obtain ⟨b, n, Q⟩ := st
    cases Q with
    | nil =>
      simp only [Scheme.loop, Option.some.injEq] at hr
      subst hr
      exact ⟨hI, rfl⟩
    | cons c Q => simp [Scheme.loop] at hr
  | succ fuel ih =>
    obtain ⟨b, n, Q⟩ := st
    cases Q with
    | nil =>
      simp only [Scheme.loop, Option.some.injEq] at hr
      subst hr
      exact ⟨hI, rfl⟩
    | cons c Q =>
      obtain ⟨x, y⟩ := c
      simp only [Scheme.loop] at hr
      have hc : B.Enq b1 s (x, y) := hI.q _ (List.mem_cons_self _ _)
      have hI1 : B.Inv b1 s (some (x, y)) ⟨b, n, Q⟩ := by
        refine ⟨hI.a, fun c hc => hI.q c (List.mem_cons_of_mem _ hc), fun p hp => ?_⟩
        rcases hI.c p hp with h | h | h
        · simp at h
        · rcases List.mem_cons.mp h with rfl | h
          · exact Or.inl rfl
          · exact Or.inr (Or.inl h)
        · exact Or.inr (Or.inr h)
      obtain ⟨k1, -, k3⟩ := B.fold_inv b1 s hW (x, y) hc B.offs (fun _ h => h) _ hI1
      apply ih _ _ hr
      refine ⟨k1.a, k1.q, fun p hp => ?_⟩
      rcases k1.c p hp with h | h | h
      · simp only [Option.some.injEq] at h
        subst h
        exact Or.inr (Or.inr k3)
      · exact Or.inr (Or.inl h)
      · exact Or.inr (Or.inr h)

theorem Scheme.inv_init (B : Scheme) (b1 : Int → Int → Char) (s : Int × Int)
    (hW : ∀ x y ch, B.G x y ch = true → B.G x y (B.w x y) = false) (n : Int) :
    B.Inv b1 s none ⟨b1, n, [s]⟩ := by
  refine ⟨fun _ _ => Or.inl rfl, fun c hc => ?_, fun p hp => ?_⟩
  · rw [List.mem_singleton.mp hc]
    exact Scheme.Enq.start
  · rcases hp with rfl | ⟨h1, -, h3⟩
    · exact Or.inr (Or.inl (List.mem_singleton_self _))
    · simp only at h3
      rw [h3] at h1
      rw [hW _ _ _ h1] at h1
      exact absurd h1 (by simp)

/-- What the loop of the scheme leaves in the grid: the cells in `Hit` hold the
written value and every other cell is as it was. -/
theorem Scheme.loop_result (B : Scheme) (b1 : Int → Int → Char) (s : Int × Int)
    (hW : ∀ x y ch, B.G x y ch = true → B.G x y (B.w x y) = false)
    (fuel : Nat) (n : Int) (r : Work) (hr : B.loop fuel ⟨b1, n, [s]⟩ = some r) :
    ∀ x y, (B.Hit b1 s (x, y) → r.b x y = B.w x y) ∧
      (¬ B.Hit b1 s (x, y) → r.b x y = b1 x y) := by
  obtain ⟨hI, hQ⟩ := B.loop_inv b1 s hW fuel _ r (B.inv_init b1 s hW n) hr
  have hdone : ∀ p : Int × Int, (p = s ∨ (B.G p.1 p.2 (b1 p.1 p.2) = true ∧
      B.e p.1 p.2 = true ∧ r.b p.1 p.2 = B.w p.1 p.2)) → B.Done b1 r.b p := by
    intro p hp
    rcases hI.c p hp with h | h | h
    · simp at h
    · rw [hQ] at h
      exact absurd h (List.not_mem_nil p)
    · exact h
  have henq : ∀ p, B.Enq b1 s p → B.Done b1 r.b p := by
    intro p hp
    induction hp with
    | start => exact hdone s (Or.inl rfl)
    | step _ hd hg he ih => exact hdone _ (Or.inr ⟨hg, he, ih _ hd hg⟩)
  intro x y
  refine ⟨fun ⟨hg, c, d, hc, hd, hp⟩ => ?_, fun hn => ?_⟩
  · simp only [Prod.mk.injEq] at hp
    obtain ⟨rfl, rfl⟩ := hp
    exact henq c hc d hd hg
  · rcases hI.a x y with h | ⟨h, -⟩
    · exact h
    · exact absurd h hn

theorem Scheme.step_count (B : Scheme) (S : Finset (Int × Int)) (b1 : Int → Int → Char)
    (s : Int × Int) (hS : ∀ x y ch, B.G x y ch = true → (x, y) ∈ S)
    (hW : ∀ x y ch, B.G x y ch = true → B.G x y (B.w x y) = false)
    (c : Int × Int) (st : Work) (d : Int × Int) (hI : B.Inv b1 s (some c) st) :
    (B.step c.1 c.2 st d).n
        + ((S.filter fun p => (B.step c.1 c.2 st d).b p.1 p.2 ≠ b1 p.1 p.2).card : Int)
      = st.n + ((S.filter fun p => st.b p.1 p.2 ≠ b1 p.1 p.2).card : Int) := by
  unfold Scheme.step
  by_cases hg : B.G (c.1 + d.1) (c.2 + d.2) (st.b (c.1 + d.1) (c.2 + d.2)) = true
  · rw [if_pos hg]
    have hb : st.b (c.1 + d.1) (c.2 + d.2) = b1 (c.1 + d.1) (c.2 + d.2) := by
      rcases hI.a (c.1 + d.1) (c.2 + d.2) with h | ⟨-, h⟩
      · exact h
      · rw [h] at hg
        rw [hW _ _ _ hg] at hg
        exact absurd hg (by simp)
    have hne : B.w (c.1 + d.1) (c.2 + d.2) ≠ b1 (c.1 + d.1) (c.2 + d.2) := by
      intro h
      have h2 := hW _ _ _ hg
      rw [h, ← hb, hg] at h2
      exact absurd h2 (by simp)
    have hnot : (c.1 + d.1, c.2 + d.2) ∉ S.filter fun p => st.b p.1 p.2 ≠ b1 p.1 p.2 := by
      simp [hb]
    have heq : (S.filter fun p : Int × Int =>
          (if p.1 = c.1 + d.1 ∧ p.2 = c.2 + d.2 then B.w (c.1 + d.1) (c.2 + d.2)
            else st.b p.1 p.2) ≠ b1 p.1 p.2)
        = insert (c.1 + d.1, c.2 + d.2) (S.filter fun p => st.b p.1 p.2 ≠ b1 p.1 p.2) := by
      ext ⟨q1, q2⟩
      by_cases hq : q1 = c.1 + d.1 ∧ q2 = c.2 + d.2
      · obtain ⟨rfl, rfl⟩ := hq
        simp [hne, hS _ _ _ hg]
      · have : (q1, q2) ≠ (c.1 + d.1, c.2 + d.2) := by
          intro h; apply hq; simpa using h
        simp [hq, this]
    simp only [heq, Finset.card_insert_of_not_mem hnot]
    push_cast
    ring
  · rw [if_neg hg]

theorem Scheme.fold_count (B : Scheme) (S : Finset (Int × Int)) (b1 : Int → Int → Char)
    (s : Int × Int) (hS : ∀ x y ch, B.G x y ch = true → (x, y) ∈ S)
    (hW : ∀ x y ch, B.G x y ch = true → B.G x y (B.w x y) = false)
    (c : Int × Int) (hc : B.Enq b1 s c) (ds : List (Int × Int)) (hds : ∀ d ∈ ds, d ∈ B.offs)
    (st : Work) (hI : B.Inv b1 s (some c) st) :
    (ds.foldl (B.step c.1 c.2) st).n
        + ((S.filter fun p => (ds.foldl (B.step c.1 c.2) st).b p.1 p.2 ≠ b1 p.1 p.2).card : Int)
      = st.n + ((S.filter fun p => st.b p.1 p.2 ≠ b1 p.1 p.2).card : Int) := by
  induction ds generalizing st with
  | nil => rfl
  | cons d ds ih =>
    have h1 := (B.step_inv b1 s hW c hc st d (hds d (List.mem_cons_self d ds)) hI).1
    rw [List.foldl_cons, ih (fun d2 hd2 => hds d2 (List.mem_cons_of_mem d hd2)) _ h1,
      B.step_count S b1 s hS hW c st d hI]

theorem Scheme.loop_count_aux (B : Scheme) (S : Finset (Int × Int)) (b1 : Int → Int → Char)
    (s : Int × Int) (hS : ∀ x y ch, B.G x y ch = true → (x, y) ∈ S)
    (hW : ∀ x y ch, B.G x y ch = true → B.G x y (B.w x y) = false)
    (fuel : Nat) (st r : Work) (hI : B.Inv b1 s none st) (hr : B.loop fuel st = some r) :
    r.n + ((S.filter fun p => r.b p.1 p.2 ≠ b1 p.1 p.2).card : Int)
      = st.n + ((S.filter fun p => st.b p.1 p.2 ≠ b1 p.1 p.2).card : Int) := by
  induction fuel generalizing st with
  | zero =>
    obtain ⟨b, n, Q⟩ := st
    cases Q with
    | nil =>
      simp only [Scheme.loop, Option.some.injEq] at hr
      subst hr
      rfl
    | cons c Q => simp [Scheme.loop] at hr
  | succ fuel ih =>
    obtain ⟨b, n, Q⟩ := st
    cases Q with
    | nil =>
      simp only [Scheme.loop, Option.some.injEq] at hr
      subst hr
      rfl
    | cons c Q =>
      obtain ⟨x, y⟩ := c
      simp only [Scheme.loop] at hr
      have hc : B.Enq b1 s (x, y) := hI.q _ (List.mem_cons_self _ _)
      have hI1 : B.Inv b1 s (some (x, y)) ⟨b, n, Q⟩ := by
        refine ⟨hI.a, fun c hc => hI.q c (List.mem_cons_of_mem _ hc), fun p hp => ?_⟩
        rcases hI.c p hp with h | h | h
        · simp at h
        · rcases List.mem_cons.mp h with rfl | h
          · exact Or.inl rfl
          · exact Or.inr (Or.inl h)
        · exact Or.inr (Or.inr h)
      obtain ⟨k1, -, k3⟩ := B.fold_inv b1 s hW (x, y) hc B.offs (fun _ h => h) _ hI1
      have hI2 : B.Inv b1 s none (B.offs.foldl (B.step x y) ⟨b, n, Q⟩) := by
        refine ⟨k1.a, k1.q, fun p hp => ?_⟩
        rcases k1.c p hp with h | h | h
        · simp only [Option.some.injEq] at h
          subst h
          exact Or.inr (Or.inr k3)
        · exact Or.inr (Or.inl h)
        · exact Or.inr (Or.inr h)
      rw [ih _ hI2 hr]
      exact B.fold_count S b1 s hS hW (x, y) hc B.offs (fun _ h => h) _ hI1

/-- The counter of the scheme goes down by the number of cells overwritten. -/
theorem Scheme.loop_count (B : Scheme) (S : Finset (Int × Int)) (b1 : Int → Int → Char)
    (s : Int × Int) (hS : ∀ x y ch, B.G x y ch = true → (x, y) ∈ S)
    (hW : ∀ x y ch, B.G x y ch = true → B.G x y (B.w x y) = false)
    (fuel : Nat) (n : Int) (r : Work) (hr : B.loop fuel ⟨b1, n, [s]⟩ = some r) :
    r.n = n - ((S.filter fun p => r.b p.1 p.2 ≠ b1 p.1 p.2).card : Int) := by
  have h := B.loop_count_aux S b1 s hS hW fuel _ r (B.inv_init b1 s hW n) hr
  have h0 : (S.filter fun p : Int × Int => b1 p.1 p.2 ≠ b1 p.1 p.2) = ∅ := by
    ext p; simp
  rw [h0, Finset.card_empty] at h
  simp only [Nat.cast_zero, add_zero] at h
  rw [← h]
  ring

/-! ## floodFill as an instance of the scheme -/

theorem floodStep_rel (a : Array2D) (f : Char) (x y : Int) (st : Array2D × List (Int × Int))
    (wk : Work) (d : Int × Int) (h : FloodRel a st wk) :
    FloodRel a (floodStep f x y st d) ((floodScheme a f).step x y wk d) := by
  obtain ⟨⟨w, ht, b⟩, Q⟩ := st
  obtain ⟨h1, h2, h3, h4⟩ := h
  simp only at h1 h2 h3 h4
  subst h1 h2 h3 h4
  unfold floodStep Scheme.step
  simp only [floodScheme, Array2D.pointValid, Array2D.get, Array2D.set]
  split
  · exact ⟨rfl, rfl, rfl, rfl⟩
  · exact ⟨rfl, rfl, rfl, rfl⟩

theorem floodFold_rel (a : Array2D) (f : Char) (x y : Int) (ds : List (Int × Int))
    (st : Array2D × List (Int × Int)) (wk : Work) (h : FloodRel a st wk) :
    FloodRel a (ds.foldl (floodStep f x y) st) (ds.foldl ((floodScheme a f).step x y) wk) := by
  induction ds generalizing st wk with
  | nil => exact h
  | cons d ds ih => exact ih _ _ (floodStep_rel a f x y st wk d h)

theorem floodLoop_rel (a : Array2D) (f : Char) (fuel : Nat) (arr : Array2D)
    (Q : List (Int × Int)) (wk : Work) (h : FloodRel a (arr, Q) wk) :
    floodLoop f fuel arr Q
      = ((floodScheme a f).loop fuel wk).map fun r => ⟨a.width, a.height, r.b⟩ := by
  induction fuel generalizing arr Q wk with
  | zero =>
    obtain ⟨b, n, Q2⟩ := wk
    obtain ⟨h1, h2, h3, h4⟩ := h
    simp only at h1 h2 h3 h4
    subst h4
    cases Q with
    | nil =>
      obtain ⟨w, ht, b0⟩ := arr
      simp only at h1 h2 h3
      subst h1 h2 h3
      rfl
    | cons c Q => rfl
  | succ fuel ih =>
    obtain ⟨b, n, Q2⟩ := wk
    have h0 := h
    obtain ⟨h1, h2, h3, h4⟩ := h
    simp only at h1 h2 h3 h4
    subst h4
    cases Q with
    | nil =>
      obtain ⟨w, ht, b0⟩ := arr
      simp only at h1 h2 h3
      subst h1 h2 h3
      rfl
    | cons c Q =>
      obtain ⟨x, y⟩ := c
      simp only [floodLoop, Scheme.loop]
      exact ih _ _ _ (floodFold_rel a f x y tileOffsetsOrthog (arr, Q) ⟨b, n, Q⟩
        ⟨h1, h2, h3, rfl⟩)

theorem FillReach.open {array : Array2D} {f : Char} {sx sy x y : Int}
    (h : FillReach array f sx sy x y) : OpenReach array sx sy x y := by
  induction h with
  | start => exact OpenReach.start
  | step _ hd hv _ hs ih => exact OpenReach.step ih hd hv hs

theorem floodScheme_guard (a : Array2D) (f : Char) (x y : Int) (ch : Char) :
    (floodScheme a f).G x y ch = true ↔ a.pointValid x y = true ∧ ch ≠ f ∧ ch ≠ solidChar := by
  simp [floodScheme, and_assoc]

theorem floodScheme_hW (a : Array2D) (f : Char) (x y : Int) (ch : Char)
    (_h : (floodScheme a f).G x y ch = true) :
    (floodScheme a f).G x y ((floodScheme a f).w x y) = false := by
  simp [floodScheme]

theorem pointValid_iff (a : Array2D) (x y : Int) :
    a.pointValid x y = true ↔ 0 ≤ x ∧ x < a.width ∧ 0 ≤ y ∧ y < a.height := by
  simp [Array2D.pointValid, and_assoc]

theorem flood_enq_iff (a : Array2D) (f : Char) (sx sy : Int) (p : Int × Int) :
    (floodScheme a f).Enq (a.set sx sy f).array (sx, sy) p ↔ FillReach a f sx sy p.1 p.2 := by
  constructor
  · intro h
    induction h with
    | start => exact FillReach.start
    | @step c d _ hd hg _ ih =>
      rw [floodScheme_guard] at hg
      obtain ⟨hv, h1, h2⟩ := hg
      simp only [Array2D.set] at h1 h2
      by_cases hxy : c.1 + d.1 = sx ∧ c.2 + d.2 = sy
      · rw [if_pos hxy] at h1
        exact absurd rfl h1
      · rw [if_neg hxy] at h1 h2
        exact FillReach.step ih hd hv h1 h2
  · intro h
    obtain ⟨p1, p2⟩ := p
    simp only at h
    induction h with
    | start => exact Scheme.Enq.start
    | @step x y d _ hd hv h1 h2 ih =>
      by_cases hxy : x + d.1 = sx ∧ y + d.2 = sy
      · rw [hxy.1, hxy.2]
        exact Scheme.Enq.start
      · refine Scheme.Enq.step (c := (x, y)) ih hd ?_ rfl
        rw [floodScheme_guard]
        simp only [Array2D.set, if_neg hxy]
        exact ⟨hv, h1, h2⟩

theorem flood_hit_iff (a : Array2D) (f : Char) (sx sy : Int) (x y : Int) :
    (floodScheme a f).Hit (a.set sx sy f).array (sx, sy) (x, y)
      ↔ FillReach a f sx sy x y ∧ ¬ (x = sx ∧ y = sy) := by
  constructor
  · rintro ⟨hg, c, d, hc, hd, hp⟩
    simp only [Prod.mk.injEq] at hp
    obtain ⟨rfl, rfl⟩ := hp
    rw [floodScheme_guard] at hg
    obtain ⟨hv, h1, h2⟩ := hg
    simp only [Array2D.set] at h1 h2
    by_cases hxy : c.1 + d.1 = sx ∧ c.2 + d.2 = sy
    · rw [if_pos hxy] at h1
      exact absurd rfl h1
    · rw [if_neg hxy] at h1 h2
      exact ⟨FillReach.step ((flood_enq_iff a f sx sy c).mp hc) hd hv h1 h2, hxy⟩
  · rintro ⟨h, hne⟩
    cases h with
    | start => exact absurd ⟨rfl, rfl⟩ hne
    | @step x0 y0 d hc hd hv h1 h2 =>
      refine ⟨?_, (x0, y0), d, (flood_enq_iff a f sx sy (x0, y0)).mpr hc, hd, rfl⟩
      rw [floodScheme_guard]
      simp only [Array2D.set, if_neg hne]
      exact ⟨hv, h1, h2⟩

/-- What `floodFill` computes: with fuel for `width * height` dequeues it
returns, the bounds are kept, the cells in `FillReach` hold the marker and all
other cells are as before. -/
theorem floodFill_spec (array : Array2D) (f : Char) (sx sy : Int)
    (hv : array.pointValid sx sy = true) (fuel : Nat)
    (hf : array.width.toNat * array.height.toNat ≤ fuel) :
    ∃ r, floodFill fuel array f sx sy = some r ∧ r.width = array.width ∧
      r.height = array.height ∧
      ∀ x y, (FillReach array f sx sy x y → r.get x y = f) ∧
        (¬ FillReach array f sx sy x y → r.get x y = array.get x y) := by
  have hrel := floodLoop_rel array f fuel (array.set sx sy f) [(sx, sy)]
    ⟨(array.set sx sy f).array, 0, [(sx, sy)]⟩ ⟨rfl, rfl, rfl, rfl⟩
  have hS : ∀ x y ch, (floodScheme array f).G x y ch = true →
      (x, y) ∈ box array.width array.height := by
    intro x y ch h
    rw [floodScheme_guard] at h
    exact mem_box.mpr ((pointValid_iff array x y).mp h.1)
  have hK : ∀ x y, (floodScheme array f).e x y = true →
      (floodScheme array f).G x y ((floodScheme array f).w x y) = false := by
    intro x y _
    simp [floodScheme]
  have hpend : (floodScheme array f).pending (box array.width array.height)
      (array.set sx sy f).array + 1 ≤ array.width.toNat * array.height.toNat := by
    have hsub : ((box array.width array.height).filter fun p : Int × Int =>
          (floodScheme array f).G p.1 p.2 ((array.set sx sy f).array p.1 p.2) = true ∧
            (floodScheme array f).e p.1 p.2 = true)
        ⊆ (box array.width array.height).erase (sx, sy) := by
      intro p hp
      rw [Finset.mem_filter] at hp
      rw [Finset.mem_erase]
      refine ⟨?_, hp.1⟩
      rintro rfl
      have := hp.2.1
      simp [floodScheme, Array2D.set] at this
    have hmem : (sx, sy) ∈ box array.width array.height :=
      mem_box.mpr ((pointValid_iff array sx sy).mp hv)
    have h1 := Finset.card_le_card hsub
    rw [Finset.card_erase_of_mem hmem, card_box] at h1
    have h2 := Finset.card_pos.mpr ⟨_, hmem⟩
    rw [card_box] at h2
    unfold Scheme.pending
    omega
  obtain ⟨r, hr⟩ := (floodScheme array f).loop_returns (box array.width array.height) hS hK
    fuel ⟨(array.set sx sy f).array, 0, [(sx, sy)]⟩ (by simp only [List.length_singleton]; omega)
  have hres := (floodScheme array f).loop_result (array.set sx sy f).array (sx, sy)
    (floodScheme_hW array f) fuel 0 r hr
  refine ⟨⟨array.width, array.height, r.b⟩, ?_, rfl, rfl, fun x y => ⟨fun h => ?_, fun h => ?_⟩⟩
  · unfold floodFill
    rw [hrel, hr]
    rfl
  · by_cases hxy : x = sx ∧ y = sy
    · have hn : ¬ (floodScheme array f).Hit (array.set sx sy f).array (sx, sy) (x, y) := by
        rw [flood_hit_iff]
        exact fun h => h.2 hxy
      have := (hres x y).2 hn
      simp only [Array2D.get, this, Array2D.set, if_pos hxy]
    · exact (hres x y).1 ((flood_hit_iff array f sx sy x y).mpr ⟨h, hxy⟩)
  · have hxy : ¬ (x = sx ∧ y = sy) := by
      rintro ⟨rfl, rfl⟩
      exact h FillReach.start
    have hn : ¬ (floodScheme array f).Hit (array.set sx sy f).array (sx, sy) (x, y) := by
      rw [flood_hit_iff]
      exact fun h2 => h h2.1
    have := (hres x y).2 hn
    simp only [Array2D.get, this, Array2D.set, if_neg hxy]

/-! ## Claims about floodFill -/

/-- C1, as stated, fails: on the 3 by 1 grid `[' ', 'X', ' ']` with marker
`'X'` and start `(0, 0)`, the cell `(2, 0)` is reachable from the start through
in-bounds non-solid cells, yet after the call it still holds `' '`: a cell that
already holds the marker stops the fill. -/
theorem floodFill_reach_counterexample :
    0 < stripeGrid.width ∧ 0 < stripeGrid.height ∧ stripeGrid.pointValid 0 0 = true ∧
      stripeGrid.get 0 0 ≠ solidChar ∧ OpenReach stripeGrid 0 0 2 0 ∧
      (floodFill 3 stripeGrid 'X' 0 0).map (fun r => r.get 2 0) = some ' ' := by
  refine ⟨by decide, by decide, by decide, by decide, ?_, by decide⟩
  have h1 : OpenReach stripeGrid 0 0 (0 + (1, 0).1) (0 + (1, 0).2) :=
    OpenReach.step (d := (1, 0)) OpenReach.start (by decide) (by decide) (by decide)
  exact OpenReach.step (d := (1, 0)) h1 (by decide) (by decide) (by decide)

/-- C1, amended: for every grid, marker and in-bounds non-solid start,
`floodFill` returns; afterwards the cells reachable from the start by
orthogonal steps onto in-bounds cells that are neither solid nor already equal
to the marker (the start included) hold the marker, every other cell holds
what it held before, and every cell that was solid is still solid. -/
theorem floodFill_marks_reach (array : Array2D) (fillChar : Char) (startX startY : Int)
    (hv : array.pointValid startX startY = true)
    (hs : array.get startX startY ≠ solidChar) (fuel : Nat)
    (hf : array.width.toNat * array.height.toNat ≤ fuel) :
    ∃ r, floodFill fuel array fillChar startX startY = some r ∧
      (∀ x y, FillReach array fillChar startX startY x y → r.get x y = fillChar) ∧
      (∀ x y, ¬ FillReach array fillChar startX startY x y → r.get x y = array.get x y) ∧
      (∀ x y, array.get x y = solidChar → r.get x y = solidChar) := by
  obtain ⟨r, hr, -, -, h⟩ := floodFill_spec array fillChar startX startY hv fuel hf
  refine ⟨r, hr, fun x y => (h x y).1, fun x y => (h x y).2, fun x y hxy => ?_⟩
  have hn : ¬ FillReach array fillChar startX startY x y := by
    intro hreach
    cases hreach with
    | start => exact hs hxy
    | step _ _ _ _ h2 => exact h2 hxy
  rw [(h x y).2 hn, hxy]

/-- C1, witness: the amended statement at the 3 by 3 grid without solid
cells, marker `'X'`, start `(1, 1)`; there all nine cells end up `'X'`. -/
theorem floodFill_marks_reach_witness :
    ((floodFill 9 (Array2D.init 3 3 emptyChar) 'X' 1 1).map Array2D.rows
        = some [['X', 'X', 'X'], ['X', 'X', 'X'], ['X', 'X', 'X']]) ∧
      ∃ r, floodFill 9 (Array2D.init 3 3 emptyChar) 'X' 1 1 = some r ∧
        (∀ x y, FillReach (Array2D.init 3 3 emptyChar) 'X' 1 1 x y → r.get x y = 'X') ∧
        (∀ x y, ¬ FillReach (Array2D.init 3 3 emptyChar) 'X' 1 1 x y →
          r.get x y = (Array2D.init 3 3 emptyChar).get x y) ∧
        (∀ x y, (Array2D.init 3 3 emptyChar).get x y = solidChar → r.get x y = solidChar) :=
  ⟨by decide,
    floodFill_marks_reach (Array2D.init 3 3 emptyChar) 'X' 1 1 (by decide) (by decide) 9
      (by decide)⟩

/-- C2: for every grid, marker and in-bounds non-solid start, `floodFill`
returns a grid of the same width and height in which every cell outside the
4-connected non-solid component of the start holds what it held before; solid
cells stay solid, cells already equal to the marker stay the marker, and every
cell whose value differs from before holds the marker. -/
theorem floodFill_frame (array : Array2D) (fillChar : Char) (startX startY : Int)
    (hv : array.pointValid startX startY = true)
    (hs : array.get startX startY ≠ solidChar) (fuel : Nat)
    (hf : array.width.toNat * array.height.toNat ≤ fuel) :
    ∃ r, floodFill fuel array fillChar startX startY = some r ∧
      r.width = array.width ∧ r.height = array.height ∧
      (∀ x y, ¬ OpenReach array startX startY x y → r.get x y = array.get x y) ∧
      (∀ x y, array.get x y = solidChar → r.get x y = solidChar) ∧
      (∀ x y, array.get x y = fillChar → r.get x y = fillChar) ∧
      (∀ x y, r.get x y ≠ array.get x y → r.get x y = fillChar) := by
  obtain ⟨r, hr, hw, hh, h⟩ := floodFill_spec array fillChar startX startY hv fuel hf
  have hchanged : ∀ x y, r.get x y ≠ array.get x y → r.get x y = fillChar := by
    intro x y hne
    by_cases hreach : FillReach array fillChar startX startY x y
    · exact (h x y).1 hreach
    · exact absurd ((h x y).2 hreach) hne
  refine ⟨r, hr, hw, hh, fun x y hn => (h x y).2 (fun hreach => hn hreach.open),
    fun x y hxy => ?_, fun x y hxy => ?_, hchanged⟩
  · have hn : ¬ FillReach array fillChar startX startY x y := by
      intro hreach
      cases hreach with
      | start => exact hs hxy
      | step _ _ _ _ h2 => exact h2 hxy
    rw [(h x y).2 hn, hxy]
  · by_cases hne : r.get x y = array.get x y
    · rw [hne, hxy]
    · exact hchanged x y hne

/-- C2, witness: the frame statement at a 3 by 3 grid whose cells `(1, 0)` and
`(1, 1)` are solid, marker `'X'`, start `(0, 0)`. -/
theorem floodFill_frame_witness :
    ∃ r, floodFill 9 (((Array2D.init 3 3 emptyChar).set 1 0 solidChar).set 1 1 solidChar)
        'X' 0 0 = some r ∧
      r.width = 3 ∧ r.height = 3 ∧
      (∀ x y, ¬ OpenReach (((Array2D.init 3 3 emptyChar).set 1 0 solidChar).set 1 1 solidChar)
          0 0 x y →
        r.get x y = (((Array2D.init 3 3 emptyChar).set 1 0 solidChar).set 1 1 solidChar).get x y) ∧
      (∀ x y, (((Array2D.init 3 3 emptyChar).set 1 0 solidChar).set 1 1 solidChar).get x y
          = solidChar → r.get x y = solidChar) ∧
      (∀ x y, (((Array2D.init 3 3 emptyChar).set 1 0 solidChar).set 1 1 solidChar).get x y
          = 'X' → r.get x y = 'X') ∧
      (∀ x y, r.get x y
          ≠ (((Array2D.init 3 3 emptyChar).set 1 0 solidChar).set 1 1 solidChar).get x y →
        r.get x y = 'X') :=
  floodFill_frame (((Array2D.init 3 3 emptyChar).set 1 0 solidChar).set 1 1 solidChar) 'X' 0 0
    (by decide) (by decide) 9 (by decide)

/-- C3: `floodFill` is idempotent: for every grid, marker and in-bounds start
the first call returns a grid on which a second call with the same marker and
start returns that same grid. -/
theorem floodFill_idempotent (array : Array2D) (fillChar : Char) (startX startY : Int)
    (hv : array.pointValid startX startY = true) (fuel : Nat)
    (hf : array.width.toNat * array.height.toNat ≤ fuel) :
    ∃ r, floodFill fuel array fillChar startX startY = some r ∧
      floodFill fuel r fillChar startX startY = some r := by
  obtain ⟨r, hr, hw, hh, h⟩ := floodFill_spec array fillChar startX startY hv fuel hf
  have hv2 : r.pointValid startX startY = true := by
    rw [pointValid_iff] at hv ⊢
    rw [hw, hh]
    exact hv
  obtain ⟨r2, hr2, hw2, hh2, h2⟩ :=
    floodFill_spec r fillChar startX startY hv2 fuel (by rw [hw, hh]; exact hf)
  have hclosed : ∀ x y, FillReach r fillChar startX startY x y →
      FillReach array fillChar startX startY x y := by
    intro x y hreach
    induction hreach with
    | start => exact FillReach.start
    | @step x0 y0 d _ hd hval h3 h4 ih =>
      have hval0 : array.pointValid (x0 + d.1) (y0 + d.2) = true := by
        rw [pointValid_iff] at hval ⊢
        rw [← hw, ← hh]
        exact hval
      by_cases hin : FillReach array fillChar startX startY (x0 + d.1) (y0 + d.2)
      · exact hin
      · have hsame := (h (x0 + d.1) (y0 + d.2)).2 hin
        rw [hsame] at h3 h4
        exact FillReach.step ih hd hval0 h3 h4
  have hfix : ∀ x y, r2.array x y = r.array x y := by
    intro x y
    by_cases hreach : FillReach r fillChar startX startY x y
    · have e1 := (h2 x y).1 hreach
      have e2 := (h x y).1 (hclosed x y hreach)
      simp only [Array2D.get] at e1 e2
      rw [e1, e2]
    · exact (h2 x y).2 hreach
  have heq : r2 = r := by
    obtain ⟨w2, t2, b2⟩ := r2
    obtain ⟨w1, t1, b1⟩ := r
    simp only at hw2 hh2 hfix
    subst hw2 hh2
    have : b2 = b1 := funext fun x => funext fun y => hfix x y
    rw [this]
  exact ⟨r, hr, by rw [hr2, heq]⟩

/-- C3, witness: idempotence at a 3 by 3 grid with one solid cell. -/
theorem floodFill_idempotent_witness :
    ∃ r, floodFill 9 ((Array2D.init 3 3 emptyChar).set 1 0 solidChar) 'X' 2 2 = some r ∧
      floodFill 9 r 'X' 2 2 = some r :=
  floodFill_idempotent ((Array2D.init 3 3 emptyChar).set 1 0 solidChar) 'X' 2 2
    (by decide) 9 (by decide)

/-! ## The preparation pass -/

theorem mineCountList_eq (mines : Array2D) (x y : Int) :
    mineCountList mines x y = neighbourMines mines x y := by
  unfold mineCountList neighbourMines
  have hnd : tileOffsetsExtend.Nodup := by decide
  have hset : tileOffsetsExtend.toFinset
      = ((({-1, 0, 1} : Finset Int) ×ˢ ({-1, 0, 1} : Finset Int)).erase (0, 0)) := by decide
  rw [← hset, ← List.toFinset_filter, List.toFinset_card_of_nodup (hnd.filter _)]

theorem mineCountList_le (mines : Array2D) (x y : Int) : mineCountList mines x y ≤ 8 := by
  unfold mineCountList
  exact (List.length_filter_le _ _).trans (by decide)

theorem toNat_ofNat_small (n : Nat) (h : n < 55296) : (Char.ofNat n).toNat = n := by
  have hv : n.isValidChar := Or.inl h
  simp [Char.ofNat, hv, Char.ofNatAux, Char.toNat, Char.ofNatAux]
  rfl

theorem incChar_digit (k : Nat) (hk : k < 1000) : incChar (digitChar k) = digitChar (k + 1) := by
  unfold incChar digitChar
  have h0 : '0'.toNat = 48 := rfl
  rw [toNat_ofNat_small _ (by omega)]
  rfl

theorem digitChar_ne (k : Nat) (hk : k ≤ 8) (c : Char) (hc : c.toNat < 48 ∨ 56 < c.toNat) :
    digitChar k ≠ c := by
  intro h
  have h1 : (digitChar k).toNat = 48 + k := by
    unfold digitChar
    have h0 : '0'.toNat = 48 := rfl
    rw [h0]
    exact toNat_ofNat_small _ (by omega)
  rw [h] at h1
  omega

theorem Array2D.set_set (m : Array2D) (i j : Int) (v v2 : Char) :
    (m.set i j v).set i j v2 = m.set i j v2 := by
  unfold Array2D.set
  simp only [Array2D.mk.injEq, true_and]
  funext x y
  by_cases h : x = i ∧ y = j
  · simp [h]
  · simp [h]

theorem countFold (m0 : Array2D) (i j : Int) (ds : List (Int × Int))
    (hds : ∀ d ∈ ds, d ≠ (0, 0)) (k : Nat) (hk : k + ds.length ≤ 8) :
    ds.foldl (countStep i j) (m0.set i j (digitChar k))
      = m0.set i j (digitChar (k + (ds.filter fun d =>
          m0.pointValid (i + d.1) (j + d.2) && m0.get (i + d.1) (j + d.2) == solidChar).length)) := by
  induction ds generalizing k with
  | nil => rfl
  | cons d ds ih =>
    have hd : ¬ (i + d.1 = i ∧ j + d.2 = j) := by
      rintro ⟨h1, h2⟩
      apply hds d (List.mem_cons_self d ds)
      exact Prod.ext (by simpa using h1) (by simpa using h2)
    have hget : (m0.set i j (digitChar k)).get (i + d.1) (j + d.2) = m0.get (i + d.1) (j + d.2) := by
      simp only [Array2D.get, Array2D.set, if_neg hd]
    have hpv : (m0.set i j (digitChar k)).pointValid (i + d.1) (j + d.2)
        = m0.pointValid (i + d.1) (j + d.2) := rfl
    have hself : (m0.set i j (digitChar k)).get i j = digitChar k := by
      simp [Array2D.get, Array2D.set]
    simp only [List.length_cons] at hk
    rw [List.foldl_cons]
    by_cases hg : (m0.pointValid (i + d.1) (j + d.2)
        && m0.get (i + d.1) (j + d.2) == solidChar) = true
    · have hstep : countStep i j (m0.set i j (digitChar k)) d
          = m0.set i j (digitChar (k + 1)) := by
        unfold countStep
        simp only [hget, hpv, hg, if_true, hself]
        rw [incChar_digit k (by omega), Array2D.set_set]
      rw [hstep, ih (fun d2 h2 => hds d2 (List.mem_cons_of_mem d h2)) (k + 1) (by omega)]
      simp only [List.filter_cons, hg, if_true, List.length_cons]
      congr 2
      omega
    · have hstep : countStep i j (m0.set i j (digitChar k)) d = m0.set i j (digitChar k) := by
        unfold countStep
        simp only [hget, hpv, hg]
        rfl
      rw [hstep, ih (fun d2 h2 => hds d2 (List.mem_cons_of_mem d h2)) k (by omega)]
      simp only [List.filter_cons, hg]
      rfl

/-- One cell of the preparation pass: a mine is left alone, another cell gets
`'0'` plus the number of its neighbours that currently hold `solidChar`. -/
theorem prepareCell_eq (m : Array2D) (i j : Int) :
    prepareCell m i j
      = if m.get i j = solidChar then m else m.set i j (digitChar (mineCountList m i j)) := by
  unfold prepareCell
  by_cases h : m.get i j = solidChar
  · simp [h]
  · have h0 : (m.get i j == solidChar) = false := by simpa using h
    rw [if_neg h]
    simp only [h0]
    have hz : ('0' : Char) = digitChar 0 := rfl
    have := countFold m i j tileOffsetsExtend (by decide) 0 (by decide)
    rw [hz, this, Nat.zero_add]
    rfl

theorem prepTarget_solid_iff (mines : Array2D) (x y : Int) :
    prepTarget mines x y = solidChar ↔ mines.get x y = solidChar := by
  unfold prepTarget
  by_cases h : mines.get x y = solidChar
  · simp [h]
  · simp only [if_neg h, h, iff_false]
    exact digitChar_ne _ (mineCountList_le mines x y) solidChar (Or.inl (by decide))

theorem PrepInv.mine_iff {mines m : Array2D} (h : PrepInv mines m) (x y : Int) :
    m.get x y = solidChar ↔ mines.get x y = solidChar := by
  rcases h.2.2 x y with h1 | h1
  · rw [h1]
  · rw [h1]
    exact prepTarget_solid_iff mines x y

theorem PrepInv.count_eq {mines m : Array2D} (h : PrepInv mines m) (x y : Int) :
    mineCountList m x y = mineCountList mines x y := by
  unfold mineCountList
  congr 1
  apply List.filter_congr
  intro d _
  have h1 : m.pointValid (x + d.1) (y + d.2) = mines.pointValid (x + d.1) (y + d.2) := by
    unfold Array2D.pointValid
    rw [h.1, h.2.1]
  have h2 : (m.get (x + d.1) (y + d.2) == solidChar)
      = (mines.get (x + d.1) (y + d.2) == solidChar) := by
    have := h.mine_iff (x + d.1) (y + d.2)
    by_cases hm : mines.get (x + d.1) (y + d.2) = solidChar
    · simp [hm, this.mpr hm]
    · have hm2 : ¬ m.get (x + d.1) (y + d.2) = solidChar := fun h3 => hm (this.mp h3)
      simp [hm, hm2]
  rw [h1, h2]

theorem prepareCell_inv {mines m : Array2D} (h : PrepInv mines m) (i j : Int) :
    PrepInv mines (prepareCell m i j) ∧
      (prepareCell m i j).get i j = prepTarget mines i j ∧
      ∀ x y, m.get x y = prepTarget mines x y →
        (prepareCell m i j).get x y = prepTarget mines x y := by
  rw [prepareCell_eq]
  by_cases hm : m.get i j = solidChar
  · rw [if_pos hm]
    refine ⟨h, ?_, fun _ _ h1 => h1⟩
    rw [hm]
    exact ((prepTarget_solid_iff mines i j).mpr ((h.mine_iff i j).mp hm)).symm
  · rw [if_neg hm]
    have hm0 : ¬ mines.get i j = solidChar := fun h1 => hm ((h.mine_iff i j).mpr h1)
    have ht : digitChar (mineCountList m i j) = prepTarget mines i j := by
      rw [h.count_eq]
      unfold prepTarget
      rw [if_neg hm0]
    rw [ht]
    have hget : ∀ x y, (m.set i j (prepTarget mines i j)).get x y
        = if x = i ∧ y = j then prepTarget mines i j else m.get x y := fun _ _ => rfl
    refine ⟨⟨h.1, h.2.1, fun x y => ?_⟩, ?_, fun x y h1 => ?_⟩
    · rw [hget]
      by_cases hxy : x = i ∧ y = j
      · rw [if_pos hxy, hxy.1, hxy.2]
        exact Or.inr rfl
      · rw [if_neg hxy]
        exact h.2.2 x y
    · rw [hget]
      simp
    · rw [hget]
      by_cases hxy : x = i ∧ y = j
      · rw [if_pos hxy, hxy.1, hxy.2]
      · rw [if_neg hxy]
        exact h1

theorem prepareColumn_inv {mines : Array2D} (i : Int) (js : List Nat) (m : Array2D)
    (h : PrepInv mines m) :
    PrepInv mines (js.foldl (fun (m : Array2D) (j : Nat) => prepareCell m i (j : Int)) m) ∧
      (∀ j ∈ js, (js.foldl (fun (m : Array2D) (j : Nat) => prepareCell m i (j : Int)) m).get i (j : Int)
        = prepTarget mines i (j : Int)) ∧
      ∀ x y, m.get x y = prepTarget mines x y →
        (js.foldl (fun (m : Array2D) (j : Nat) => prepareCell m i (j : Int)) m).get x y = prepTarget mines x y := by
  induction js generalizing m with
  | nil => exact ⟨h, fun j hj => absurd hj (List.not_mem_nil j), fun _ _ h1 => h1⟩
  | cons j js ih =>
    obtain ⟨h1, h2, h3⟩ := prepareCell_inv h i (j : Int)
    obtain ⟨k1, k2, k3⟩ := ih _ h1
    rw [List.foldl_cons]
    refine ⟨k1, fun j2 hj2 => ?_, fun x y hxy => k3 x y (h3 x y hxy)⟩
    rcases List.mem_cons.mp hj2 with rfl | hj2
    · exact k3 _ _ h2
    · exact k2 j2 hj2

theorem prepareGrid_inv {mines : Array2D} (is : List Nat) (m : Array2D) (h : PrepInv mines m) :
    PrepInv mines (is.foldl (fun (m : Array2D) (i : Nat) => (List.range m.height.toNat).foldl
        (fun (m : Array2D) (j : Nat) => prepareCell m (i : Int) (j : Int)) m) m) ∧
      (∀ i ∈ is, ∀ j ∈ List.range mines.height.toNat,
        (is.foldl (fun (m : Array2D) (i : Nat) => (List.range m.height.toNat).foldl
          (fun (m : Array2D) (j : Nat) => prepareCell m (i : Int) (j : Int)) m) m).get (i : Int) (j : Int)
          = prepTarget mines (i : Int) (j : Int)) ∧
      ∀ x y, m.get x y = prepTarget mines x y →
        (is.foldl (fun (m : Array2D) (i : Nat) => (List.range m.height.toNat).foldl
          (fun (m : Array2D) (j : Nat) => prepareCell m (i : Int) (j : Int)) m) m).get x y
          = prepTarget mines x y := by
  induction is generalizing m with
  | nil => exact ⟨h, fun i hi => absurd hi (List.not_mem_nil i), fun _ _ h1 => h1⟩
  | cons i is ih =>
    obtain ⟨h1, h2, h3⟩ := prepareColumn_inv (i : Int) (List.range m.height.toNat) m h
    obtain ⟨k1, k2, k3⟩ := ih _ h1
    rw [List.foldl_cons]
    refine ⟨k1, fun i2 hi2 j hj => ?_, fun x y hxy => k3 x y (h3 x y hxy)⟩
    rcases List.mem_cons.mp hi2 with rfl | hi2
    · rw [← h.2.1] at hj
      exact k3 _ _ (h2 j hj)
    · exact k2 i2 hi2 j hj

/-- The preparation pass written out cell by cell. -/
theorem prepare_spec (mines : Array2D) :
    (prepare mines).width = mines.width ∧ (prepare mines).height = mines.height ∧
      (∀ x y, (prepare mines).get x y = solidChar ↔ mines.get x y = solidChar) ∧
      (∀ x y, mines.pointValid x y = true →
        (prepare mines).get x y = prepTarget mines x y) := by
  have h0 : PrepInv mines mines := ⟨rfl, rfl, fun _ _ => Or.inl rfl⟩
  obtain ⟨k1, k2, -⟩ := prepareGrid_inv (List.range mines.width.toNat) mines h0
  refine ⟨k1.1, k1.2.1, fun x y => k1.mine_iff x y, fun x y hv => ?_⟩
  · rw [pointValid_iff] at hv
    have hx : ((x.toNat : Nat) : Int) = x := Int.toNat_of_nonneg hv.1
    have hy : ((y.toNat : Nat) : Int) = y := Int.toNat_of_nonneg hv.2.2.1
    have := k2 x.toNat (List.mem_range.mpr (by omega)) y.toNat (List.mem_range.mpr (by omega))
    rw [hx, hy] at this
    exact this

/-- C4: for every layout, after the preparation pass of `mineLoop` the bounds
are unchanged, a cell holds `solidChar` exactly when it did in the original
layout, and every in-bounds non-mine cell `(x, y)` holds `'0' + k` where
`k ≤ 8` is the number of its eight neighbours that are in bounds and are mines
of the original layout. -/
theorem prepare_adjacency (mines : Array2D) :
    (prepare mines).width = mines.width ∧ (prepare mines).height = mines.height ∧
      (∀ x y, (prepare mines).get x y = solidChar ↔ mines.get x y = solidChar) ∧
      (∀ x y, mines.pointValid x y = true → mines.get x y ≠ solidChar →
        (prepare mines).get x y = digitChar (neighbourMines mines x y) ∧
          neighbourMines mines x y ≤ 8) := by
  obtain ⟨h1, h2, h3, h4⟩ := prepare_spec mines
  refine ⟨h1, h2, h3, fun x y hv hm => ?_⟩
  rw [h4 x y hv, ← mineCountList_eq]
  unfold prepTarget
  rw [if_neg hm]
  exact ⟨rfl, mineCountList_le mines x y⟩

/-- C4, witness: the pass on the 3 by 3 layout with one mine at `(0, 0)`. -/
theorem prepare_adjacency_witness :
    (prepare cornerLayout).rows = [['#', '1', '0'], ['1', '1', '0'], ['0', '0', '0']] ∧
      (prepare cornerLayout).get 1 1 = digitChar (neighbourMines cornerLayout 1 1) ∧
        neighbourMines cornerLayout 1 1 ≤ 8 :=
  ⟨by decide, (prepare_adjacency cornerLayout).2.2.2 1 1 (by decide) (by decide)⟩

/-! ## mineFill as an instance of the scheme -/

theorem mineFillStep_rel (mines bd : Array2D) (x y : Int) (st : FillState) (wk : Work)
    (d : Int × Int) (h : MineRel bd st wk) :
    MineRel bd (mineFillStep mines x y st d) ((mineScheme mines).step x y wk d) := by
  obtain ⟨⟨w, ht, b0⟩, n0, Q0⟩ := st
  obtain ⟨b, n, Q⟩ := wk
  obtain ⟨h1, h2, h3, h4, h5⟩ := h
  simp only at h1 h2 h3 h4 h5
  subst h1 h2 h3 h4 h5
  unfold mineFillStep Scheme.step
  simp only [mineScheme, Array2D.get, Array2D.set]
  by_cases hg : (mines.pointValid (x + d.1) (y + d.2) && b0 (x + d.1) (y + d.2) == mineTileChar
      && mines.array (x + d.1) (y + d.2) != solidChar) = true
  · rw [if_pos hg, if_pos hg]
    by_cases hz : (mines.array (x + d.1) (y + d.2) == '0') = true
    · rw [if_pos hz]
      simp only [hz, if_true]
      exact ⟨rfl, rfl, rfl, rfl, rfl⟩
    · rw [if_neg hz]
      simp only [hz]
      exact ⟨rfl, rfl, rfl, rfl, rfl⟩
  · rw [if_neg hg, if_neg hg]
    exact ⟨rfl, rfl, rfl, rfl, rfl⟩

theorem mineFillFold_rel (mines bd : Array2D) (x y : Int) (ds : List (Int × Int))
    (st : FillState) (wk : Work) (h : MineRel bd st wk) :
    MineRel bd (ds.foldl (mineFillStep mines x y) st)
      (ds.foldl ((mineScheme mines).step x y) wk) := by
  induction ds generalizing st wk with
  | nil => exact h
  | cons d ds ih => exact ih _ _ (mineFillStep_rel mines bd x y st wk d h)

theorem mineFillLoop_rel (mines bd : Array2D) (fuel : Nat) (st : FillState) (wk : Work)
    (h : MineRel bd st wk) :
    mineFillLoop mines fuel st
      = ((mineScheme mines).loop fuel wk).map fun r => (⟨bd.width, bd.height, r.b⟩, r.n) := by
  induction fuel generalizing st wk with
  | zero =>
    obtain ⟨⟨w, ht, b0⟩, n0, Q⟩ := st
    obtain ⟨b, n, Q2⟩ := wk
    obtain ⟨h1, h2, h3, h4, h5⟩ := h
    simp only at h1 h2 h3 h4 h5
    subst h1 h2 h3 h4 h5
    cases Q with
    | nil => rfl
    | cons c Q => rfl
  | succ fuel ih =>
    obtain ⟨⟨w, ht, b0⟩, n0, Q⟩ := st
    obtain ⟨b, n, Q2⟩ := wk
    have h0 := h
    obtain ⟨h1, h2, h3, h4, h5⟩ := h
    simp only at h1 h2 h3 h4 h5
    subst h1 h2 h3 h4 h5
    cases Q with
    | nil => rfl
    | cons c Q =>
      obtain ⟨x, y⟩ := c
      simp only [mineFillLoop, Scheme.loop]
      exact ih _ _ (mineFillFold_rel mines bd x y tileOffsetsExtend _ _ ⟨rfl, rfl, rfl, rfl, rfl⟩)

theorem mineScheme_guard (mines : Array2D) (x y : Int) (ch : Char) :
    (mineScheme mines).G x y ch = true
      ↔ mines.pointValid x y = true ∧ ch = mineTileChar ∧ mines.get x y ≠ solidChar := by
  simp [mineScheme, and_assoc]

theorem mineScheme_hK (mines : Array2D) (x y : Int) (h : (mineScheme mines).e x y = true) :
    (mineScheme mines).G x y ((mineScheme mines).w x y) = false := by
  simp only [mineScheme] at h
  simp only [mineScheme, h, if_true]
  have : (emptyChar == mineTileChar) = false := by decide
  simp [this]

/-- The loop of `mineFill` returns with fuel for `width * height` dequeues,
for every layout and board and every in-bounds start. -/
theorem mineFill_returns (mines board : Array2D) (sx sy : Int) (num : Int)
    (hv : mines.pointValid sx sy = true) (fuel : Nat)
    (hf : mines.width.toNat * mines.height.toNat ≤ fuel) :
    ∃ r, (mineScheme mines).loop fuel
      ⟨(board.set sx sy emptyChar).array, num - 1, [(sx, sy)]⟩ = some r := by
  have hS : ∀ x y ch, (mineScheme mines).G x y ch = true →
      (x, y) ∈ box mines.width mines.height := by
    intro x y ch h
    rw [mineScheme_guard] at h
    exact mem_box.mpr ((pointValid_iff mines x y).mp h.1)
  have hpend : (mineScheme mines).pending (box mines.width mines.height)
      (board.set sx sy emptyChar).array + 1 ≤ mines.width.toNat * mines.height.toNat := by
    have hsub : ((box mines.width mines.height).filter fun p : Int × Int =>
          (mineScheme mines).G p.1 p.2 ((board.set sx sy emptyChar).array p.1 p.2) = true ∧
            (mineScheme mines).e p.1 p.2 = true)
        ⊆ (box mines.width mines.height).erase (sx, sy) := by
      intro p hp
      rw [Finset.mem_filter] at hp
      rw [Finset.mem_erase]
      refine ⟨?_, hp.1⟩
      rintro rfl
      have := (mineScheme_guard mines _ _ _).mp hp.2.1
      simp only [Array2D.set, and_self, if_true] at this
      exact absurd this.2.1 (by decide)
    have hmem : (sx, sy) ∈ box mines.width mines.height :=
      mem_box.mpr ((pointValid_iff mines sx sy).mp hv)
    have h1 := Finset.card_le_card hsub
    rw [Finset.card_erase_of_mem hmem, card_box] at h1
    have h2 := Finset.card_pos.mpr ⟨_, hmem⟩
    rw [card_box] at h2
    unfold Scheme.pending
    omega
  exact (mineScheme mines).loop_returns (box mines.width mines.height) hS (mineScheme_hK mines)
    fuel _ (by simp only [List.length_singleton]; omega)

theorem neighbourMines_le (mines : Array2D) (x y : Int) : neighbourMines mines x y ≤ 8 := by
  rw [← mineCountList_eq]
  exact mineCountList_le mines x y

theorem CorrectCounts.ne_tile {mines : Array2D} (hc : CorrectCounts mines) (x y : Int)
    (hv : mines.pointValid x y = true) : mines.get x y ≠ mineTileChar := by
  by_cases hm : mines.get x y = solidChar
  · rw [hm]
    decide
  · rw [hc x y hv hm]
    exact digitChar_ne _ (neighbourMines_le mines x y) mineTileChar (Or.inl (by decide))

theorem mineScheme_hW (mines : Array2D)
    (hne : ∀ x y, mines.pointValid x y = true → mines.get x y ≠ mineTileChar)
    (x y : Int) (ch : Char) (h : (mineScheme mines).G x y ch = true) :
    (mineScheme mines).G x y ((mineScheme mines).w x y) = false := by
  rw [mineScheme_guard] at h
  have h1 := hne x y h.1
  by_cases hz : mines.get x y = '0'
  · have : (emptyChar == mineTileChar) = false := by decide
    simp [mineScheme, hz, this]
  · simp [mineScheme, hz, h1]

theorem mine_enq_iff (mines board : Array2D) (sx sy : Int) (p : Int × Int) :
    (mineScheme mines).Enq (board.set sx sy emptyChar).array (sx, sy) p
      ↔ ZeroReach mines board sx sy p.1 p.2 := by
  constructor
  · intro h
    induction h with
    | start => exact ZeroReach.start
    | @step c d _ hd hg he ih =>
      rw [mineScheme_guard] at hg
      obtain ⟨hv, h1, h2⟩ := hg
      simp only [Array2D.set] at h1
      by_cases hxy : c.1 + d.1 = sx ∧ c.2 + d.2 = sy
      · rw [if_pos hxy] at h1
        exact absurd h1 (by decide)
      · rw [if_neg hxy] at h1
        have he2 : mines.get (c.1 + d.1) (c.2 + d.2) = '0' := by
          simpa [mineScheme] using he
        exact ZeroReach.step ih hd hv h1 h2 he2
  · intro h
    obtain ⟨p1, p2⟩ := p
    simp only at h
    induction h with
    | start => exact Scheme.Enq.start
    | @step x y d _ hd hv h1 h2 h3 ih =>
      by_cases hxy : x + d.1 = sx ∧ y + d.2 = sy
      · rw [hxy.1, hxy.2]
        exact Scheme.Enq.start
      · refine Scheme.Enq.step (c := (x, y)) ih hd ?_ ?_
        · rw [mineScheme_guard]
          simp only [Array2D.set, if_neg hxy]
          exact ⟨hv, h1, h2⟩
        · simpa [mineScheme] using h3

theorem mine_hit_iff (mines board : Array2D) (sx sy : Int) (x y : Int) :
    (mineScheme mines).Hit (board.set sx sy emptyChar).array (sx, sy) (x, y)
      ↔ ¬ (x = sx ∧ y = sy) ∧ Uncovered mines board sx sy x y := by
  constructor
  · rintro ⟨hg, c, d, hc, hd, hp⟩
    simp only [Prod.mk.injEq] at hp
    obtain ⟨rfl, rfl⟩ := hp
    rw [mineScheme_guard] at hg
    obtain ⟨hv, h1, h2⟩ := hg
    simp only [Array2D.set] at h1
    by_cases hxy : c.1 + d.1 = sx ∧ c.2 + d.2 = sy
    · rw [if_pos hxy] at h1
      exact absurd h1 (by decide)
    · rw [if_neg hxy] at h1
      exact ⟨hxy, h1, hv, h2, c.1, c.2, d, (mine_enq_iff mines board sx sy c).mp hc, hd, rfl, rfl⟩
  · rintro ⟨hne, h1, hv, h2, cx, cy, d, hc, hd, rfl, rfl⟩
    refine ⟨?_, (cx, cy), d, (mine_enq_iff mines board sx sy (cx, cy)).mpr hc, hd, rfl⟩
    rw [mineScheme_guard]
    simp only [Array2D.set, if_neg hne]
    exact ⟨hv, h1, h2⟩

/-- What `mineFill` computes on a layout none of whose cells holds
`mineTileChar`: it returns, the start shows `emptyChar`, every other
`Uncovered` cell shows `emptyChar` or its digit, all other cells are as
before, and the counter has gone down by one for the start and by one for
each other cell that was overwritten. -/
theorem mineFill_spec (mines board : Array2D) (sx sy : Int) (num : Int)
    (hne : ∀ x y, mines.pointValid x y = true → mines.get x y ≠ mineTileChar)
    (hv : mines.pointValid sx sy = true) (fuel : Nat)
    (hf : mines.width.toNat * mines.height.toNat ≤ fuel) :
    ∃ r, mineFill fuel mines board sx sy num = some r ∧
      r.1.width = board.width ∧ r.1.height = board.height ∧
      (∀ x y, ((x = sx ∧ y = sy) → r.1.get x y = emptyChar) ∧
        (¬ (x = sx ∧ y = sy) → Uncovered mines board sx sy x y →
          r.1.get x y = if mines.get x y = '0' then emptyChar else mines.get x y) ∧
        (¬ (x = sx ∧ y = sy) → ¬ Uncovered mines board sx sy x y →
          r.1.get x y = board.get x y)) ∧
      r.2 = num - 1 - (((box mines.width mines.height).filter fun p =>
        r.1.get p.1 p.2 ≠ (board.set sx sy emptyChar).get p.1 p.2).card : Int) := by
  have hrel := mineFillLoop_rel mines board fuel
    { board := board.set sx sy emptyChar, numUnrevealed := num - 1, Q := [(sx, sy)] }
    ⟨(board.set sx sy emptyChar).array, num - 1, [(sx, sy)]⟩ ⟨rfl, rfl, rfl, rfl, rfl⟩
  have hS : ∀ x y ch, (mineScheme mines).G x y ch = true →
      (x, y) ∈ box mines.width mines.height := by
    intro x y ch h
    rw [mineScheme_guard] at h
    exact mem_box.mpr ((pointValid_iff mines x y).mp h.1)
  obtain ⟨r, hr⟩ := mineFill_returns mines board sx sy num hv fuel hf
  have hres := (mineScheme mines).loop_result (board.set sx sy emptyChar).array (sx, sy)
    (mineScheme_hW mines hne) fuel (num - 1) r hr
  have hcnt := (mineScheme mines).loop_count (box mines.width mines.height)
    (board.set sx sy emptyChar).array (sx, sy) hS (mineScheme_hW mines hne) fuel (num - 1) r hr
  refine ⟨(⟨board.width, board.height, r.b⟩, r.n), ?_, rfl, rfl, fun x y => ⟨?_, ?_, ?_⟩, hcnt⟩
  · unfold mineFill
    rw [hrel, hr]
    rfl
  · intro hxy
    have hn : ¬ (mineScheme mines).Hit (board.set sx sy emptyChar).array (sx, sy) (x, y) := by
      rw [mine_hit_iff]
      exact fun h => h.1 hxy
    have := (hres x y).2 hn
    simp only [Array2D.get, this, Array2D.set, if_pos hxy]
  · intro hxy hu
    have := (hres x y).1 ((mine_hit_iff mines board sx sy x y).mpr ⟨hxy, hu⟩)
    simp only [Array2D.get, this, mineScheme]
    by_cases hz : mines.array x y = '0'
    · simp [hz]
    · simp [hz]
  · intro hxy hu
    have hn : ¬ (mineScheme mines).Hit (board.set sx sy emptyChar).array (sx, sy) (x, y) := by
      rw [mine_hit_iff]
      exact fun h => hu h.2
    have := (hres x y).2 hn
    simp only [Array2D.get, this, Array2D.set, if_neg hxy]

theorem prepare_inv (mines : Array2D) : PrepInv mines (prepare mines) :=
  (prepareGrid_inv (List.range mines.width.toNat) mines ⟨rfl, rfl, fun _ _ => Or.inl rfl⟩).1

/-- The preparation pass produces a layout with correct adjacency counts. -/
theorem prepare_correct (mines : Array2D) : CorrectCounts (prepare mines) := by
  intro x y hv hm
  obtain ⟨h1, h2, h3, h4⟩ := prepare_spec mines
  have hv0 : mines.pointValid x y = true := by
    rw [pointValid_iff] at hv ⊢
    rw [← h1, ← h2]
    exact hv
  have hm0 : mines.get x y ≠ solidChar := fun h => hm ((h3 x y).mpr h)
  rw [h4 x y hv0, ← mineCountList_eq, (prepare_inv mines).count_eq]
  unfold prepTarget
  rw [if_neg hm0]

/-- C5, as stated, fails: on the 1 by 1 layout without mines, whose only cell
has count `'0'`, and the board whose only tile already shows `emptyChar`, the
start tile shows after `mineFill` what it showed before, so the start has not
changed. -/
theorem mineFill_start_counterexample :
    CorrectCounts (Array2D.init 1 1 '0') ∧ (Array2D.init 1 1 '0').pointValid 0 0 = true ∧
      (Array2D.init 1 1 '0').get 0 0 = '0' ∧
      (mineFill 1 (Array2D.init 1 1 '0') (Array2D.init 1 1 emptyChar) 0 0 1).map
          (fun r => r.1.get 0 0)
        = some ((Array2D.init 1 1 emptyChar).get 0 0) := by
  refine ⟨?_, by decide, by decide, by decide⟩
  intro x y hv _
  rw [pointValid_iff] at hv
  have hx : x = 0 := by have := hv.1; have := hv.2.1; simp only [Array2D.init] at *; omega
  have hy : y = 0 := by have := hv.2.2.1; have := hv.2.2.2; simp only [Array2D.init] at *; omega
  subst hx hy
  decide

/-- C5, amended: for every layout with correct adjacency counts, every board
on which the start tile does not already show `emptyChar`, and every in-bounds
start whose count is `'0'`, `mineFill` returns; a cell has changed iff it is
the start or it was Hidden on input, is not a mine and is 8-adjacent to a cell
of `Z`; each changed cell with count `'0'` shows `emptyChar` and each other
changed cell has a count `'1'` to `'8'` and shows that digit. -/
theorem mineFill_reveals (mines board : Array2D) (startX startY : Int) (numUnrevealed : Int)
    (hc : CorrectCounts mines) (hv : mines.pointValid startX startY = true)
    (h0 : mines.get startX startY = '0') (hb : board.get startX startY ≠ emptyChar)
    (fuel : Nat) (hf : mines.width.toNat * mines.height.toNat ≤ fuel) :
    ∃ r, mineFill fuel mines board startX startY numUnrevealed = some r ∧
      ∀ x y,
        (r.1.get x y ≠ board.get x y ↔
          ((x = startX ∧ y = startY) ∨ Uncovered mines board startX startY x y)) ∧
        (r.1.get x y ≠ board.get x y →
          (mines.get x y = '0' → r.1.get x y = emptyChar) ∧
          (mines.get x y ≠ '0' → r.1.get x y = mines.get x y ∧
            ∃ k, 1 ≤ k ∧ k ≤ 8 ∧ mines.get x y = digitChar k)) := by
  obtain ⟨r, hr, -, -, h, -⟩ :=
    mineFill_spec mines board startX startY numUnrevealed hc.ne_tile hv fuel hf
  have hiff : ∀ x y, r.1.get x y ≠ board.get x y ↔
      ((x = startX ∧ y = startY) ∨ Uncovered mines board startX startY x y) := by
    intro x y
    obtain ⟨k1, k2, k3⟩ := h x y
    constructor
    · intro hne
      by_cases hxy : x = startX ∧ y = startY
      · exact Or.inl hxy
      · by_cases hu : Uncovered mines board startX startY x y
        · exact Or.inr hu
        · exact absurd (k3 hxy hu) hne
    · intro hcase
      by_cases hxy : x = startX ∧ y = startY
      · rw [k1 hxy, hxy.1, hxy.2]
        exact fun h2 => hb h2.symm
      · rcases hcase with h2 | hu
        · exact absurd h2 hxy
        · rw [k2 hxy hu, hu.1]
          by_cases hz : mines.get x y = '0'
          · rw [if_pos hz]
            decide
          · rw [if_neg hz]
            exact hc.ne_tile x y hu.2.1
  refine ⟨r, hr, fun x y => ⟨hiff x y, fun hne => ?_⟩⟩
  obtain ⟨k1, k2, -⟩ := h x y
  by_cases hxy : x = startX ∧ y = startY
  · refine ⟨fun _ => k1 hxy, fun hz => ?_⟩
    rw [hxy.1, hxy.2] at hz
    exact absurd h0 hz
  · have hu : Uncovered mines board startX startY x y := by
      rcases (hiff x y).mp hne with h2 | h2
      · exact absurd h2 hxy
      · exact h2
    refine ⟨fun hz => by rw [k2 hxy hu, if_pos hz], fun hz => ⟨by rw [k2 hxy hu, if_neg hz], ?_⟩⟩
    have hd := hc x y hu.2.1 hu.2.2.1
    refine ⟨neighbourMines mines x y, ?_, neighbourMines_le mines x y, hd⟩
    by_contra hk
    have hk0 : neighbourMines mines x y = 0 := by omega
    rw [hk0] at hd
    exact hz hd

/-- C5, witness: the amended statement at the prepared 3 by 3 layout with one
mine at `(0, 0)`, the all-Hidden board with `(2, 2)` drawn as selected, and
start `(2, 2)`; there all eight non-mine tiles are revealed. -/
theorem mineFill_reveals_witness :
    ((mineFill 9 (prepare cornerLayout)
        ((Array2D.init 3 3 mineTileChar).set 2 2 mineSelectedChar) 2 2 9).map
          (fun r => (r.1.rows, r.2))
        = some ([['-', '1', ' '], ['1', '1', ' '], [' ', ' ', ' ']], 1)) ∧
      ∃ r, mineFill 9 (prepare cornerLayout)
          ((Array2D.init 3 3 mineTileChar).set 2 2 mineSelectedChar) 2 2 9 = some r ∧
        ∀ x y,
          (r.1.get x y ≠ ((Array2D.init 3 3 mineTileChar).set 2 2 mineSelectedChar).get x y ↔
            ((x = 2 ∧ y = 2) ∨ Uncovered (prepare cornerLayout)
              ((Array2D.init 3 3 mineTileChar).set 2 2 mineSelectedChar) 2 2 x y)) ∧
          (r.1.get x y ≠ ((Array2D.init 3 3 mineTileChar).set 2 2 mineSelectedChar).get x y →
            ((prepare cornerLayout).get x y = '0' → r.1.get x y = emptyChar) ∧
            ((prepare cornerLayout).get x y ≠ '0' →
              r.1.get x y = (prepare cornerLayout).get x y ∧
              ∃ k, 1 ≤ k ∧ k ≤ 8 ∧ (prepare cornerLayout).get x y = digitChar k)) :=
  ⟨by decide,
    mineFill_reveals (prepare cornerLayout)
      ((Array2D.init 3 3 mineTileChar).set 2 2 mineSelectedChar) 2 2 9
      (prepare_correct cornerLayout) (by decide) (by decide) (by decide) 9 (by decide)⟩

/-! ## mineReveal -/

theorem revealCell_inv {mines board b : Array2D} (h : RevealInv mines board b) (x y : Nat)
    (hx : (x : Int) < mines.width) (hy : (y : Int) < mines.height) :
    RevealInv mines board
        (if mines.get (x : Int) (y : Int) == solidChar
          then b.set (x : Int) (y : Int) solidChar else b) ∧
      (mines.get (x : Int) (y : Int) = solidChar →
        (if mines.get (x : Int) (y : Int) == solidChar
          then b.set (x : Int) (y : Int) solidChar else b).get (x : Int) (y : Int) = solidChar) ∧
      ∀ i j, b.get i j = solidChar →
        (if mines.get (x : Int) (y : Int) == solidChar
          then b.set (x : Int) (y : Int) solidChar else b).get i j = solidChar := by
  by_cases hm : mines.get (x : Int) (y : Int) = solidChar
  · have hm2 : (mines.get (x : Int) (y : Int) == solidChar) = true := by simpa using hm
    rw [if_pos hm2]
    have hget : ∀ i j, (b.set (x : Int) (y : Int) solidChar).get i j
        = if i = (x : Int) ∧ j = (y : Int) then solidChar else b.get i j := fun _ _ => rfl
    have hpv : mines.pointValid (x : Int) (y : Int) = true := by
      rw [pointValid_iff]
      exact ⟨Int.natCast_nonneg x, hx, Int.natCast_nonneg y, hy⟩
    refine ⟨⟨h.1, h.2.1, fun i j => ?_⟩, fun _ => ?_, fun i j hij => ?_⟩
    · rw [hget]
      by_cases hij : i = (x : Int) ∧ j = (y : Int)
      · rw [if_pos hij, hij.1, hij.2]
        exact Or.inr ⟨hpv, hm, rfl⟩
      · rw [if_neg hij]
        exact h.2.2 i j
    · rw [hget]
      simp
    · rw [hget]
      by_cases hxy : i = (x : Int) ∧ j = (y : Int)
      · rw [if_pos hxy]
      · rw [if_neg hxy]
        exact hij
  · have hm2 : ¬ (mines.get (x : Int) (y : Int) == solidChar) = true := by simpa using hm
    rw [if_neg hm2]
    exact ⟨h, fun h1 => absurd h1 hm, fun _ _ h1 => h1⟩

theorem revealColumn_inv {mines board : Array2D} (x : Nat) (hx : (x : Int) < mines.width)
    (ys : List Nat) (hys : ∀ y ∈ ys, (y : Int) < mines.height) (b : Array2D)
    (h : RevealInv mines board b) :
    RevealInv mines board (ys.foldl (fun (b : Array2D) (y : Nat) =>
        if mines.get (x : Int) (y : Int) == solidChar
          then b.set (x : Int) (y : Int) solidChar else b) b) ∧
      (∀ y ∈ ys, mines.get (x : Int) (y : Int) = solidChar →
        (ys.foldl (fun (b : Array2D) (y : Nat) =>
          if mines.get (x : Int) (y : Int) == solidChar
            then b.set (x : Int) (y : Int) solidChar else b) b).get (x : Int) (y : Int)
          = solidChar) ∧
      ∀ i j, b.get i j = solidChar →
        (ys.foldl (fun (b : Array2D) (y : Nat) =>
          if mines.get (x : Int) (y : Int) == solidChar
            then b.set (x : Int) (y : Int) solidChar else b) b).get i j = solidChar := by
  induction ys generalizing b with
  | nil => exact ⟨h, fun y hy => absurd hy (List.not_mem_nil y), fun _ _ h1 => h1⟩
  | cons y ys ih =>
    obtain ⟨h1, h2, h3⟩ := revealCell_inv h x y hx (hys y (List.mem_cons_self y ys))
    obtain ⟨k1, k2, k3⟩ := ih (fun y2 hy2 => hys y2 (List.mem_cons_of_mem y hy2)) _ h1
    rw [List.foldl_cons]
    refine ⟨k1, fun y2 hy2 hm => ?_, fun i j hij => k3 i j (h3 i j hij)⟩
    rcases List.mem_cons.mp hy2 with rfl | hy2
    · exact k3 _ _ (h2 hm)
    · exact k2 y2 hy2 hm

theorem revealGrid_inv {mines board : Array2D} (xs : List Nat)
    (hxs : ∀ x ∈ xs, (x : Int) < mines.width) (b : Array2D) (h : RevealInv mines board b) :
    RevealInv mines board (xs.foldl (fun (b : Array2D) (x : Nat) =>
        (List.range mines.height.toNat).foldl (fun (b : Array2D) (y : Nat) =>
          if mines.get (x : Int) (y : Int) == solidChar
            then b.set (x : Int) (y : Int) solidChar else b) b) b) ∧
      (∀ x ∈ xs, ∀ y ∈ List.range mines.height.toNat,
        mines.get (x : Int) (y : Int) = solidChar →
        (xs.foldl (fun (b : Array2D) (x : Nat) =>
          (List.range mines.height.toNat).foldl (fun (b : Array2D) (y : Nat) =>
            if mines.get (x : Int) (y : Int) == solidChar
              then b.set (x : Int) (y : Int) solidChar else b) b) b).get (x : Int) (y : Int)
          = solidChar) ∧
      ∀ i j, b.get i j = solidChar →
        (xs.foldl (fun (b : Array2D) (x : Nat) =>
          (List.range mines.height.toNat).foldl (fun (b : Array2D) (y : Nat) =>
            if mines.get (x : Int) (y : Int) == solidChar
              then b.set (x : Int) (y : Int) solidChar else b) b) b).get i j = solidChar := by
  have hrange : ∀ y ∈ List.range mines.height.toNat, (y : Int) < mines.height := by
    intro y hy
    have := List.mem_range.mp hy
    omega
  induction xs generalizing b with
  | nil => exact ⟨h, fun x hx => absurd hx (List.not_mem_nil x), fun _ _ h1 => h1⟩
  | cons x xs ih =>
    obtain ⟨h1, h2, h3⟩ := revealColumn_inv x (hxs x (List.mem_cons_self x xs))
      (List.range mines.height.toNat) hrange b h
    obtain ⟨k1, k2, k3⟩ := ih (fun x2 hx2 => hxs x2 (List.mem_cons_of_mem x hx2)) _ h1
    rw [List.foldl_cons]
    refine ⟨k1, fun x2 hx2 y hy hm => ?_, fun i j hij => k3 i j (h3 i j hij)⟩
    rcases List.mem_cons.mp hx2 with rfl | hx2
    · exact k3 _ _ (h2 y hy hm)
    · exact k2 x2 hx2 y hy hm

/-- What `mineReveal` computes: the bounds of the board are kept, the tiles of
the in-bounds mine cells show `solidChar` and every other tile is unchanged. -/
theorem mineReveal_spec (mines board : Array2D) :
    (mineReveal mines board).width = board.width ∧
      (mineReveal mines board).height = board.height ∧
      (∀ x y, mines.pointValid x y = true → mines.get x y = solidChar →
        (mineReveal mines board).get x y = solidChar) ∧
      (∀ x y, ¬ (mines.pointValid x y = true ∧ mines.get x y = solidChar) →
        (mineReveal mines board).get x y = board.get x y) := by
  have hrange : ∀ x ∈ List.range mines.width.toNat, (x : Int) < mines.width := by
    intro x hx
    have := List.mem_range.mp hx
    omega
  obtain ⟨k1, k2, -⟩ := revealGrid_inv (List.range mines.width.toNat) hrange board
    (show RevealInv mines board board from ⟨rfl, rfl, fun _ _ => Or.inl rfl⟩)
  refine ⟨k1.1, k1.2.1, fun x y hv hm => ?_, fun x y hn => ?_⟩
  · rw [pointValid_iff] at hv
    have hx : ((x.toNat : Nat) : Int) = x := Int.toNat_of_nonneg hv.1
    have hy : ((y.toNat : Nat) : Int) = y := Int.toNat_of_nonneg hv.2.2.1
    have := k2 x.toNat (List.mem_range.mpr (by omega)) y.toNat (List.mem_range.mpr (by omega))
    rw [hx, hy] at this
    exact this hm
  · rcases k1.2.2 x y with h1 | ⟨h1, h2, -⟩
    · exact h1
    · exact absurd ⟨h1, h2⟩ hn

/-! ## The rounds of the game loop -/

theorem mineRound_reject (fuel : Nat) (s : GameState) (x y : Int) (c : Char)
    (h : ¬ Selectable s x y) : mineRound fuel s x y c = some s := by
  unfold mineRound
  have : (!s.board.pointValid x y
      || (s.board.get x y != mineTileChar && s.board.get x y != mineFlaggedChar)) = true := by
    unfold Selectable at h
    by_cases hv : s.board.pointValid x y = true
    · simp only [hv, true_and, not_or] at h
      simp [hv, h.1, h.2]
    · simp [hv]
  rw [if_pos this]

theorem mineRound_accept (fuel : Nat) (s : GameState) (x y : Int) (c : Char)
    (h : Selectable s x y) :
    mineRound fuel s x y c
      = (confirm fuel { s with board := s.board.set x y mineSelectedChar } x y
          (s.board.get x y) c).map winCheck := by
  unfold mineRound
  have : ¬ (!s.board.pointValid x y
      || (s.board.get x y != mineTileChar && s.board.get x y != mineFlaggedChar)) = true := by
    obtain ⟨hv, h1 | h1⟩ := h
    · simp [hv, h1]
    · simp [hv, h1]
  rw [if_neg this]

theorem mineFill_dims (fuel : Nat) (mines board : Array2D) (sx sy : Int) (num : Int)
    (r : Array2D × Int) (h : mineFill fuel mines board sx sy num = some r) :
    r.1.width = board.width ∧ r.1.height = board.height := by
  have hrel := mineFillLoop_rel mines board fuel
    { board := board.set sx sy emptyChar, numUnrevealed := num - 1, Q := [(sx, sy)] }
    ⟨(board.set sx sy emptyChar).array, num - 1, [(sx, sy)]⟩ ⟨rfl, rfl, rfl, rfl, rfl⟩
  unfold mineFill at h
  rw [hrel] at h
  cases hl : (mineScheme mines).loop fuel ⟨(board.set sx sy emptyChar).array, num - 1, [(sx, sy)]⟩ with
  | none => rw [hl] at h; simp at h
  | some w =>
    rw [hl] at h
    simp only [Option.map_some', Option.some.injEq] at h
    rw [← h]
    exact ⟨rfl, rfl⟩

/-- The switch of a round leaves the layout, `numMines` and the bounds of the
board alone, and prints no `You Win!`. -/
theorem confirm_frame (fuel : Nat) (s s2 : GameState) (x y : Int) (oldChar c : Char)
    (h : confirm fuel s x y oldChar c = some s2) :
    s2.mines = s.mines ∧ s2.numMines = s.numMines ∧ s2.board.width = s.board.width ∧
      s2.board.height = s.board.height ∧
      ∃ extra, s2.output = s.output ++ extra ∧ "You Win!" ∉ extra := by
  unfold confirm at h
  split at h
  · split at h
    · simp only [Option.some.injEq] at h
      subst h
      exact ⟨rfl, rfl, rfl, rfl, [], by simp, by simp⟩
    · split at h
      · simp only [Option.some.injEq] at h
        subst h
        exact ⟨rfl, rfl, rfl, rfl, [], by simp, by simp⟩
      · simp only [Option.some.injEq] at h
        subst h
        exact ⟨rfl, rfl, rfl, rfl, [], by simp, by simp⟩
  · split at h
    · split at h
      · simp only [Option.some.injEq] at h
        subst h
        exact ⟨rfl, rfl, rfl, rfl, ["Tile is flagged!"], rfl, by decide⟩
      · split at h
        · simp only [Option.some.injEq] at h
          subst h
          exact ⟨rfl, rfl, (mineReveal_spec _ _).1, (mineReveal_spec _ _).2.1,
            ["Game Over!"], rfl, by decide⟩
        · split at h
          · cases hm : mineFill fuel s.mines s.board x y s.numUnrevealed with
            | none => rw [hm] at h; simp at h
            | some r =>
              rw [hm] at h
              simp only [Option.map_some', Option.some.injEq] at h
              subst h
              obtain ⟨d1, d2⟩ := mineFill_dims fuel _ _ _ _ _ r hm
              exact ⟨rfl, rfl, d1, d2, [], by simp, by simp⟩
          · simp only [Option.some.injEq] at h
            subst h
            exact ⟨rfl, rfl, rfl, rfl, [], by simp, by simp⟩
    · simp only [Option.some.injEq] at h
      subst h
      exact ⟨rfl, rfl, rfl, rfl, [], by simp, by simp⟩

theorem winCheck_frame (s : GameState) :
    (winCheck s).mines = s.mines ∧ (winCheck s).numMines = s.numMines ∧
      (winCheck s).numUnrevealed = s.numUnrevealed ∧
      (winCheck s).numFlagged = s.numFlagged ∧
      (winCheck s).board.width = s.board.width ∧ (winCheck s).board.height = s.board.height ∧
      ((winCheck s).running = true → s.numUnrevealed ≠ s.numMines) := by
  unfold winCheck
  split
  · exact ⟨rfl, rfl, rfl, rfl, (mineReveal_spec _ _).1, (mineReveal_spec _ _).2.1,
      fun h => by simp at h⟩
  · rename_i hne
    exact ⟨rfl, rfl, rfl, rfl, rfl, rfl, fun _ => hne⟩

theorem winCheck_of_ne (s : GameState) (h : s.numUnrevealed ≠ s.numMines) : winCheck s = s := by
  unfold winCheck
  rw [if_neg h]

theorem mineInit_inv (mines : Array2D) (numMines : Int) : GameInv (mineInit mines numMines) := by
  obtain ⟨h1, h2, -, -⟩ := prepare_spec mines
  exact ⟨h1.symm, h2.symm, prepare_correct mines, fun _ _ _ _ => rfl⟩

theorem mineRound_inv (fuel : Nat) (s s1 : GameState) (x y : Int) (c : Char)
    (hI : GameInv s) (h : mineRound fuel s x y c = some s1) : GameInv s1 := by
  by_cases hsel : Selectable s x y
  · rw [mineRound_accept fuel s x y c hsel] at h
    cases hc : confirm fuel { s with board := s.board.set x y mineSelectedChar } x y
        (s.board.get x y) c with
    | none => rw [hc] at h; simp at h
    | some s2 =>
      rw [hc] at h
      simp only [Option.map_some', Option.some.injEq] at h
      subst h
      obtain ⟨c1, -, c3, c4, -⟩ := confirm_frame fuel _ s2 x y _ c hc
      obtain ⟨w1, w2, w3, -, w5, w6, w7⟩ := winCheck_frame s2
      simp only at c1 c3 c4
      refine ⟨?_, ?_, ?_, fun hr he => ?_⟩
      · rw [w5, c3, w1, c1]
        exact hI.width
      · rw [w6, c4, w1, c1]
        exact hI.height
      · rw [w1, c1]
        exact hI.counts
      · rw [w3, w2] at he
        exact absurd he (w7 hr)
  · rw [mineRound_reject fuel s x y c hsel] at h
    simp only [Option.some.injEq] at h
    subst h
    exact hI

theorem Reachable.inv {s : GameState} (h : Reachable s) : GameInv s := by
  induction h with
  | init mines numMines => exact mineInit_inv mines numMines
  | round fuel x y c _ _ hstep ih => exact mineRound_inv fuel _ _ x y c ih hstep

/-- In a running state of the game loop the win condition
`numUnrevealed == numMines` holds only if the game was started with
`numMines == width * height`: at the start `numUnrevealed` is
`width * height`, and the win check at the end of every accepted round stops
the loop as soon as the two counters are equal. -/
theorem Reachable.winOpen {s : GameState} (h : Reachable s) :
    s.running = true → s.numUnrevealed = s.numMines →
      s.numMines = s.mines.width * s.mines.height := by
  induction h with
  | init mines numMines =>
    intro _ he
    obtain ⟨h1, h2, -, -⟩ := prepare_spec mines
    show numMines = (prepare mines).width * (prepare mines).height
    rw [h1, h2]
    exact he.symm
  | @round s s1 fuel x y c _ _ hstep ih =>
    intro hr he
    by_cases hsel : Selectable s x y
    · rw [mineRound_accept fuel s x y c hsel] at hstep
      cases hc : confirm fuel { s with board := s.board.set x y mineSelectedChar } x y
          (s.board.get x y) c with
      | none => rw [hc] at hstep; simp at hstep
      | some s2 =>
        rw [hc] at hstep
        simp only [Option.map_some', Option.some.injEq] at hstep
        subst hstep
        obtain ⟨-, w2, w3, -, -, -, w7⟩ := winCheck_frame s2
        rw [w3, w2] at he
        exact absurd he (w7 hr)
    · rw [mineRound_reject fuel s x y c hsel] at hstep
      simp only [Option.some.injEq] at hstep
      subst hstep
      exact ih hr he

/-! ## Claims about the rounds -/

theorem Array2D.set_set_self (b : Array2D) (x y : Int) (u v : Char) (h : b.get x y = v) :
    (b.set x y u).set x y v = b := by
  obtain ⟨w, ht, a⟩ := b
  simp only [Array2D.get] at h
  simp only [Array2D.set, Array2D.mk.injEq, true_and]
  funext i j
  by_cases hij : i = x ∧ j = y
  · rw [if_pos hij, hij.1, hij.2, h]
  · rw [if_neg hij, if_neg hij]

theorem mineFill_some (mines board : Array2D) (sx sy : Int) (num : Int)
    (hv : mines.pointValid sx sy = true) (fuel : Nat)
    (hf : mines.width.toNat * mines.height.toNat ≤ fuel) :
    ∃ r, mineFill fuel mines board sx sy num = some r := by
  obtain ⟨r, hr⟩ := mineFill_returns mines board sx sy num hv fuel hf
  have hrel := mineFillLoop_rel mines board fuel
    { board := board.set sx sy emptyChar, numUnrevealed := num - 1, Q := [(sx, sy)] }
    ⟨(board.set sx sy emptyChar).array, num - 1, [(sx, sy)]⟩ ⟨rfl, rfl, rfl, rfl, rfl⟩
  refine ⟨(⟨board.width, board.height, r.b⟩, r.n), ?_⟩
  unfold mineFill
  rw [hrel, hr]
  rfl

/-- With fuel for `width * height` dequeues the switch of a round returns. -/
theorem confirm_some (fuel : Nat) (s : GameState) (x y : Int) (oldChar c : Char)
    (hv : s.mines.pointValid x y = true)
    (hf : s.mines.width.toNat * s.mines.height.toNat ≤ fuel) :
    ∃ s2, confirm fuel s x y oldChar c = some s2 := by
  unfold confirm
  split
  · split
    · exact ⟨_, rfl⟩
    · split
      · exact ⟨_, rfl⟩
      · exact ⟨_, rfl⟩
  · split
    · split
      · exact ⟨_, rfl⟩
      · split
        · exact ⟨_, rfl⟩
        · split
          · obtain ⟨r, hr⟩ := mineFill_some s.mines s.board x y s.numUnrevealed hv fuel hf
            rw [hr]
            exact ⟨_, rfl⟩
          · exact ⟨_, rfl⟩
    · exact ⟨_, rfl⟩

theorem GameInv.valid {s : GameState} (hI : GameInv s) (x y : Int)
    (hv : s.board.pointValid x y = true) : s.mines.pointValid x y = true := by
  rw [pointValid_iff] at hv ⊢
  rw [← hI.width, ← hI.height]
  exact hv

/-- With fuel for `width * height` dequeues an accepted round returns. -/
theorem mineRound_some (fuel : Nat) (s : GameState) (x y : Int) (c : Char) (hI : GameInv s)
    (hsel : Selectable s x y) (hf : s.mines.width.toNat * s.mines.height.toNat ≤ fuel) :
    ∃ s2, confirm fuel { s with board := s.board.set x y mineSelectedChar } x y
        (s.board.get x y) c = some s2 ∧ mineRound fuel s x y c = some (winCheck s2) := by
  obtain ⟨s2, h2⟩ := confirm_some fuel { s with board := s.board.set x y mineSelectedChar } x y
    (s.board.get x y) c (hI.valid x y hsel.1) hf
  refine ⟨s2, h2, ?_⟩
  rw [mineRound_accept fuel s x y c hsel, h2]
  rfl

/-- C9: in every state of the game loop, selecting an in-bounds Flagged tile
and answering `R` leaves the board, `numUnrevealed`, `numFlagged`, the layout
and `running` as they were, whether or not the tile is a mine; the round only
prints `Tile is flagged!`. -/
theorem reveal_flagged_rejected (s : GameState) (hR : Reachable s) (hrun : s.running = true)
    (x y : Int) (hv : s.board.pointValid x y = true)
    (hflag : s.board.get x y = mineFlaggedChar) (fuel : Nat) :
    ∃ s1, mineRound fuel s x y 'R' = some s1 ∧ s1.board = s.board ∧
      s1.board.get x y = mineFlaggedChar ∧ s1.numUnrevealed = s.numUnrevealed ∧
      s1.numFlagged = s.numFlagged ∧ s1.mines = s.mines ∧ s1.running = true ∧
      s1.output = s.output ++ ["Tile is flagged!"] := by
  have hsel : Selectable s x y := ⟨hv, Or.inr hflag⟩
  have hne : s.numUnrevealed ≠ s.numMines := by
    intro he
    have := hR.inv.fresh hrun he x y
    rw [hflag] at this
    exact absurd this (by decide)
  have hboard : (s.board.set x y mineSelectedChar).set x y mineFlaggedChar = s.board :=
    Array2D.set_set_self s.board x y _ _ hflag
  refine ⟨{ s with output := s.output ++ ["Tile is flagged!"] }, ?_, rfl, hflag, rfl, rfl, rfl,
    hrun, rfl⟩
  rw [mineRound_accept fuel s x y 'R' hsel]
  have hc : confirm fuel { s with board := s.board.set x y mineSelectedChar } x y
      (s.board.get x y) 'R' = some { s with output := s.output ++ ["Tile is flagged!"] } := by
    unfold confirm
    rw [if_neg (by decide), if_pos rfl, if_pos hflag, hflag]
    simp only [hboard]
  rw [hc]
  simp only [Option.map_some', Option.some.injEq]
  exact winCheck_of_ne _ hne

/-- C9, witness: flag `(1, 1)`, then reveal `(1, 1)`. -/
theorem reveal_flagged_rejected_witness :
    ((mineLoop 9 cornerLayout 1 [(1, 1, 'F'), (1, 1, 'R')]).map
        (fun s => (s.board.rows, s.numUnrevealed, s.numFlagged, s.running, s.output))
      = some ([['-', '-', '-'], ['-', '!', '-'], ['-', '-', '-']], 9, 1, true,
          ["Tile is flagged!"])) ∧
      ∃ s1, mineRound 9 flaggedState 1 1 'R' = some s1 ∧ s1.board = flaggedState.board ∧
        s1.board.get 1 1 = mineFlaggedChar ∧ s1.numUnrevealed = flaggedState.numUnrevealed ∧
        s1.numFlagged = flaggedState.numFlagged ∧ s1.mines = flaggedState.mines ∧
        s1.running = true ∧ s1.output = flaggedState.output ++ ["Tile is flagged!"] :=
  ⟨by decide,
    reveal_flagged_rejected flaggedState
      (Reachable.round 9 1 1 'F' (Reachable.init cornerLayout 1) rfl rfl) (by decide) 1 1
      (by decide) (by decide) 9⟩

theorem mineRound_flag_hidden (fuel : Nat) (s : GameState) (x y : Int)
    (hne : s.numUnrevealed ≠ s.numMines) (hv : s.board.pointValid x y = true)
    (hh : s.board.get x y = mineTileChar) :
    mineRound fuel s x y 'F'
      = some { s with board := s.board.set x y mineFlaggedChar,
                      numFlagged := s.numFlagged + 1 } := by
  rw [mineRound_accept fuel s x y 'F' ⟨hv, Or.inl hh⟩]
  have hc : confirm fuel { s with board := s.board.set x y mineSelectedChar } x y
      (s.board.get x y) 'F'
      = some { s with board := s.board.set x y mineFlaggedChar,
                      numFlagged := s.numFlagged + 1 } := by
    unfold confirm
    rw [if_pos rfl, if_pos hh]
    simp only [Array2D.set_set]
  rw [hc]
  simp only [Option.map_some', Option.some.injEq]
  exact winCheck_of_ne _ hne

theorem mineRound_flag_flagged (fuel : Nat) (s : GameState) (x y : Int)
    (hne : s.numUnrevealed ≠ s.numMines) (hv : s.board.pointValid x y = true)
    (hh : s.board.get x y = mineFlaggedChar) :
    mineRound fuel s x y 'F'
      = some { s with board := s.board.set x y mineTileChar,
                      numFlagged := s.numFlagged - 1 } := by
  rw [mineRound_accept fuel s x y 'F' ⟨hv, Or.inr hh⟩]
  have hc : confirm fuel { s with board := s.board.set x y mineSelectedChar } x y
      (s.board.get x y) 'F'
      = some { s with board := s.board.set x y mineTileChar,
                      numFlagged := s.numFlagged - 1 } := by
    unfold confirm
    rw [if_pos rfl, if_neg (by rw [hh]; decide), if_pos hh]
    simp only [Array2D.set_set]
  rw [hc]
  simp only [Option.map_some', Option.some.injEq]
  exact winCheck_of_ne _ hne

theorem mineRounds_two (fuel : Nat) (s s1 s2 : GameState) (x y : Int) (c : Char)
    (x2 y2 : Int) (c2 : Char) (hrun : s.running = true)
    (h1 : mineRound fuel s x y c = some s1) (hrun1 : s1.running = true)
    (h2 : mineRound fuel s1 x2 y2 c2 = some s2) :
    mineRounds fuel s [(x, y, c), (x2, y2, c2)] = some s2 := by
  unfold mineRounds
  rw [if_pos hrun, h1, Option.some_bind]
  unfold mineRounds
  rw [if_pos hrun1, h2, Option.some_bind]
  rfl

theorem Array2D.get_set_self (b : Array2D) (x y : Int) (v : Char) :
    (b.set x y v).get x y = v := by
  simp [Array2D.get, Array2D.set]

theorem confirm_flag_hidden (fuel : Nat) (s : GameState) (x y : Int)
    (hh : s.board.get x y = mineTileChar) :
    confirm fuel { s with board := s.board.set x y mineSelectedChar } x y
        (s.board.get x y) 'F'
      = some { s with board := s.board.set x y mineFlaggedChar,
                      numFlagged := s.numFlagged + 1 } := by
  unfold confirm
  rw [if_pos rfl, if_pos hh]
  simp only [Array2D.set_set]

theorem confirm_flag_flagged (fuel : Nat) (s : GameState) (x y : Int)
    (hh : s.board.get x y = mineFlaggedChar) :
    confirm fuel { s with board := s.board.set x y mineSelectedChar } x y
        (s.board.get x y) 'F'
      = some { s with board := s.board.set x y mineTileChar,
                      numFlagged := s.numFlagged - 1 } := by
  unfold confirm
  rw [if_pos rfl, if_neg (by rw [hh]; decide), if_pos hh]
  simp only [Array2D.set_set]

theorem mineRounds_flag_twice (s : GameState) (hrun : s.running = true)
    (hne : s.numUnrevealed ≠ s.numMines) (x y : Int)
    (hv : s.board.pointValid x y = true) (fuel : Nat)
    (hsel : s.board.get x y = mineTileChar ∨ s.board.get x y = mineFlaggedChar) :
    mineRounds fuel s [(x, y, 'F'), (x, y, 'F')] = some s := by
  rcases hsel with hh | hh
  · have h1 := mineRound_flag_hidden fuel s x y hne hv hh
    have h2 := mineRound_flag_flagged fuel
      { s with board := s.board.set x y mineFlaggedChar, numFlagged := s.numFlagged + 1 } x y
      hne hv (Array2D.get_set_self _ _ _ _)
    rw [mineRounds_two fuel s _ _ x y 'F' x y 'F' hrun h1 hrun h2]
    obtain ⟨m, nm, b, nu, nf, r, o⟩ := s
    simp only at hh
    have hb := Array2D.set_set_self b x y mineFlaggedChar mineTileChar hh
    simp only [Array2D.set_set, hb, Option.some.injEq, GameState.mk.injEq, true_and, and_true]
    ring
  · have h1 := mineRound_flag_flagged fuel s x y hne hv hh
    have h2 := mineRound_flag_hidden fuel
      { s with board := s.board.set x y mineTileChar, numFlagged := s.numFlagged - 1 } x y
      hne hv (Array2D.get_set_self _ _ _ _)
    rw [mineRounds_two fuel s _ _ x y 'F' x y 'F' hrun h1 hrun h2]
    obtain ⟨m, nm, b, nu, nf, r, o⟩ := s
    simp only at hh
    have hb := Array2D.set_set_self b x y mineTileChar mineFlaggedChar hh
    simp only [Array2D.set_set, hb, Option.some.injEq, GameState.mk.injEq, true_and, and_true]
    ring

/-- C10: the flag action toggles.  In every state, `case 'F'` run on the tile
`(x, y)` that has just been selected makes the tile Flagged and adds 1 to
`numFlagged` when its prior state was Hidden, makes it Hidden and takes 1 from
`numFlagged` when its prior state was Flagged, and changes nothing else:
`numUnrevealed` and every other tile are as before the selection.  In every
running state of a game that `mineLoop` started with
`numMines ≠ width * height` (`main` always passes fewer mines than tiles), the
whole round that selects an in-bounds tile and answers `F`, win check
included, returns exactly that state, and flagging the same tile twice in a
row returns the state the two rounds started from. -/
theorem flag_toggles (s : GameState) (x y : Int) (fuel : Nat) :
    (s.board.get x y = mineTileChar →
      confirm fuel { s with board := s.board.set x y mineSelectedChar } x y
          (s.board.get x y) 'F'
        = some { s with board := s.board.set x y mineFlaggedChar,
                        numFlagged := s.numFlagged + 1 }) ∧
    (s.board.get x y = mineFlaggedChar →
      confirm fuel { s with board := s.board.set x y mineSelectedChar } x y
          (s.board.get x y) 'F'
        = some { s with board := s.board.set x y mineTileChar,
                        numFlagged := s.numFlagged - 1 }) ∧
    (Reachable s → s.running = true → s.numMines ≠ s.mines.width * s.mines.height →
      s.board.pointValid x y = true →
        (s.board.get x y = mineTileChar →
          mineRound fuel s x y 'F'
            = some { s with board := s.board.set x y mineFlaggedChar,
                            numFlagged := s.numFlagged + 1 }) ∧
        (s.board.get x y = mineFlaggedChar →
          mineRound fuel s x y 'F'
            = some { s with board := s.board.set x y mineTileChar,
                            numFlagged := s.numFlagged - 1 }) ∧
        (s.board.get x y = mineTileChar ∨ s.board.get x y = mineFlaggedChar →
          mineRounds fuel s [(x, y, 'F'), (x, y, 'F')] = some s)) := by
  refine ⟨confirm_flag_hidden fuel s x y, confirm_flag_flagged fuel s x y,
    fun hR hrun hgame hv => ?_⟩
  have hne : s.numUnrevealed ≠ s.numMines := fun he => hgame (hR.winOpen hrun he)
  exact ⟨mineRound_flag_hidden fuel s x y hne hv, mineRound_flag_flagged fuel s x y hne hv,
    mineRounds_flag_twice s hrun hne x y hv fuel⟩

/-- C10, witness: the toggle on the tile `(1, 1)` of the game on the 3 by 3
layout with one mine at `(0, 0)`: flagging the Hidden tile in the initial
state, unflagging it in the state that follows, and both rounds in a row. -/
theorem flag_toggles_witness :
    ((mineLoop 9 cornerLayout 1 [(1, 1, 'F'), (1, 1, 'F')]).map
        (fun s => (s.board.rows, s.numUnrevealed, s.numFlagged, s.running))
      = some ([['-', '-', '-'], ['-', '-', '-'], ['-', '-', '-']], 9, 0, true)) ∧
    (mineRound 9 (mineInit cornerLayout 1) 1 1 'F'
      = some { mineInit cornerLayout 1 with
          board := (mineInit cornerLayout 1).board.set 1 1 mineFlaggedChar,
          numFlagged := (mineInit cornerLayout 1).numFlagged + 1 }) ∧
    (mineRound 9 flaggedState 1 1 'F'
      = some { flaggedState with
          board := flaggedState.board.set 1 1 mineTileChar,
          numFlagged := flaggedState.numFlagged - 1 }) ∧
    (mineRounds 9 (mineInit cornerLayout 1) [(1, 1, 'F'), (1, 1, 'F')]
      = some (mineInit cornerLayout 1)) :=
  ⟨by decide,
    ((flag_toggles (mineInit cornerLayout 1) 1 1 9).2.2 (Reachable.init cornerLayout 1) rfl
      (by decide) (by decide)).1 (by decide),
    ((flag_toggles flaggedState 1 1 9).2.2
      (Reachable.round 9 1 1 'F' (Reachable.init cornerLayout 1) rfl rfl) (by decide)
      (by decide) (by decide)).2.1 (by decide),
    ((flag_toggles (mineInit cornerLayout 1) 1 1 9).2.2 (Reachable.init cornerLayout 1) rfl
      (by decide) (by decide)).2.2 (Or.inl (by decide))⟩

/-- C8: in every state of the game loop, revealing an in-bounds Hidden tile
whose layout cell is a mine returns a state in which every in-bounds mine cell
of the layout shows `solidChar`, every other tile shows what it showed before,
`numUnrevealed`, `numFlagged`, `numMines` and the layout are unchanged,
`Game Over!` has been printed and `running` is false, so that the loop applies
no further input. -/
theorem reveal_mine_loses (s : GameState) (hR : Reachable s) (x y : Int)
    (hv : s.board.pointValid x y = true) (hh : s.board.get x y = mineTileChar)
    (hm : s.mines.get x y = solidChar) (fuel : Nat) :
    ∃ s1, mineRound fuel s x y 'R' = some s1 ∧ s1.running = false ∧
      s1.numUnrevealed = s.numUnrevealed ∧ s1.numFlagged = s.numFlagged ∧
      s1.numMines = s.numMines ∧ s1.mines = s.mines ∧
      (∀ i j, s.mines.pointValid i j = true → s.mines.get i j = solidChar →
        s1.board.get i j = solidChar) ∧
      (∀ i j, ¬ (s.mines.pointValid i j = true ∧ s.mines.get i j = solidChar) →
        s1.board.get i j = s.board.get i j) ∧
      "Game Over!" ∈ s1.output.drop s.output.length ∧
      ∀ rest, mineRounds fuel s1 rest = some s1 := by
  have hI := hR.inv
  have hvm := hI.valid x y hv
  have hc : confirm fuel { s with board := s.board.set x y mineSelectedChar } x y
      (s.board.get x y) 'R'
      = some { s with board := mineReveal s.mines (s.board.set x y mineSelectedChar),
                      output := s.output ++ ["Game Over!"],
                      running := false } := by
    unfold confirm
    rw [if_neg (by decide), if_pos rfl, if_neg (by rw [hh]; decide), if_pos hm]
  have hround := mineRound_accept fuel s x y 'R' ⟨hv, Or.inl hh⟩
  rw [hc] at hround
  simp only [Option.map_some'] at hround
  obtain ⟨r1, r2, r3, r4⟩ := mineReveal_spec s.mines (s.board.set x y mineSelectedChar)
  have hset : ∀ i j, ¬ (s.mines.pointValid i j = true ∧ s.mines.get i j = solidChar) →
      (s.board.set x y mineSelectedChar).get i j = s.board.get i j := by
    intro i j hn
    have hij : ¬ (i = x ∧ j = y) := by
      rintro ⟨rfl, rfl⟩
      exact hn ⟨hvm, hm⟩
    simp only [Array2D.get, Array2D.set, if_neg hij]
  refine ⟨_, hround, ?_⟩
  unfold winCheck
  by_cases hw : s.numUnrevealed = s.numMines
  · rw [if_pos hw]
    obtain ⟨q1, q2, q3, q4⟩ := mineReveal_spec s.mines
      (mineReveal s.mines (s.board.set x y mineSelectedChar))
    refine ⟨rfl, rfl, rfl, rfl, rfl, q3, fun i j hn => ?_, ?_, fun rest => ?_⟩
    · rw [q4 i j hn, r4 i j hn, hset i j hn]
    · simp
    · cases rest with
      | nil => rfl
      | cons a rest =>
        obtain ⟨a1, a2, a3⟩ := a
        simp [mineRounds]
  · rw [if_neg hw]
    refine ⟨rfl, rfl, rfl, rfl, rfl, r3, fun i j hn => ?_, ?_, fun rest => ?_⟩
    · rw [r4 i j hn, hset i j hn]
    · simp
    · cases rest with
      | nil => rfl
      | cons a rest =>
        obtain ⟨a1, a2, a3⟩ := a
        simp [mineRounds]

/-- C8, witness: revealing the mine at `(2, 1)` of a 3 by 3 layout with two
mines, from the initial state of the game. -/
theorem reveal_mine_loses_witness :
    ((mineLoop 9 twoMines 2 [(2, 1, 'R'), (1, 1, 'R')]).map
        (fun s => (s.board.rows, s.numUnrevealed, s.numFlagged, s.running, s.output))
      = some ([['#', '-', '-'], ['-', '-', '#'], ['-', '-', '-']], 9, 0, false,
          ["Game Over!"])) ∧
      ∃ s1, mineRound 9 (mineInit twoMines 2) 2 1 'R' = some s1 ∧ s1.running = false ∧
        s1.numUnrevealed = (mineInit twoMines 2).numUnrevealed ∧
        s1.numFlagged = (mineInit twoMines 2).numFlagged ∧
        s1.numMines = (mineInit twoMines 2).numMines ∧ s1.mines = (mineInit twoMines 2).mines ∧
        (∀ i j, (mineInit twoMines 2).mines.pointValid i j = true →
          (mineInit twoMines 2).mines.get i j = solidChar → s1.board.get i j = solidChar) ∧
        (∀ i j, ¬ ((mineInit twoMines 2).mines.pointValid i j = true ∧
            (mineInit twoMines 2).mines.get i j = solidChar) →
          s1.board.get i j = (mineInit twoMines 2).board.get i j) ∧
        "Game Over!" ∈ s1.output.drop (mineInit twoMines 2).output.length ∧
        ∀ rest, mineRounds 9 s1 rest = some s1 :=
  ⟨by decide,
    reveal_mine_loses (mineInit twoMines 2) (Reachable.init twoMines 2) 2 1 (by decide)
      (by decide) (by decide) 9⟩

theorem winCheck_board (s : GameState) (i j : Int) :
    (winCheck s).board.get i j = s.board.get i j ∨
      ((winCheck s).board.get i j = solidChar ∧ s.mines.pointValid i j = true ∧
        s.mines.get i j = solidChar) := by
  unfold winCheck
  split
  · by_cases hm : s.mines.pointValid i j = true ∧ s.mines.get i j = solidChar
    · exact Or.inr ⟨(mineReveal_spec s.mines s.board).2.2.1 i j hm.1 hm.2, hm.1, hm.2⟩
    · exact Or.inl ((mineReveal_spec s.mines s.board).2.2.2 i j hm)
  · exact Or.inl rfl

/-- C7: in every state of the game loop, a round on an accepted tile returns
with fuel for `width * height` dequeues; `You Win!` is printed in the round iff
`numUnrevealed = numMines` holds after the action, and when it holds the loop
has stopped and every in-bounds mine cell of the layout shows `solidChar`. -/
theorem win_check (s : GameState) (hR : Reachable s) (x y : Int) (c : Char)
    (hsel : Selectable s x y) (fuel : Nat)
    (hf : s.mines.width.toNat * s.mines.height.toNat ≤ fuel) :
    ∃ s1, mineRound fuel s x y c = some s1 ∧
      ("You Win!" ∈ printed s s1 ↔ s1.numUnrevealed = s1.numMines) ∧
      (s1.numUnrevealed = s1.numMines → s1.running = false ∧
        ∀ i j, s1.mines.pointValid i j = true → s1.mines.get i j = solidChar →
          s1.board.get i j = solidChar) := by
  obtain ⟨s2, h2, hround⟩ := mineRound_some fuel s x y c hR.inv hsel hf
  obtain ⟨-, -, -, -, extra, hout, hextra⟩ := confirm_frame fuel _ s2 x y _ c h2
  simp only at hout
  refine ⟨winCheck s2, hround, ?_, ?_⟩
  · unfold printed winCheck
    by_cases hw : s2.numUnrevealed = s2.numMines
    · rw [if_pos hw]
      simp [hout, hw]
    · rw [if_neg hw]
      simp [hout, hw, hextra]
  · intro hw
    unfold winCheck at hw ⊢
    by_cases hw2 : s2.numUnrevealed = s2.numMines
    · rw [if_pos hw2]
      exact ⟨rfl, fun i j hv hm => (mineReveal_spec s2.mines s2.board).2.2.1 i j hv hm⟩
    · rw [if_neg hw2] at hw
      exact absurd hw hw2

/-- C7, witness: the round `(2, 2, R)` on the initial state of the game on the
3 by 3 layout with one mine at `(0, 0)`, which wins the game. -/
theorem win_check_witness :
    ((mineLoop 9 cornerLayout 1 [(2, 2, 'R')]).map
        (fun s => (s.board.rows, s.numUnrevealed, s.running, s.output))
      = some ([['#', '1', ' '], ['1', '1', ' '], [' ', ' ', ' ']], 1, false, ["You Win!"])) ∧
      ∃ s1, mineRound 9 (mineInit cornerLayout 1) 2 2 'R' = some s1 ∧
        ("You Win!" ∈ printed (mineInit cornerLayout 1) s1 ↔ s1.numUnrevealed = s1.numMines) ∧
        (s1.numUnrevealed = s1.numMines → s1.running = false ∧
          ∀ i j, s1.mines.pointValid i j = true → s1.mines.get i j = solidChar →
            s1.board.get i j = solidChar) :=
  ⟨by decide,
    win_check (mineInit cornerLayout 1) (Reachable.init cornerLayout 1) 2 2 'R'
      ⟨by decide, Or.inl (by decide)⟩ 9 (by decide)⟩

/-! ## The counter of unrevealed tiles -/

theorem isRevealed_digit (k : Nat) (h1 : 1 ≤ k) (h8 : k ≤ 8) : isRevealed (digitChar k) = true := by
  interval_cases k <;> decide

theorem isRevealed_of_unrevealed (ch : Char) (h : isUnrevealed ch = true) :
    isRevealed ch = false := by
  unfold isUnrevealed at h
  simp only [Bool.or_eq_true, beq_iff_eq] at h
  rcases h with rfl | rfl <;> decide

theorem CorrectCounts.revealed {mines : Array2D} (hc : CorrectCounts mines) (x y : Int)
    (hv : mines.pointValid x y = true) (hm : mines.get x y ≠ solidChar) :
    isRevealed (if mines.get x y = '0' then emptyChar else mines.get x y) = true := by
  by_cases hz : mines.get x y = '0'
  · rw [if_pos hz]
    decide
  · rw [if_neg hz]
    have hd := hc x y hv hm
    rw [hd]
    apply isRevealed_digit _ _ (neighbourMines_le mines x y)
    by_contra hk
    have hk0 : neighbourMines mines x y = 0 := by omega
    rw [hk0] at hd
    exact hz hd

/-- The accounting behind a reveal: if the board `b2` after the switch differs
from the board `b0` before the round at the selected tile, which now shows a
revealed state, and otherwise only at in-bounds non-mine tiles that were
Hidden and now show a revealed state, then after the win check the newly
revealed tiles are the selected tile and those other tiles. -/
theorem newlyRevealed_eq (mines b0 b2 bf : Array2D) (x y : Int)
    (hw : b0.width = mines.width) (hh : b0.height = mines.height)
    (hv : mines.pointValid x y = true) (hm : mines.get x y ≠ solidChar)
    (h0 : b0.get x y = mineTileChar) (h1 : isRevealed (b2.get x y) = true)
    (h2 : ∀ i j, ¬ (i = x ∧ j = y) → b2.get i j ≠ b0.get i j →
      b0.get i j = mineTileChar ∧ isRevealed (b2.get i j) = true ∧
        mines.get i j ≠ solidChar)
    (hf : ∀ i j, bf.get i j = b2.get i j ∨
      (bf.get i j = solidChar ∧ mines.pointValid i j = true ∧ mines.get i j = solidChar)) :
    newlyRevealed b0 bf
      = insert (x, y) ((box mines.width mines.height).filter fun p =>
          ¬ (p.1 = x ∧ p.2 = y) ∧ b2.get p.1 p.2 ≠ b0.get p.1 p.2) := by
  unfold newlyRevealed
  rw [hw, hh]
  ext ⟨i, j⟩
  simp only [Finset.mem_filter, Finset.mem_insert, Prod.mk.injEq, Bool.and_eq_true]
  constructor
  · rintro ⟨hbox, hun, hrev⟩
    by_cases hij : i = x ∧ j = y
    · exact Or.inl hij
    · refine Or.inr ⟨hbox, hij, fun heq => ?_⟩
      rcases hf i j with h3 | ⟨h3, -, -⟩
      · rw [h3, heq, isRevealed_of_unrevealed _ hun] at hrev
        exact absurd hrev (by simp)
      · rw [h3] at hrev
        exact absurd hrev (by decide)
  · rintro (⟨rfl, rfl⟩ | ⟨hbox, hij, hne⟩)
    · refine ⟨mem_box.mpr ((pointValid_iff mines i j).mp hv), ?_, ?_⟩
      · rw [h0]
        decide
      · rcases hf i j with h3 | ⟨-, -, h3⟩
        · rw [h3]
          exact h1
        · exact absurd h3 hm
    · obtain ⟨k1, k2, k3⟩ := h2 i j hij hne
      refine ⟨hbox, ?_, ?_⟩
      · rw [k1]
        decide
      · rcases hf i j with h3 | ⟨-, -, h3⟩
        · rw [h3]
          exact k2
        · exact absurd h3 k3

theorem newlyRevealed_card (mines b0 b2 bf : Array2D) (x y : Int)
    (hw : b0.width = mines.width) (hh : b0.height = mines.height)
    (hv : mines.pointValid x y = true) (hm : mines.get x y ≠ solidChar)
    (h0 : b0.get x y = mineTileChar) (h1 : isRevealed (b2.get x y) = true)
    (h2 : ∀ i j, ¬ (i = x ∧ j = y) → b2.get i j ≠ b0.get i j →
      b0.get i j = mineTileChar ∧ isRevealed (b2.get i j) = true ∧
        mines.get i j ≠ solidChar)
    (hf : ∀ i j, bf.get i j = b2.get i j ∨
      (bf.get i j = solidChar ∧ mines.pointValid i j = true ∧ mines.get i j = solidChar)) :
    (newlyRevealed b0 bf).card
      = ((box mines.width mines.height).filter fun p =>
          ¬ (p.1 = x ∧ p.2 = y) ∧ b2.get p.1 p.2 ≠ b0.get p.1 p.2).card + 1 := by
  rw [newlyRevealed_eq mines b0 b2 bf x y hw hh hv hm h0 h1 h2 hf,
    Finset.card_insert_of_not_mem]
  simp

/-- A round answered with anything but `R` leaves `numUnrevealed` alone. -/
theorem confirm_other (fuel : Nat) (s s2 : GameState) (x y : Int) (oldChar c : Char)
    (hc : c ≠ 'R') (h : confirm fuel s x y oldChar c = some s2) :
    s2.numUnrevealed = s.numUnrevealed := by
  unfold confirm at h
  split at h
  · split at h
    · simp only [Option.some.injEq] at h
      subst h
      rfl
    · split at h
      · simp only [Option.some.injEq] at h
        subst h
        rfl
      · simp only [Option.some.injEq] at h
        subst h
        rfl
  · simp only [if_neg hc, Option.some.injEq] at h
    subst h
    rfl

theorem reveal_number_count (s : GameState) (hI : GameInv s) (x y : Int)
    (hv : s.board.pointValid x y = true) (hh : s.board.get x y = mineTileChar)
    (hm : s.mines.get x y ≠ solidChar) (hz : s.mines.get x y ≠ '0') (fuel : Nat) :
    ∃ s1, mineRound fuel s x y 'R' = some s1 ∧
      s1.numUnrevealed = s.numUnrevealed - ((newlyRevealed s.board s1.board).card : Int) ∧
      1 ≤ (newlyRevealed s.board s1.board).card := by
  have hvm := hI.valid x y hv
  have hc : confirm fuel { s with board := s.board.set x y mineSelectedChar } x y
      (s.board.get x y) 'R'
      = some { s with board := s.board.set x y (s.mines.get x y),
                      numUnrevealed := s.numUnrevealed - 1 } := by
    unfold confirm
    rw [if_neg (by decide), if_pos rfl, if_neg (by rw [hh]; decide), if_neg hm, if_neg hz]
    simp only [Array2D.set_set]
  have hround := mineRound_accept fuel s x y 'R' ⟨hv, Or.inl hh⟩
  rw [hc] at hround
  simp only [Option.map_some'] at hround
  have hrev := hI.counts.revealed x y hvm hm
  rw [if_neg hz] at hrev
  have hget : ∀ i j, (s.board.set x y (s.mines.get x y)).get i j
      = if i = x ∧ j = y then s.mines.get x y else s.board.get i j := fun _ _ => rfl
  have hcard := newlyRevealed_card s.mines s.board (s.board.set x y (s.mines.get x y))
    (winCheck { s with board := s.board.set x y (s.mines.get x y),
                       numUnrevealed := s.numUnrevealed - 1 }).board x y
    hI.width hI.height hvm hm hh (by rw [Array2D.get_set_self]; exact hrev)
    (fun i j hij hne => by rw [hget, if_neg hij] at hne; exact absurd rfl hne)
    (fun i j => winCheck_board _ i j)
  have hempty : ((box s.mines.width s.mines.height).filter fun p : Int × Int =>
      ¬ (p.1 = x ∧ p.2 = y) ∧
        (s.board.set x y (s.mines.get x y)).get p.1 p.2 ≠ s.board.get p.1 p.2) = ∅ := by
    apply Finset.filter_eq_empty_iff.mpr
    rintro ⟨i, j⟩ - ⟨hij, hne⟩
    simp only [hget, if_neg hij] at hne
    exact hne rfl
  rw [hempty, Finset.card_empty] at hcard
  refine ⟨_, hround, ?_, by omega⟩
  rw [(winCheck_frame _).2.2.1, hcard]
  simp

theorem reveal_cascade_count (s : GameState) (hI : GameInv s) (x y : Int)
    (hv : s.board.pointValid x y = true) (hh : s.board.get x y = mineTileChar)
    (hm : s.mines.get x y ≠ solidChar) (hz : s.mines.get x y = '0') (fuel : Nat)
    (hf : s.mines.width.toNat * s.mines.height.toNat ≤ fuel) :
    ∃ s1, mineRound fuel s x y 'R' = some s1 ∧
      s1.numUnrevealed = s.numUnrevealed - ((newlyRevealed s.board s1.board).card : Int) ∧
      1 ≤ (newlyRevealed s.board s1.board).card := by
  have hvm := hI.valid x y hv
  obtain ⟨r, hr, -, -, hpt, hcnt⟩ := mineFill_spec s.mines (s.board.set x y mineSelectedChar) x y
    s.numUnrevealed hI.counts.ne_tile hvm fuel hf
  have hc : confirm fuel { s with board := s.board.set x y mineSelectedChar } x y
      (s.board.get x y) 'R'
      = some { s with board := r.1, numUnrevealed := r.2 } := by
    unfold confirm
    rw [if_neg (by decide), if_pos rfl, if_neg (by rw [hh]; decide), if_neg hm, if_pos hz]
    simp only [hr, Option.map_some']
  have hround := mineRound_accept fuel s x y 'R' ⟨hv, Or.inl hh⟩
  rw [hc] at hround
  simp only [Option.map_some'] at hround
  have hsel : ∀ i j, ¬ (i = x ∧ j = y) →
      (s.board.set x y mineSelectedChar).get i j = s.board.get i j := by
    intro i j hij
    simp only [Array2D.get, Array2D.set, if_neg hij]
  have hcard := newlyRevealed_card s.mines s.board r.1
    (winCheck { s with board := r.1, numUnrevealed := r.2 }).board x y
    hI.width hI.height hvm hm hh (by rw [(hpt x y).1 ⟨rfl, rfl⟩]; decide)
    (fun i j hij hne => by
      by_cases hu : Uncovered s.mines (s.board.set x y mineSelectedChar) x y i j
      · refine ⟨?_, ?_, hu.2.2.1⟩
        · rw [← hsel i j hij]
          exact hu.1
        · rw [(hpt i j).2.1 hij hu]
          exact hI.counts.revealed i j hu.2.1 hu.2.2.1
      · rw [(hpt i j).2.2 hij hu, hsel i j hij] at hne
        exact absurd rfl hne)
    (fun i j => winCheck_board _ i j)
  have hfilter : ((box s.mines.width s.mines.height).filter fun p : Int × Int =>
        r.1.get p.1 p.2 ≠ ((s.board.set x y mineSelectedChar).set x y emptyChar).get p.1 p.2)
      = ((box s.mines.width s.mines.height).filter fun p : Int × Int =>
        ¬ (p.1 = x ∧ p.2 = y) ∧ r.1.get p.1 p.2 ≠ s.board.get p.1 p.2) := by
    apply Finset.filter_congr
    rintro ⟨i, j⟩ -
    by_cases hij : i = x ∧ j = y
    · have e1 := (hpt i j).1 hij
      have e2 : ((s.board.set x y mineSelectedChar).set x y emptyChar).get i j = emptyChar := by
        simp only [Array2D.get, Array2D.set, if_pos hij]
      constructor
      · intro h
        exact absurd (e1.trans e2.symm) h
      · intro h
        exact absurd hij h.1
    · have e2 : ((s.board.set x y mineSelectedChar).set x y emptyChar).get i j
          = s.board.get i j := by
        simp only [Array2D.get, Array2D.set, if_neg hij]
      simp only [e2, hij, not_false_eq_true, true_and]
  rw [hfilter] at hcnt
  refine ⟨_, hround, ?_, by omega⟩
  rw [(winCheck_frame _).2.2.1, hcard]
  simp only [hcnt]
  push_cast
  ring

/-- C6: in every state of the game loop and for every accepted tile, with
fuel for `width * height` dequeues: a round answered with anything but `R`
(flag, unflag, cancel) returns with `numUnrevealed` unchanged; and a reveal of
a Hidden tile that is not a mine (the single number or the cascade) returns
with `numUnrevealed` lowered by the number of tiles that went from Hidden or
Flagged to a revealed non-mine state in the round, which is at least 1. -/
theorem numUnrevealed_accounting (s : GameState) (hR : Reachable s) (x y : Int)
    (hsel : Selectable s x y) (fuel : Nat)
    (hf : s.mines.width.toNat * s.mines.height.toNat ≤ fuel) :
    (∀ c, c ≠ 'R' →
      ∃ s1, mineRound fuel s x y c = some s1 ∧ s1.numUnrevealed = s.numUnrevealed) ∧
    (s.board.get x y = mineTileChar → s.mines.get x y ≠ solidChar →
      ∃ s1, mineRound fuel s x y 'R' = some s1 ∧
        s1.numUnrevealed = s.numUnrevealed - ((newlyRevealed s.board s1.board).card : Int) ∧
        1 ≤ (newlyRevealed s.board s1.board).card) := by
  refine ⟨fun c hc => ?_, fun hh hm => ?_⟩
  · obtain ⟨s2, h2, hround⟩ := mineRound_some fuel s x y c hR.inv hsel hf
    refine ⟨_, hround, ?_⟩
    rw [(winCheck_frame s2).2.2.1, confirm_other fuel _ s2 x y _ c hc h2]
  · by_cases hz : s.mines.get x y = '0'
    · exact reveal_cascade_count s hR.inv x y hsel.1 hh hm hz fuel hf
    · exact reveal_number_count s hR.inv x y hsel.1 hh hm hz fuel

/-- C6, witness: the accounting at the round on the tile `(2, 2)` of the
initial state of the game on the 3 by 3 layout with one mine at `(0, 0)`; the
reveal there lowers `numUnrevealed` from 9 to 1. -/
theorem numUnrevealed_accounting_witness :
    ((mineLoop 9 cornerLayout 1 [(2, 2, 'R')]).map
        (fun s => (s.numUnrevealed,
          (newlyRevealed (mineInit cornerLayout 1).board s.board).card))
      = some (1, 8)) ∧
    (∀ c, c ≠ 'R' →
      ∃ s1, mineRound 9 (mineInit cornerLayout 1) 2 2 c = some s1 ∧
        s1.numUnrevealed = (mineInit cornerLayout 1).numUnrevealed) ∧
    ((mineInit cornerLayout 1).board.get 2 2 = mineTileChar →
      (mineInit cornerLayout 1).mines.get 2 2 ≠ solidChar →
      ∃ s1, mineRound 9 (mineInit cornerLayout 1) 2 2 'R' = some s1 ∧
        s1.numUnrevealed = (mineInit cornerLayout 1).numUnrevealed
          - ((newlyRevealed (mineInit cornerLayout 1).board s1.board).card : Int) ∧
        1 ≤ (newlyRevealed (mineInit cornerLayout 1).board s1.board).card) :=
  ⟨by decide,
    numUnrevealed_accounting (mineInit cornerLayout 1) (Reachable.init cornerLayout 1) 2 2
      ⟨by decide, Or.inl (by decide)⟩ 9 (by decide)⟩

/-! ## Cancel, selection and the scenario of the corner mine -/

theorem confirm_cancel (fuel : Nat) (s : GameState) (x y : Int) (c : Char)
    (hF : c ≠ 'F') (hR : c ≠ 'R') :
    confirm fuel { s with board := s.board.set x y mineSelectedChar } x y
        (s.board.get x y) c = some s := by
  unfold confirm
  rw [if_neg hF, if_neg hR]
  simp only [Array2D.set_set_self s.board x y mineSelectedChar (s.board.get x y) rfl]

/-- C11: cancel restores the prior state.  In every state, selecting the tile
`(x, y)` and running the default case of the switch, taken for every answer
other than `F` or `R`, returns the state the selection started from: the tile
shows what it showed before, and the whole board, `numFlagged` and
`numUnrevealed` are as before.  In every running state of a game that
`mineLoop` started with `numMines ≠ width * height` (`main` always passes
fewer mines than tiles), the whole round that selects a Hidden or Flagged
in-bounds tile and gets such an answer, win check included, returns the state
the round started from. -/
theorem cancel_restores (s : GameState) (x y : Int) (c : Char) (hF : c ≠ 'F')
    (hR : c ≠ 'R') (fuel : Nat) :
    confirm fuel { s with board := s.board.set x y mineSelectedChar } x y
        (s.board.get x y) c = some s ∧
    (Reachable s → s.running = true → s.numMines ≠ s.mines.width * s.mines.height →
      Selectable s x y → mineRound fuel s x y c = some s) := by
  refine ⟨confirm_cancel fuel s x y c hF hR, fun hreach hrun hgame hsel => ?_⟩
  have hne : s.numUnrevealed ≠ s.numMines := fun he => hgame (hreach.winOpen hrun he)
  rw [mineRound_accept fuel s x y c hsel, confirm_cancel fuel s x y c hF hR]
  simp only [Option.map_some', Option.some.injEq]
  exact winCheck_of_ne s hne

/-- C11, witness: cancelling the selection of the Hidden tile `(1, 1)` in the
initial state of the game on the 3 by 3 layout with one mine at `(0, 0)`, and
of the Flagged tile `(1, 1)` in the state after it was flagged. -/
theorem cancel_restores_witness :
    ((mineLoop 9 cornerLayout 1 [(1, 1, 'C')]).map
        (fun s => (s.board.rows, s.numUnrevealed, s.numFlagged, s.running))
      = some ([['-', '-', '-'], ['-', '-', '-'], ['-', '-', '-']], 9, 0, true)) ∧
      mineRound 9 (mineInit cornerLayout 1) 1 1 'C' = some (mineInit cornerLayout 1) ∧
      mineRound 9 flaggedState 1 1 'C' = some flaggedState :=
  ⟨by decide,
    (cancel_restores (mineInit cornerLayout 1) 1 1 'C' (by decide) (by decide) 9).2
      (Reachable.init cornerLayout 1) rfl (by decide) ⟨by decide, Or.inl (by decide)⟩,
    (cancel_restores flaggedState 1 1 'C' (by decide) (by decide) 9).2
      (Reachable.round 9 1 1 'F' (Reachable.init cornerLayout 1) rfl rfl) (by decide)
      (by decide) ⟨by decide, Or.inr (by decide)⟩⟩

theorem Array2D.read_valid (a : Array2D) (x y : Int) (h : a.pointValid x y = true) :
    a.read x y = some (a.get x y) := by
  unfold Array2D.read
  rw [if_pos h]
  rfl

/-- C12: a round whose coordinates are out of bounds, or whose in-bounds tile
shows neither Hidden nor Flagged, returns the state unchanged, and the
bounds-checked reading of the test does not fault: out of bounds the board is
not indexed at all.  For an in-bounds Hidden or Flagged tile the selection
does not fault either, the tile becomes `mineSelectedChar`, and the switch is
run with the character the tile showed before. -/
theorem select_guard (s : GameState) (x y : Int) (c : Char) (fuel : Nat) :
    ((x < 0 ∨ s.board.width ≤ x ∨ y < 0 ∨ s.board.height ≤ y) →
      selectTile s.board x y = some none ∧ mineRound fuel s x y c = some s) ∧
    (s.board.pointValid x y = true → s.board.get x y ≠ mineTileChar →
      s.board.get x y ≠ mineFlaggedChar →
      selectTile s.board x y = some none ∧ mineRound fuel s x y c = some s) ∧
    (s.board.pointValid x y = true →
      (s.board.get x y = mineTileChar ∨ s.board.get x y = mineFlaggedChar) →
      selectTile s.board x y
          = some (some (s.board.get x y, s.board.set x y mineSelectedChar)) ∧
        (s.board.set x y mineSelectedChar).get x y = mineSelectedChar ∧
        mineRound fuel s x y c
          = (confirm fuel { s with board := s.board.set x y mineSelectedChar } x y
              (s.board.get x y) c).map winCheck) := by
  refine ⟨fun hout => ?_, fun hv h1 h2 => ?_, fun hv hsel => ?_⟩
  · have hnv : ¬ s.board.pointValid x y = true := by
      rw [pointValid_iff]
      omega
    refine ⟨?_, mineRound_reject fuel s x y c (fun h => hnv h.1)⟩
    unfold selectTile
    simp [hnv]
  · refine ⟨?_, mineRound_reject fuel s x y c (fun h => ?_)⟩
    · unfold selectTile
      simp [hv, Array2D.read_valid, h1, h2]
    · rcases h.2 with h3 | h3
      · exact h1 h3
      · exact h2 h3
  · refine ⟨?_, Array2D.get_set_self _ _ _ _, mineRound_accept fuel s x y c ⟨hv, hsel⟩⟩
    unfold selectTile
    have hw : s.board.write x y mineSelectedChar = some (s.board.set x y mineSelectedChar) := by
      unfold Array2D.write
      rw [if_pos hv]
    rcases hsel with h3 | h3
    · simp [hv, Array2D.read_valid, h3, hw]
    · simp [hv, Array2D.read_valid, h3, hw]

/-- C12, witness: on the initial state of the game on the 3 by 3 layout with
one mine at `(0, 0)`, the coordinates `(3, 0)` are rejected without a fault. -/
theorem select_guard_witness :
    selectTile (mineInit cornerLayout 1).board 3 0 = some none ∧
      mineRound 9 (mineInit cornerLayout 1) 3 0 'R' = some (mineInit cornerLayout 1) :=
  (select_guard (mineInit cornerLayout 1) 3 0 'R' 9).1 (by decide)

/-- C13: scenario B.  On the 3 by 3 layout whose only mine is at `(0, 0)`,
with `numMines = 1` and a fully Hidden board, the count at `(2, 2)` is `'0'`,
and the single round `(2, 2, R)` reveals all eight non-mine tiles, leaves
`numUnrevealed = 1 = numMines`, stops the loop with `You Win!` and shows the
mine at `(0, 0)` as `solidChar`. -/
theorem scenario_corner_mine :
    (prepare cornerLayout).get 2 2 = '0' ∧
      (mineInit cornerLayout 1).board.rows
        = [['-', '-', '-'], ['-', '-', '-'], ['-', '-', '-']] ∧
      (mineLoop 9 cornerLayout 1 [(2, 2, 'R')]).map
          (fun s => (s.board.rows, s.numUnrevealed, s.numMines))
        = some ([['#', '1', ' '], ['1', '1', ' '], [' ', ' ', ' ']], 1, 1) ∧
      (mineLoop 9 cornerLayout 1 [(2, 2, 'R')]).map
          (fun s => (s.running, s.output,
            (newlyRevealed (mineInit cornerLayout 1).board s.board).card))
        = some (false, ["You Win!"], 8) := by
  refine ⟨by decide, by decide, by decide, by decide⟩

/-! ## The cells taken from the queue -/

theorem Scheme.step_closed (B : Scheme) (x y : Int) (st : Work) (d : Int × Int) (p q : Int)
    (h : B.G p q (st.b p q) = false) : (B.step x y st d).b p q = st.b p q := by
  unfold Scheme.step
  by_cases hg : B.G (x + d.1) (y + d.2) (st.b (x + d.1) (y + d.2)) = true
  · rw [if_pos hg]
    have hpq : ¬ (p = x + d.1 ∧ q = y + d.2) := by
      rintro ⟨rfl, rfl⟩
      rw [h] at hg
      exact absurd hg (by simp)
    simp only [if_neg hpq]
  · rw [if_neg hg]

theorem Scheme.fold_closed (B : Scheme) (x y : Int) (ds : List (Int × Int)) (st : Work)
    (p q : Int) (h : B.G p q (st.b p q) = false) :
    (ds.foldl (B.step x y) st).b p q = st.b p q := by
  induction ds generalizing st with
  | nil => rfl
  | cons d ds ih =>
    have h1 := B.step_closed x y st d p q h
    rw [List.foldl_cons, ih _ (by rw [h1]; exact h), h1]

/-- A cell that does not pass the guard when the loop starts is never
overwritten. -/
theorem Scheme.loop_closed (B : Scheme) (fuel : Nat) (st r : Work)
    (hr : B.loop fuel st = some r) (p q : Int) (h : B.G p q (st.b p q) = false) :
    r.b p q = st.b p q := by
  induction fuel generalizing st with
  | zero =>
    obtain ⟨b, n, Q⟩ := st
    cases Q with
    | nil =>
      simp only [Scheme.loop, Option.some.injEq] at hr
      subst hr
      rfl
    | cons c Q => simp [Scheme.loop] at hr
  | succ fuel ih =>
    obtain ⟨b, n, Q⟩ := st
    cases Q with
    | nil =>
      simp only [Scheme.loop, Option.some.injEq] at hr
      subst hr
      rfl
    | cons c Q =>
      obtain ⟨x, y⟩ := c
      simp only [Scheme.loop] at hr
      have h1 := B.fold_closed x y B.offs ⟨b, n, Q⟩ p q h
      rw [ih _ hr (by rw [h1]; exact h), h1]

theorem Scheme.step_queue (B : Scheme)
    (hK : ∀ x y, B.e x y = true → B.G x y (B.w x y) = false)
    (x y : Int) (st : Work) (d : Int × Int) (h : B.QueueOk st) :
    B.QueueOk (B.step x y st d) ∧
      ∀ c ∈ (B.step x y st d).Q, c ∈ st.Q ∨ B.G c.1 c.2 (st.b c.1 c.2) = true := by
  have hcl := B.step_closed x y st d
  unfold Scheme.step at hcl ⊢
  by_cases hg : B.G (x + d.1) (y + d.2) (st.b (x + d.1) (y + d.2)) = true
  · rw [if_pos hg] at hcl ⊢
    by_cases he : B.e (x + d.1) (y + d.2) = true
    · simp only [if_pos he]
      have hnot : (x + d.1, y + d.2) ∉ st.Q := by
        intro hmem
        have := h.2 _ hmem
        simp only at this
        rw [this] at hg
        exact absurd hg (by simp)
      refine ⟨⟨?_, fun c hc => ?_⟩, fun c hc => ?_⟩
      · exact List.Nodup.append h.1 (List.nodup_singleton _)
          (by
            intro a ha hb
            rw [List.mem_singleton.mp hb] at ha
            exact hnot ha)
      · rcases List.mem_append.mp hc with hc | hc
        · have h1 := h.2 c hc
          have h2 := hcl c.1 c.2 h1
          simp only at h2 ⊢
          rw [h2]
          exact h1
        · rw [List.mem_singleton.mp hc]
          simp only [and_self, if_true]
          exact hK _ _ he
      · rcases List.mem_append.mp hc with hc | hc
        · exact Or.inl hc
        · rw [List.mem_singleton.mp hc]
          exact Or.inr hg
    · simp only [if_neg he]
      refine ⟨⟨h.1, fun c hc => ?_⟩, fun c hc => Or.inl hc⟩
      have h1 := h.2 c hc
      have h2 := hcl c.1 c.2 h1
      simp only at h2 ⊢
      rw [h2]
      exact h1
  · rw [if_neg hg]
    exact ⟨h, fun c hc => Or.inl hc⟩

theorem Scheme.fold_queue (B : Scheme)
    (hK : ∀ x y, B.e x y = true → B.G x y (B.w x y) = false)
    (x y : Int) (ds : List (Int × Int)) (st : Work) (h : B.QueueOk st) :
    B.QueueOk (ds.foldl (B.step x y) st) ∧
      ∀ c ∈ (ds.foldl (B.step x y) st).Q, c ∈ st.Q ∨ B.G c.1 c.2 (st.b c.1 c.2) = true := by
  induction ds generalizing st with
  | nil => exact ⟨h, fun c hc => Or.inl hc⟩
  | cons d ds ih =>
    obtain ⟨h1, h2⟩ := B.step_queue hK x y st d h
    obtain ⟨k1, k2⟩ := ih _ h1
    rw [List.foldl_cons]
    refine ⟨k1, fun c hc => ?_⟩
    rcases k2 c hc with h3 | h3
    · exact h2 c h3
    · right
      by_contra hn
      have hn2 : B.G c.1 c.2 (st.b c.1 c.2) = false := by simpa using hn
      rw [B.step_closed x y st d c.1 c.2 hn2, hn2] at h3
      exact absurd h3 (by simp)

/-- The loop of the scheme takes no cell from the queue twice, and every cell
it takes was on the queue at the start or passed the guard at the start. -/
theorem Scheme.visits_nodup (B : Scheme)
    (hK : ∀ x y, B.e x y = true → B.G x y (B.w x y) = false)
    (fuel : Nat) (st : Work) (L : List (Int × Int)) (h : B.QueueOk st)
    (hL : B.visits fuel st = some L) :
    L.Nodup ∧ ∀ c ∈ L, c ∈ st.Q ∨ B.G c.1 c.2 (st.b c.1 c.2) = true := by
  induction fuel generalizing st L with
  | zero =>
    obtain ⟨b, n, Q⟩ := st
    cases Q with
    | nil =>
      simp only [Scheme.visits, Option.some.injEq] at hL
      subst hL
      exact ⟨List.nodup_nil, fun c hc => absurd hc (List.not_mem_nil c)⟩
    | cons c Q => simp [Scheme.visits] at hL
  | succ fuel ih =>
    obtain ⟨b, n, Q⟩ := st
    cases Q with
    | nil =>
      simp only [Scheme.visits, Option.some.injEq] at hL
      subst hL
      exact ⟨List.nodup_nil, fun c hc => absurd hc (List.not_mem_nil c)⟩
    | cons c Q =>
      obtain ⟨x, y⟩ := c
      simp only [Scheme.visits] at hL
      cases hv : B.visits fuel (B.offs.foldl (B.step x y) ⟨b, n, Q⟩) with
      | none => rw [hv] at hL; simp at hL
      | some L1 =>
        rw [hv] at hL
        simp only [Option.map_some', Option.some.injEq] at hL
        subst hL
        have hnd : (x, y) ∉ Q ∧ Q.Nodup := List.nodup_cons.mp h.1
        have hcl : B.G x y (b x y) = false := h.2 (x, y) (List.mem_cons_self _ _)
        have hok : B.QueueOk ⟨b, n, Q⟩ :=
          ⟨hnd.2, fun c hc => h.2 c (List.mem_cons_of_mem _ hc)⟩
        obtain ⟨k1, k2⟩ := B.fold_queue hK x y B.offs ⟨b, n, Q⟩ hok
        obtain ⟨i1, i2⟩ := ih _ L1 k1 hv
        have hopen : ∀ c : Int × Int,
            B.G c.1 c.2 ((B.offs.foldl (B.step x y) ⟨b, n, Q⟩).b c.1 c.2) = true →
            B.G c.1 c.2 (b c.1 c.2) = true := by
          intro c hc
          by_contra hn
          have hn2 : B.G c.1 c.2 (b c.1 c.2) = false := by simpa using hn
          rw [B.fold_closed x y B.offs ⟨b, n, Q⟩ c.1 c.2 hn2] at hc
          simp only at hc
          rw [hn2] at hc
          exact absurd hc (by simp)
        have hmem : ∀ c ∈ L1, c ∈ Q ∨ B.G c.1 c.2 (b c.1 c.2) = true := by
          intro c hc
          rcases i2 c hc with h3 | h3
          · exact k2 c h3
          · exact Or.inr (hopen c h3)
        refine ⟨List.nodup_cons.mpr ⟨fun hin => ?_, i1⟩, fun c hc => ?_⟩
        · rcases hmem _ hin with h3 | h3
          · exact hnd.1 h3
          · simp only at h3
            rw [hcl] at h3
            exact absurd h3 (by simp)
        · rcases List.mem_cons.mp hc with rfl | hc
          · exact Or.inl (List.mem_cons_self _ _)
          · rcases hmem c hc with h3 | h3
            · exact Or.inl (List.mem_cons_of_mem _ h3)
            · exact Or.inr h3

theorem Scheme.visits_of_loop (B : Scheme) (fuel : Nat) (st r : Work)
    (hr : B.loop fuel st = some r) : ∃ L, B.visits fuel st = some L := by
  induction fuel generalizing st with
  | zero =>
    obtain ⟨b, n, Q⟩ := st
    cases Q with
    | nil => exact ⟨[], rfl⟩
    | cons c Q => simp [Scheme.loop] at hr
  | succ fuel ih =>
    obtain ⟨b, n, Q⟩ := st
    cases Q with
    | nil => exact ⟨[], rfl⟩
    | cons c Q =>
      obtain ⟨x, y⟩ := c
      simp only [Scheme.loop] at hr
      obtain ⟨L, hL⟩ := ih _ hr
      exact ⟨(x, y) :: L, by simp only [Scheme.visits, hL, Option.map_some']⟩

/-- A list without repetition of cells of `S` is no longer than `S`. -/
theorem nodup_length_le (S : Finset (Int × Int)) (L : List (Int × Int)) (hnd : L.Nodup)
    (hsub : ∀ c ∈ L, c ∈ S) : L.length ≤ S.card := by
  rw [← List.toFinset_card_of_nodup hnd]
  apply Finset.card_le_card
  intro c hc
  exact hsub c (List.mem_toFinset.mp hc)

theorem floodDequeues_rel (a : Array2D) (f : Char) (fuel : Nat) (arr : Array2D)
    (Q : List (Int × Int)) (wk : Work) (h : FloodRel a (arr, Q) wk) :
    floodDequeues f fuel arr Q = (floodScheme a f).visits fuel wk := by
  induction fuel generalizing arr Q wk with
  | zero =>
    obtain ⟨b, n, Q2⟩ := wk
    obtain ⟨h1, h2, h3, h4⟩ := h
    simp only at h4
    subst h4
    cases Q with
    | nil => rfl
    | cons c Q => rfl
  | succ fuel ih =>
    obtain ⟨b, n, Q2⟩ := wk
    obtain ⟨h1, h2, h3, h4⟩ := h
    simp only at h1 h2 h3 h4
    subst h4
    cases Q with
    | nil => rfl
    | cons c Q =>
      obtain ⟨x, y⟩ := c
      simp only [floodDequeues, Scheme.visits]
      exact congrArg (Option.map fun L => (x, y) :: L)
        (ih _ _ _ (floodFold_rel a f x y tileOffsetsOrthog (arr, Q) ⟨b, n, Q⟩
          ⟨h1, h2, h3, rfl⟩))

theorem mineDequeues_rel (mines bd : Array2D) (fuel : Nat) (st : FillState) (wk : Work)
    (h : MineRel bd st wk) :
    mineDequeues mines fuel st = (mineScheme mines).visits fuel wk := by
  induction fuel generalizing st wk with
  | zero =>
    obtain ⟨⟨w, ht, b0⟩, n0, Q⟩ := st
    obtain ⟨b, n, Q2⟩ := wk
    obtain ⟨h1, h2, h3, h4, h5⟩ := h
    simp only at h1 h2 h3 h4 h5
    subst h1 h2 h3 h4 h5
    cases Q with
    | nil => rfl
    | cons c Q => rfl
  | succ fuel ih =>
    obtain ⟨⟨w, ht, b0⟩, n0, Q⟩ := st
    obtain ⟨b, n, Q2⟩ := wk
    obtain ⟨h1, h2, h3, h4, h5⟩ := h
    simp only at h1 h2 h3 h4 h5
    subst h1 h2 h3 h4 h5
    cases Q with
    | nil => rfl
    | cons c Q =>
      obtain ⟨x, y⟩ := c
      simp only [mineDequeues, Scheme.visits]
      exact congrArg (Option.map fun L => (x, y) :: L)
        (ih _ _ (mineFillFold_rel mines bd x y tileOffsetsExtend _ _ ⟨rfl, rfl, rfl, rfl, rfl⟩))

/-- The call `floodFill` in terms of the scheme. -/
theorem floodFill_scheme (fuel : Nat) (array : Array2D) (f : Char) (sx sy : Int) :
    floodFill fuel array f sx sy
      = ((floodScheme array f).loop fuel ⟨(array.set sx sy f).array, 0, [(sx, sy)]⟩).map
          fun r => ⟨array.width, array.height, r.b⟩ :=
  floodLoop_rel array f fuel (array.set sx sy f) [(sx, sy)]
    ⟨(array.set sx sy f).array, 0, [(sx, sy)]⟩ ⟨rfl, rfl, rfl, rfl⟩

/-- The call `mineFill` in terms of the scheme. -/
theorem mineFill_scheme (fuel : Nat) (mines board : Array2D) (sx sy : Int) (num : Int) :
    mineFill fuel mines board sx sy num
      = ((mineScheme mines).loop fuel
          ⟨(board.set sx sy emptyChar).array, num - 1, [(sx, sy)]⟩).map
          fun r => (⟨board.width, board.height, r.b⟩, r.n) :=
  mineFillLoop_rel mines board fuel
    { board := board.set sx sy emptyChar, numUnrevealed := num - 1, Q := [(sx, sy)] }
    ⟨(board.set sx sy emptyChar).array, num - 1, [(sx, sy)]⟩ ⟨rfl, rfl, rfl, rfl, rfl⟩

theorem mineFill_scheme_some (fuel : Nat) (mines board : Array2D) (sx sy : Int) (num : Int)
    (r : Array2D × Int) (h : mineFill fuel mines board sx sy num = some r) :
    ∃ w, (mineScheme mines).loop fuel
        ⟨(board.set sx sy emptyChar).array, num - 1, [(sx, sy)]⟩ = some w ∧
      r = (⟨board.width, board.height, w.b⟩, w.n) := by
  rw [mineFill_scheme] at h
  cases hl : (mineScheme mines).loop fuel
      ⟨(board.set sx sy emptyChar).array, num - 1, [(sx, sy)]⟩ with
  | none => rw [hl] at h; simp at h
  | some w =>
    rw [hl] at h
    simp only [Option.map_some', Option.some.injEq] at h
    exact ⟨w, rfl, h.symm⟩

/-- The cells `floodFill` takes from its queue: with fuel for
`width * height` dequeues the list exists, holds no cell twice, holds only
cells in bounds and so has at most `width * height` entries. -/
theorem floodFill_dequeues (array : Array2D) (f : Char) (sx sy : Int)
    (hv : array.pointValid sx sy = true) (fuel : Nat)
    (hf : array.width.toNat * array.height.toNat ≤ fuel) :
    ∃ L, floodFillDequeues fuel array f sx sy = some L ∧ L.Nodup ∧
      (∀ c ∈ L, array.pointValid c.1 c.2 = true) ∧
      L.length ≤ array.width.toNat * array.height.toNat := by
  obtain ⟨r, hr, -⟩ := floodFill_spec array f sx sy hv fuel hf
  rw [floodFill_scheme] at hr
  cases hl : (floodScheme array f).loop fuel ⟨(array.set sx sy f).array, 0, [(sx, sy)]⟩ with
  | none => rw [hl] at hr; simp at hr
  | some w =>
    obtain ⟨L, hL⟩ := (floodScheme array f).visits_of_loop fuel _ w hl
    have hK : ∀ x y, (floodScheme array f).e x y = true →
        (floodScheme array f).G x y ((floodScheme array f).w x y) = false := by
      intro x y _
      simp [floodScheme]
    have hok : (floodScheme array f).QueueOk ⟨(array.set sx sy f).array, 0, [(sx, sy)]⟩ := by
      refine ⟨List.nodup_singleton _, fun c hc => ?_⟩
      rw [List.mem_singleton.mp hc]
      simp [floodScheme, Array2D.set]
    obtain ⟨hnd, hmem⟩ := (floodScheme array f).visits_nodup hK fuel _ L hok hL
    have hin : ∀ c ∈ L, array.pointValid c.1 c.2 = true := by
      intro c hc
      rcases hmem c hc with h1 | h1
      · rw [List.mem_singleton.mp h1]
        exact hv
      · exact ((floodScheme_guard array f _ _ _).mp h1).1
    refine ⟨L, ?_, hnd, hin, ?_⟩
    · unfold floodFillDequeues
      rw [floodDequeues_rel array f fuel (array.set sx sy f) [(sx, sy)]
        ⟨(array.set sx sy f).array, 0, [(sx, sy)]⟩ ⟨rfl, rfl, rfl, rfl⟩]
      exact hL
    · rw [← card_box]
      exact nodup_length_le _ L hnd
        (fun c hc => mem_box.mpr ((pointValid_iff array c.1 c.2).mp (hin c hc)))

/-- The cells `mineFill` takes from its queue: with fuel for
`width * height` dequeues the list exists, holds no cell twice, holds only
the start and in-bounds cells that are not mines, and so has at most
`width * height` entries. -/
theorem mineFill_dequeues (mines board : Array2D) (sx sy : Int) (num : Int)
    (hv : mines.pointValid sx sy = true) (fuel : Nat)
    (hf : mines.width.toNat * mines.height.toNat ≤ fuel) :
    ∃ L, mineFillDequeues fuel mines board sx sy num = some L ∧ L.Nodup ∧
      (∀ c ∈ L, mines.pointValid c.1 c.2 = true) ∧
      (∀ c ∈ L, c = (sx, sy) ∨ mines.get c.1 c.2 ≠ solidChar) ∧
      L.length ≤ mines.width.toNat * mines.height.toNat := by
  obtain ⟨w, hl⟩ := mineFill_returns mines board sx sy num hv fuel hf
  obtain ⟨L, hL⟩ := (mineScheme mines).visits_of_loop fuel _ w hl
  have hok : (mineScheme mines).QueueOk
      ⟨(board.set sx sy emptyChar).array, num - 1, [(sx, sy)]⟩ := by
    refine ⟨List.nodup_singleton _, fun c hc => ?_⟩
    rw [List.mem_singleton.mp hc]
    have : (emptyChar == mineTileChar) = false := by decide
    simp [mineScheme, Array2D.set, this]
  obtain ⟨hnd, hmem⟩ := (mineScheme mines).visits_nodup (mineScheme_hK mines) fuel _ L hok hL
  have hin : ∀ c ∈ L, mines.pointValid c.1 c.2 = true := by
    intro c hc
    rcases hmem c hc with h1 | h1
    · rw [List.mem_singleton.mp h1]
      exact hv
    · exact ((mineScheme_guard mines _ _ _).mp h1).1
  refine ⟨L, ?_, hnd, hin, fun c hc => ?_, ?_⟩
  · unfold mineFillDequeues
    rw [mineDequeues_rel mines board fuel _
      ⟨(board.set sx sy emptyChar).array, num - 1, [(sx, sy)]⟩ ⟨rfl, rfl, rfl, rfl, rfl⟩]
    exact hL
  · rcases hmem c hc with h1 | h1
    · exact Or.inl (List.mem_singleton.mp h1)
    · exact Or.inr ((mineScheme_guard mines _ _ _).mp h1).2.2
  · rw [← card_box]
    exact nodup_length_le _ L hnd
      (fun c hc => mem_box.mpr ((pointValid_iff mines c.1 c.2).mp (hin c hc)))

/-- C14: both breadth-first routines terminate on every grid.  For every
marker and in-bounds start `floodFill`, and for every layout, board and
in-bounds start `mineFill`, returns with fuel for `width * height` dequeues;
the list of the cells taken from the queue holds no cell twice (a cell is
enqueued at most once) and has at most `width * height` entries. -/
theorem bfs_terminates (array : Array2D) (fillChar : Char) (startX startY : Int)
    (mines board : Array2D) (mineX mineY : Int) (numUnrevealed : Int) :
    (array.pointValid startX startY = true →
      ∀ fuel, array.width.toNat * array.height.toNat ≤ fuel →
        ∃ r L, floodFill fuel array fillChar startX startY = some r ∧
          floodFillDequeues fuel array fillChar startX startY = some L ∧ L.Nodup ∧
          L.length ≤ array.width.toNat * array.height.toNat) ∧
    (mines.pointValid mineX mineY = true →
      ∀ fuel, mines.width.toNat * mines.height.toNat ≤ fuel →
        ∃ r L, mineFill fuel mines board mineX mineY numUnrevealed = some r ∧
          mineFillDequeues fuel mines board mineX mineY numUnrevealed = some L ∧ L.Nodup ∧
          L.length ≤ mines.width.toNat * mines.height.toNat) := by
  refine ⟨fun hv fuel hf => ?_, fun hv fuel hf => ?_⟩
  · obtain ⟨r, hr, -⟩ := floodFill_spec array fillChar startX startY hv fuel hf
    obtain ⟨L, hL, hnd, -, hlen⟩ := floodFill_dequeues array fillChar startX startY hv fuel hf
    exact ⟨r, L, hr, hL, hnd, hlen⟩
  · obtain ⟨r, hr⟩ := mineFill_some mines board mineX mineY numUnrevealed hv fuel hf
    obtain ⟨L, hL, hnd, -, -, hlen⟩ :=
      mineFill_dequeues mines board mineX mineY numUnrevealed hv fuel hf
    exact ⟨r, L, hr, hL, hnd, hlen⟩

/-- C14, witness: the two routines on 3 by 3 grids, with the lists of the
cells taken from the queue. -/
theorem bfs_terminates_witness :
    (floodFillDequeues 9 (Array2D.init 3 3 emptyChar) 'X' 1 1
        = some [(1, 1), (2, 1), (1, 2), (0, 1), (1, 0), (2, 2), (2, 0), (0, 2), (0, 0)]) ∧
    (mineFillDequeues 9 (prepare cornerLayout)
        ((Array2D.init 3 3 mineTileChar).set 2 2 mineSelectedChar) 2 2 9
        = some [(2, 2), (2, 1), (1, 2), (2, 0), (0, 2)]) ∧
    (∃ r L, floodFill 9 (Array2D.init 3 3 emptyChar) 'X' 1 1 = some r ∧
      floodFillDequeues 9 (Array2D.init 3 3 emptyChar) 'X' 1 1 = some L ∧ L.Nodup ∧
      L.length ≤ (Array2D.init 3 3 emptyChar).width.toNat
        * (Array2D.init 3 3 emptyChar).height.toNat) ∧
    (∃ r L, mineFill 9 (prepare cornerLayout)
        ((Array2D.init 3 3 mineTileChar).set 2 2 mineSelectedChar) 2 2 9 = some r ∧
      mineFillDequeues 9 (prepare cornerLayout)
        ((Array2D.init 3 3 mineTileChar).set 2 2 mineSelectedChar) 2 2 9 = some L ∧ L.Nodup ∧
      L.length ≤ (prepare cornerLayout).width.toNat * (prepare cornerLayout).height.toNat) :=
  ⟨by decide, by decide,
    (bfs_terminates (Array2D.init 3 3 emptyChar) 'X' 1 1 (prepare cornerLayout)
      ((Array2D.init 3 3 mineTileChar).set 2 2 mineSelectedChar) 2 2 9).1 (by decide) 9
      (by decide),
    (bfs_terminates (Array2D.init 3 3 emptyChar) 'X' 1 1 (prepare cornerLayout)
      ((Array2D.init 3 3 mineTileChar).set 2 2 mineSelectedChar) 2 2 9).2 (by decide) 9
      (by decide)⟩

/-! ## mineFill, mines and flags -/

/-- A tile other than the start that does not pass the guard of `mineFill`
on the input board shows after the call what it showed before; the start
shows `emptyChar`. -/
theorem mineFill_closed (fuel : Nat) (mines board : Array2D) (sx sy : Int) (num : Int)
    (r : Array2D × Int) (h : mineFill fuel mines board sx sy num = some r) :
    r.1.get sx sy = emptyChar ∧
      ∀ x y, ¬ (x = sx ∧ y = sy) →
        ¬ (mines.pointValid x y = true ∧ board.get x y = mineTileChar ∧
            mines.get x y ≠ solidChar) →
        r.1.get x y = board.get x y := by
  obtain ⟨w, hw, rfl⟩ := mineFill_scheme_some fuel mines board sx sy num r h
  refine ⟨?_, fun x y hxy hn => ?_⟩
  · have hcl : (mineScheme mines).G sx sy ((board.set sx sy emptyChar).array sx sy) = false := by
      have : (emptyChar == mineTileChar) = false := by decide
      simp [mineScheme, Array2D.set, this]
    have := (mineScheme mines).loop_closed fuel _ w hw sx sy hcl
    simp only [Array2D.get, this, Array2D.set, and_self, if_true]
  · have hb : (board.set sx sy emptyChar).array x y = board.get x y := by
      simp only [Array2D.get, Array2D.set, if_neg hxy]
    have hcl : (mineScheme mines).G x y ((board.set sx sy emptyChar).array x y) = false := by
      rw [hb]
      by_contra hg
      have hg2 : (mineScheme mines).G x y (board.get x y) = true := by simpa using hg
      exact hn ((mineScheme_guard mines x y _).mp hg2)
    have := (mineScheme mines).loop_closed fuel _ w hw x y hcl
    simp only [Array2D.get] at hb ⊢
    exact this.trans hb

/-- C15: for every layout, every board and every in-bounds start that is not
a mine, `mineFill` returns; every cell whose layout value is `solidChar`
shows after the call what it showed before, no cell taken from the queue is a
mine, and the state after a round that ran the switch has the layout it had
before. -/
theorem mineFill_spares_mines (mines board : Array2D) (startX startY : Int)
    (numUnrevealed : Int) (hv : mines.pointValid startX startY = true)
    (hm : mines.get startX startY ≠ solidChar) (fuel : Nat)
    (hf : mines.width.toNat * mines.height.toNat ≤ fuel) :
    ∃ r L, mineFill fuel mines board startX startY numUnrevealed = some r ∧
      mineFillDequeues fuel mines board startX startY numUnrevealed = some L ∧
      (∀ x y, mines.get x y = solidChar → r.1.get x y = board.get x y) ∧
      (∀ c ∈ L, mines.get c.1 c.2 ≠ solidChar) ∧
      (∀ (s s2 : GameState) (oldChar c : Char),
        confirm fuel s startX startY oldChar c = some s2 → s2.mines = s.mines) := by
  obtain ⟨r, hr⟩ := mineFill_some mines board startX startY numUnrevealed hv fuel hf
  obtain ⟨L, hL, -, -, hmem, -⟩ :=
    mineFill_dequeues mines board startX startY numUnrevealed hv fuel hf
  obtain ⟨-, hcl⟩ := mineFill_closed fuel mines board startX startY numUnrevealed r hr
  refine ⟨r, L, hr, hL, fun x y hxy => ?_, fun c hc => ?_, fun s s2 oldChar c hc => ?_⟩
  · have hne : ¬ (x = startX ∧ y = startY) := by
      rintro ⟨rfl, rfl⟩
      exact hm hxy
    exact hcl x y hne (fun h => h.2.2 hxy)
  · rcases hmem c hc with h1 | h1
    · rw [h1]
      exact hm
    · exact h1
  · exact (confirm_frame fuel s s2 startX startY oldChar c hc).1

/-- C15, witness: `mineFill` from `(2, 2)` on the prepared 3 by 3 layout with
one mine at `(0, 0)`; the tile of the mine stays Hidden. -/
theorem mineFill_spares_mines_witness :
    ((mineFill 9 (prepare cornerLayout)
        ((Array2D.init 3 3 mineTileChar).set 2 2 mineSelectedChar) 2 2 9).map
          (fun r => r.1.get 0 0) = some mineTileChar) ∧
    ∃ r L, mineFill 9 (prepare cornerLayout)
        ((Array2D.init 3 3 mineTileChar).set 2 2 mineSelectedChar) 2 2 9 = some r ∧
      mineFillDequeues 9 (prepare cornerLayout)
        ((Array2D.init 3 3 mineTileChar).set 2 2 mineSelectedChar) 2 2 9 = some L ∧
      (∀ x y, (prepare cornerLayout).get x y = solidChar →
        r.1.get x y = ((Array2D.init 3 3 mineTileChar).set 2 2 mineSelectedChar).get x y) ∧
      (∀ c ∈ L, (prepare cornerLayout).get c.1 c.2 ≠ solidChar) ∧
      (∀ (s s2 : GameState) (oldChar c : Char),
        confirm 9 s 2 2 oldChar c = some s2 → s2.mines = s.mines) :=
  ⟨by decide,
    mineFill_spares_mines (prepare cornerLayout)
      ((Array2D.init 3 3 mineTileChar).set 2 2 mineSelectedChar) 2 2 9 (by decide) (by decide)
      9 (by decide)⟩

/-- C16, as stated, fails: on the prepared 3 by 3 layout with one mine at
`(0, 0)` and the board on which `(2, 1)` is Flagged, `mineFill` from `(2, 2)`
takes `(2, 2)` from the queue; the tile `(2, 1)`, which is not a mine and is
adjacent to `(2, 2)`, still shows `mineFlaggedChar` afterwards, and the
counter goes from 9 to 4, one for each of the five tiles revealed. -/
theorem mineFill_flag_counterexample :
    (prepare cornerLayout).get 2 1 ≠ solidChar ∧ flagBoard.get 2 1 = mineFlaggedChar ∧
      mineFillDequeues 9 (prepare cornerLayout) flagBoard 2 2 9
        = some [(2, 2), (1, 2), (0, 2)] ∧
      (mineFill 9 (prepare cornerLayout) flagBoard 2 2 9).map
          (fun r => (r.1.rows, r.1.get 2 1, r.2))
        = some ([['-', '-', '-'], ['1', '1', '!'], [' ', ' ', ' ']], mineFlaggedChar, 4) := by
  refine ⟨by decide, by decide, by decide, by decide⟩

/-- C16, amended: Flagged tiles are not revealed by the cascade.  For every
layout and board and every in-bounds start, `mineFill` returns and a tile
other than the start whose visible state is Flagged still shows
`mineFlaggedChar` afterwards, whether or not it is a mine or adjacent to a
dequeued cell; and it is not counted: on a layout with correct counts the
counter goes down by one for the start and by one for each other tile that
was Hidden and has changed. -/
theorem mineFill_skips_flagged (mines board : Array2D) (startX startY : Int)
    (numUnrevealed : Int) (hv : mines.pointValid startX startY = true) (fuel : Nat)
    (hf : mines.width.toNat * mines.height.toNat ≤ fuel) :
    ∃ r, mineFill fuel mines board startX startY numUnrevealed = some r ∧
      (∀ x y, board.get x y = mineFlaggedChar → ¬ (x = startX ∧ y = startY) →
        r.1.get x y = mineFlaggedChar) ∧
      (CorrectCounts mines →
        r.2 = numUnrevealed - 1 - (((box mines.width mines.height).filter fun p =>
          ¬ (p.1 = startX ∧ p.2 = startY) ∧ board.get p.1 p.2 = mineTileChar ∧
            r.1.get p.1 p.2 ≠ board.get p.1 p.2).card : Int)) := by
  obtain ⟨r, hr⟩ := mineFill_some mines board startX startY numUnrevealed hv fuel hf
  obtain ⟨hstart, hcl⟩ := mineFill_closed fuel mines board startX startY numUnrevealed r hr
  refine ⟨r, hr, fun x y hflag hxy => ?_, fun hc => ?_⟩
  · rw [hcl x y hxy (fun h => by rw [hflag] at h; exact absurd h.2.1 (by decide)), hflag]
  · obtain ⟨r2, hr2, -, -, -, hcnt⟩ :=
      mineFill_spec mines board startX startY numUnrevealed hc.ne_tile hv fuel hf
    have hrr : r2 = r := by
      rw [hr] at hr2
      exact (Option.some.inj hr2).symm
    subst hrr
    have hfilter : ((box mines.width mines.height).filter fun p : Int × Int =>
          r2.1.get p.1 p.2 ≠ (board.set startX startY emptyChar).get p.1 p.2)
        = ((box mines.width mines.height).filter fun p : Int × Int =>
          ¬ (p.1 = startX ∧ p.2 = startY) ∧ board.get p.1 p.2 = mineTileChar ∧
            r2.1.get p.1 p.2 ≠ board.get p.1 p.2) := by
      apply Finset.filter_congr
      rintro ⟨i, j⟩ -
      by_cases hij : i = startX ∧ j = startY
      · have e2 : (board.set startX startY emptyChar).get i j = emptyChar := by
          simp only [Array2D.get, Array2D.set, if_pos hij]
        constructor
        · intro h
          rw [hij.1, hij.2] at h e2
          exact absurd (hstart.trans e2.symm) h
        · intro h
          exact absurd hij h.1
      · have e2 : (board.set startX startY emptyChar).get i j = board.get i j := by
          simp only [Array2D.get, Array2D.set, if_neg hij]
        simp only [e2]
        constructor
        · intro h
          refine ⟨hij, ?_, h⟩
          by_contra hb
          exact h (hcl i j hij (fun hg => hb hg.2.1))
        · intro h
          exact h.2.2
    rw [hfilter] at hcnt
    exact hcnt

/-- C16, witness: the amended statement on the prepared 3 by 3 layout with
one mine at `(0, 0)` and the board on which `(2, 1)` is Flagged. -/
theorem mineFill_skips_flagged_witness :
    ∃ r, mineFill 9 (prepare cornerLayout) flagBoard 2 2 9 = some r ∧
      (∀ x y, flagBoard.get x y = mineFlaggedChar → ¬ (x = 2 ∧ y = 2) →
        r.1.get x y = mineFlaggedChar) ∧
      (CorrectCounts (prepare cornerLayout) →
        r.2 = 9 - 1 - (((box (prepare cornerLayout).width (prepare cornerLayout).height).filter
          fun p => ¬ (p.1 = 2 ∧ p.2 = 2) ∧ flagBoard.get p.1 p.2 = mineTileChar ∧
            r.1.get p.1 p.2 ≠ flagBoard.get p.1 p.2).card : Int)) :=
  mineFill_skips_flagged (prepare cornerLayout) flagBoard 2 2 9 (by decide) 9 (by decide)

/-! ## The outcomes of a round -/

/-- What `mineFill` has computed whenever it returns, on a layout none of
whose cells holds `mineTileChar`. -/
theorem mineFill_post (fuel : Nat) (mines board : Array2D) (sx sy : Int) (num : Int)
    (hne : ∀ x y, mines.pointValid x y = true → mines.get x y ≠ mineTileChar)
    (r : Array2D × Int) (h : mineFill fuel mines board sx sy num = some r) :
    r.1.width = board.width ∧ r.1.height = board.height ∧
      (∀ x y, ((x = sx ∧ y = sy) → r.1.get x y = emptyChar) ∧
        (¬ (x = sx ∧ y = sy) → Uncovered mines board sx sy x y →
          r.1.get x y = if mines.get x y = '0' then emptyChar else mines.get x y) ∧
        (¬ (x = sx ∧ y = sy) → ¬ Uncovered mines board sx sy x y →
          r.1.get x y = board.get x y)) ∧
      r.2 = num - 1 - (((box mines.width mines.height).filter fun p =>
        r.1.get p.1 p.2 ≠ (board.set sx sy emptyChar).get p.1 p.2).card : Int) := by
  obtain ⟨w, hw, rfl⟩ := mineFill_scheme_some fuel mines board sx sy num r h
  have hS : ∀ x y ch, (mineScheme mines).G x y ch = true →
      (x, y) ∈ box mines.width mines.height := by
    intro x y ch h
    rw [mineScheme_guard] at h
    exact mem_box.mpr ((pointValid_iff mines x y).mp h.1)
  have hres := (mineScheme mines).loop_result (board.set sx sy emptyChar).array (sx, sy)
    (mineScheme_hW mines hne) fuel (num - 1) w hw
  have hcnt := (mineScheme mines).loop_count (box mines.width mines.height)
    (board.set sx sy emptyChar).array (sx, sy) hS (mineScheme_hW mines hne) fuel (num - 1) w hw
  refine ⟨rfl, rfl, fun x y => ⟨?_, ?_, ?_⟩, hcnt⟩
  · intro hxy
    have hn : ¬ (mineScheme mines).Hit (board.set sx sy emptyChar).array (sx, sy) (x, y) := by
      rw [mine_hit_iff]
      exact fun h => h.1 hxy
    have := (hres x y).2 hn
    simp only [Array2D.get, this, Array2D.set, if_pos hxy]
  · intro hxy hu
    have := (hres x y).1 ((mine_hit_iff mines board sx sy x y).mpr ⟨hxy, hu⟩)
    simp only [Array2D.get, this, mineScheme]
    by_cases hz : mines.array x y = '0'
    · simp [hz]
    · simp [hz]
  · intro hxy hu
    have hn : ¬ (mineScheme mines).Hit (board.set sx sy emptyChar).array (sx, sy) (x, y) := by
      rw [mine_hit_iff]
      exact fun h => hu h.2
    have := (hres x y).2 hn
    simp only [Array2D.get, this, Array2D.set, if_neg hxy]

/-- The switch of a round on an accepted tile ends in one of the four
outcomes, whatever the fuel, as soon as it returns. -/
theorem confirm_outcome (fuel : Nat) (s s2 : GameState) (x y : Int) (c : Char)
    (hI : GameInv s) (hsel : Selectable s x y)
    (h : confirm fuel { s with board := s.board.set x y mineSelectedChar } x y
      (s.board.get x y) c = some s2) : Outcome s x y s2 := by
  have hvm := hI.valid x y hsel.1
  have hrestore : (s.board.set x y mineSelectedChar).set x y (s.board.get x y) = s.board :=
    Array2D.set_set_self s.board x y _ _ rfl
  have hkeep0 : ({ s with output := s.output ++ [] } : GameState) = s := by
    obtain ⟨m, nm, b, nu, nf, r, o⟩ := s
    simp
  unfold confirm at h
  by_cases hF : c = 'F'
  · rw [if_pos hF] at h
    rcases hsel.2 with hh | hh
    · rw [if_pos hh] at h
      simp only [Option.some.injEq, Array2D.set_set] at h
      subst h
      exact Outcome.toggle mineFlaggedChar 1 (Or.inl ⟨hh, rfl, rfl⟩)
    · rw [if_neg (by rw [hh]; decide), if_pos hh] at h
      simp only [Option.some.injEq, Array2D.set_set] at h
      subst h
      have := Outcome.toggle (s := s) (x := x) (y := y) mineTileChar (-1)
        (Or.inr ⟨hh, rfl, rfl⟩)
      simpa [sub_eq_add_neg] using this
  · rw [if_neg hF] at h
    by_cases hR : c = 'R'
    · rw [if_pos hR] at h
      rcases hsel.2 with hh | hh
      · rw [if_neg (by rw [hh]; decide)] at h
        by_cases hm : s.mines.get x y = solidChar
        · rw [if_pos hm] at h
          simp only [Option.some.injEq] at h
          subst h
          exact Outcome.lose hh hm
        · rw [if_neg hm] at h
          by_cases hz : s.mines.get x y = '0'
          · rw [if_pos hz] at h
            cases hfill : mineFill fuel s.mines (s.board.set x y mineSelectedChar) x y
                s.numUnrevealed with
            | none => simp [hfill] at h
            | some r =>
              simp only [hfill, Option.map_some', Option.some.injEq] at h
              subst h
              obtain ⟨d1, d2, hpt, hcnt⟩ := mineFill_post fuel s.mines
                (s.board.set x y mineSelectedChar) x y s.numUnrevealed hI.counts.ne_tile r hfill
              have hselb : ∀ i j, ¬ (i = x ∧ j = y) →
                  (s.board.set x y mineSelectedChar).get i j = s.board.get i j := by
                intro i j hij
                simp only [Array2D.get, Array2D.set, if_neg hij]
              have hfilter : ((box s.mines.width s.mines.height).filter fun p : Int × Int =>
                    r.1.get p.1 p.2
                      ≠ ((s.board.set x y mineSelectedChar).set x y emptyChar).get p.1 p.2)
                  = ((box s.mines.width s.mines.height).filter fun p : Int × Int =>
                    ¬ (p.1 = x ∧ p.2 = y) ∧ r.1.get p.1 p.2 ≠ s.board.get p.1 p.2) := by
                apply Finset.filter_congr
                rintro ⟨i, j⟩ -
                by_cases hij : i = x ∧ j = y
                · have e1 := (hpt i j).1 hij
                  have e2 : ((s.board.set x y mineSelectedChar).set x y emptyChar).get i j
                      = emptyChar := by
                    simp only [Array2D.get, Array2D.set, if_pos hij]
                  constructor
                  · intro h
                    exact absurd (e1.trans e2.symm) h
                  · intro h
                    exact absurd hij h.1
                · have e2 : ((s.board.set x y mineSelectedChar).set x y emptyChar).get i j
                      = s.board.get i j := by
                    simp only [Array2D.get, Array2D.set, if_neg hij]
                  simp only [e2, hij, not_false_eq_true, true_and]
              rw [hfilter] at hcnt
              refine Outcome.reveal r.1 r.2 hh hm d1 d2
                (by rw [(hpt x y).1 ⟨rfl, rfl⟩]; decide) (fun i j hij hne => ?_) hcnt
              by_cases hu : Uncovered s.mines (s.board.set x y mineSelectedChar) x y i j
              · refine ⟨?_, ?_, hu.2.1, hu.2.2.1⟩
                · rw [← hselb i j hij]
                  exact hu.1
                · rw [(hpt i j).2.1 hij hu]
                  exact hI.counts.revealed i j hu.2.1 hu.2.2.1
              · rw [(hpt i j).2.2 hij hu, hselb i j hij] at hne
                exact absurd rfl hne
          · rw [if_neg hz] at h
            simp only [Option.some.injEq, Array2D.set_set] at h
            subst h
            have hrev := hI.counts.revealed x y hvm hm
            rw [if_neg hz] at hrev
            have hget : ∀ i j, (s.board.set x y (s.mines.get x y)).get i j
                = if i = x ∧ j = y then s.mines.get x y else s.board.get i j := fun _ _ => rfl
            have hempty : ((box s.mines.width s.mines.height).filter fun p : Int × Int =>
                ¬ (p.1 = x ∧ p.2 = y) ∧
                  (s.board.set x y (s.mines.get x y)).get p.1 p.2 ≠ s.board.get p.1 p.2)
                = ∅ := by
              apply Finset.filter_eq_empty_iff.mpr
              rintro ⟨i, j⟩ - ⟨hij, hne⟩
              simp only [hget, if_neg hij] at hne
              exact hne rfl
            refine Outcome.reveal (s.board.set x y (s.mines.get x y)) (s.numUnrevealed - 1)
              hh hm rfl rfl (by rw [Array2D.get_set_self]; exact hrev)
              (fun i j hij hne => ?_) (by rw [hempty]; simp)
            rw [hget, if_neg hij] at hne
            exact absurd rfl hne
      · rw [if_pos hh] at h
        simp only [Option.some.injEq, hrestore] at h
        subst h
        exact Outcome.keep ["Tile is flagged!"] (by decide) (by decide)
    · rw [if_neg hR] at h
      simp only [Option.some.injEq, hrestore] at h
      subst h
      have := Outcome.keep (s := s) (x := x) (y := y) [] (by simp) (by simp)
      rw [hkeep0] at this
      exact this

/-- A round either leaves the state alone (the tile was not accepted) or runs
the switch to one of the four outcomes and then the win check. -/
theorem round_outcome (fuel : Nat) (s s1 : GameState) (x y : Int) (c : Char)
    (hI : GameInv s) (h : mineRound fuel s x y c = some s1) :
    (¬ Selectable s x y ∧ s1 = s) ∨
      ∃ s2, Selectable s x y ∧ Outcome s x y s2 ∧ s1 = winCheck s2 := by
  by_cases hsel : Selectable s x y
  · right
    rw [mineRound_accept fuel s x y c hsel] at h
    cases hc : confirm fuel { s with board := s.board.set x y mineSelectedChar } x y
        (s.board.get x y) c with
    | none => rw [hc] at h; simp at h
    | some s2 =>
      rw [hc] at h
      simp only [Option.map_some', Option.some.injEq] at h
      exact ⟨s2, hsel, confirm_outcome fuel s s2 x y c hI hsel hc, h.symm⟩
  · left
    rw [mineRound_reject fuel s x y c hsel] at h
    exact ⟨hsel, (Option.some.inj h).symm⟩

theorem Outcome.mines {s s2 : GameState} {x y : Int} (h : Outcome s x y s2) :
    s2.mines = s.mines ∧ s2.numMines = s.numMines := by
  cases h <;> exact ⟨rfl, rfl⟩

theorem winCheck_revealed (s : GameState) (h : RevealedOk s) :
    RevealedOk (winCheck s) ∧
      ∀ i j, isRevealed (s.board.get i j) = true →
        (winCheck s).board.get i j = s.board.get i j := by
  have hm : (winCheck s).mines = s.mines := (winCheck_frame s).1
  refine ⟨fun i j hrev => ?_, fun i j hrev => ?_⟩
  · rw [hm]
    rcases winCheck_board s i j with h1 | ⟨h1, -, -⟩
    · rw [h1] at hrev
      exact h i j hrev
    · rw [h1] at hrev
      exact absurd hrev (by decide)
  · rcases winCheck_board s i j with h1 | ⟨-, h1, h2⟩
    · exact h1
    · exact absurd h2 (h i j hrev).2

theorem Outcome.keepsRevealed {s s2 : GameState} {x y : Int} (hI : GameInv s)
    (hsel : Selectable s x y) (hok : RevealedOk s) (h : Outcome s x y s2) :
    RevealedOk s2 ∧
      ∀ i j, isRevealed (s.board.get i j) = true → s2.board.get i j = s.board.get i j := by
  have hvm := hI.valid x y hsel.1
  have hnot : isRevealed (s.board.get x y) = false := by
    rcases hsel.2 with h1 | h1 <;> rw [h1] <;> decide
  have hset : ∀ (t : Char) i j, (s.board.set x y t).get i j
      = if i = x ∧ j = y then t else s.board.get i j := fun _ _ _ => rfl
  have hother : ∀ i j, isRevealed (s.board.get i j) = true → ¬ (i = x ∧ j = y) := by
    rintro i j hrev ⟨rfl, rfl⟩
    rw [hnot] at hrev
    exact absurd hrev (by simp)
  cases h with
  | toggle t k ht =>
    have htn : isRevealed t = false := by
      rcases ht with ⟨-, rfl, -⟩ | ⟨-, rfl, -⟩ <;> decide
    refine ⟨fun i j hrev => ?_, fun i j hrev => ?_⟩
    · simp only [hset] at hrev
      by_cases hij : i = x ∧ j = y
      · rw [if_pos hij, htn] at hrev
        exact absurd hrev (by simp)
      · rw [if_neg hij] at hrev
        exact hok i j hrev
    · simp only [hset, if_neg (hother i j hrev)]
  | keep out _ _ => exact ⟨hok, fun _ _ _ => rfl⟩
  | lose hh hm =>
    obtain ⟨-, -, r3, r4⟩ := mineReveal_spec s.mines (s.board.set x y mineSelectedChar)
    refine ⟨fun i j hrev => ?_, fun i j hrev => ?_⟩
    · simp only at hrev ⊢
      by_cases hmine : s.mines.pointValid i j = true ∧ s.mines.get i j = solidChar
      · rw [r3 i j hmine.1 hmine.2] at hrev
        exact absurd hrev (by decide)
      · rw [r4 i j hmine, hset] at hrev
        by_cases hij : i = x ∧ j = y
        · rw [if_pos hij] at hrev
          exact absurd hrev (by decide)
        · rw [if_neg hij] at hrev
          exact hok i j hrev
    · simp only
      rw [r4 i j (fun hmine => (hok i j hrev).2 hmine.2), hset, if_neg (hother i j hrev)]
  | reveal b2 n2 hh hm _ _ hstart hchg _ =>
    refine ⟨fun i j hrev => ?_, fun i j hrev => ?_⟩
    · simp only at hrev ⊢
      by_cases hij : i = x ∧ j = y
      · rw [hij.1, hij.2]
        exact ⟨hvm, hm⟩
      · by_cases hne : b2.get i j = s.board.get i j
        · rw [hne] at hrev
          exact hok i j hrev
        · exact (hchg i j hij hne).2.2
    · simp only
      by_contra hne
      have := (hchg i j (hother i j hrev) hne).1
      rw [this] at hrev
      exact absurd hrev (by decide)

theorem mineRound_revealed (fuel : Nat) (s s1 : GameState) (x y : Int) (c : Char)
    (hI : GameInv s) (hok : RevealedOk s) (h : mineRound fuel s x y c = some s1) :
    RevealedOk s1 ∧
      ∀ i j, isRevealed (s.board.get i j) = true → s1.board.get i j = s.board.get i j := by
  rcases round_outcome fuel s s1 x y c hI h with ⟨-, rfl⟩ | ⟨s2, hsel, hout, rfl⟩
  · exact ⟨hok, fun _ _ _ => rfl⟩
  · obtain ⟨h1, h2⟩ := hout.keepsRevealed hI hsel hok
    obtain ⟨h3, h4⟩ := winCheck_revealed s2 h1
    refine ⟨h3, fun i j hrev => ?_⟩
    have e := h2 i j hrev
    rw [h4 i j (by rw [e]; exact hrev), e]

theorem Reachable.revealedOk {s : GameState} (h : Reachable s) : RevealedOk s := by
  induction h with
  | init mines numMines =>
    intro i j hrev
    have hb : (mineInit mines numMines).board.get i j = mineTileChar := rfl
    rw [hb] at hrev
    exact absurd hrev (by decide)
  | round fuel x y c hR _ hstep ih => exact (mineRound_revealed fuel _ _ x y c hR.inv ih hstep).1

/-- A round started in a running state of the game loop returns with fuel
for `width * height` dequeues, in a state of the game loop with the same
layout. -/
theorem Reachable.next {s : GameState} (hR : Reachable s) (hrun : s.running = true)
    (x y : Int) (c : Char) (fuel : Nat)
    (hf : s.mines.width.toNat * s.mines.height.toNat ≤ fuel) :
    ∃ s1, mineRound fuel s x y c = some s1 ∧ Reachable s1 ∧ s1.mines = s.mines ∧
      s1.numMines = s.numMines := by
  by_cases hsel : Selectable s x y
  · obtain ⟨s2, h2, hround⟩ := mineRound_some fuel s x y c hR.inv hsel hf
    obtain ⟨c1, c2, -⟩ := confirm_frame fuel _ s2 x y _ c h2
    refine ⟨winCheck s2, hround, Reachable.round fuel x y c hR hrun hround, ?_, ?_⟩
    · rw [(winCheck_frame s2).1, c1]
    · rw [(winCheck_frame s2).2.1, c2]
  · have hround := mineRound_reject fuel s x y c hsel
    exact ⟨s, hround, hR, rfl, rfl⟩

/-- C17: in every state of the game loop, a tile that shows a revealed
non-mine value (`emptyChar` or a digit `'1'` to `'8'`) shows the same value
after any further rounds, whatever their inputs; the rounds return with fuel
for `width * height` dequeues. -/
theorem revealed_terminal (s : GameState) (hR : Reachable s) (i j : Int)
    (hrev : isRevealed (s.board.get i j) = true) (inputs : List (Int × Int × Char))
    (fuel : Nat) (hf : s.mines.width.toNat * s.mines.height.toNat ≤ fuel) :
    ∃ s1, mineRounds fuel s inputs = some s1 ∧ s1.board.get i j = s.board.get i j := by
  induction inputs generalizing s with
  | nil => exact ⟨s, rfl, rfl⟩
  | cons a rest ih =>
    obtain ⟨x, y, c⟩ := a
    by_cases hrun : s.running = true
    · obtain ⟨s1, h1, hR1, hm1, -⟩ := hR.next hrun x y c fuel hf
      have hkeep := (mineRound_revealed fuel s s1 x y c hR.inv hR.revealedOk h1).2 i j hrev
      obtain ⟨s2, h2, hb2⟩ := ih s1 hR1 (by rw [hkeep]; exact hrev) (by rw [hm1]; exact hf)
      refine ⟨s2, ?_, by rw [hb2, hkeep]⟩
      unfold mineRounds
      rw [if_pos hrun, h1]
      exact h2
    · refine ⟨s, ?_, rfl⟩
      unfold mineRounds
      rw [if_neg hrun]

/-- C17, witness: after the number at `(2, 2)` has been revealed on the 3 by 3
layout with mines at `(0, 0)` and `(2, 1)`, selecting it again, flagging a
neighbour and losing the game leave it as it is. -/
theorem revealed_terminal_witness :
    ((mineLoop 9 twoMines 2 [(2, 2, 'R'), (2, 2, 'F'), (1, 2, 'F'), (2, 1, 'R')]).map
        (fun s => (s.board.rows, s.running))
      = some ([['#', '-', '-'], ['-', '-', '#'], ['-', '!', '1']], false)) ∧
    ∃ s1, mineRounds 9 numberState [(2, 2, 'F'), (1, 2, 'F'), (2, 1, 'R')] = some s1 ∧
      s1.board.get 2 2 = numberState.board.get 2 2 :=
  ⟨by decide,
    revealed_terminal numberState
      (Reachable.round 9 2 2 'R' (Reachable.init twoMines 2) rfl rfl) 2 2 (by decide)
      [(2, 2, 'F'), (1, 2, 'F'), (2, 1, 'R')] 9 (by decide)⟩

/-! ## Playing, won, lost -/

theorem Outcome.status {s s2 : GameState} {x y : Int} (hrun : s.running = true)
    (hok : StatusOk s) (h : Outcome s x y s2) : StatusOk (winCheck s2) := by
  obtain ⟨hne, hgo, hyw⟩ := hok.1 hrun
  cases h with
  | toggle t k _ =>
    simp only [winCheck, hne, if_false]
    exact ⟨fun _ => ⟨hne, hgo, hyw⟩, fun h => by simp [hrun] at h⟩
  | keep out h1 h2 =>
    simp only [winCheck, hne, if_false]
    refine ⟨fun _ => ⟨hne, ?_, ?_⟩, fun h => by simp [hrun] at h⟩
    · simp only [List.mem_append, not_or]
      exact ⟨hgo, h2⟩
    · simp only [List.mem_append, not_or]
      exact ⟨hyw, h1⟩
  | lose _ _ =>
    simp only [winCheck, hne, if_false]
    refine ⟨fun h => by simp at h, fun _ => Or.inl ⟨?_, ?_⟩⟩
    · simp
    · simp only [List.mem_append, not_or]
      exact ⟨hyw, by decide⟩
  | reveal b2 n2 _ _ _ _ _ _ _ =>
    unfold winCheck
    by_cases hw : n2 = s.numMines
    · rw [if_pos hw]
      refine ⟨fun h => by simp at h, fun _ => Or.inr ⟨?_, ?_⟩⟩
      · simp
      · simp only [List.mem_append, not_or]
        exact ⟨hgo, by decide⟩
    · rw [if_neg hw]
      exact ⟨fun _ => ⟨hw, hgo, hyw⟩, fun h => by simp [hrun] at h⟩

theorem mineRound_status (fuel : Nat) (s s1 : GameState) (x y : Int) (c : Char)
    (hI : GameInv s) (hrun : s.running = true) (hok : StatusOk s)
    (h : mineRound fuel s x y c = some s1) : StatusOk s1 := by
  rcases round_outcome fuel s s1 x y c hI h with ⟨-, rfl⟩ | ⟨s2, -, hout, rfl⟩
  · exact hok
  · exact hout.status hrun hok

theorem mineRounds_stopped (fuel : Nat) (s : GameState) (hrun : s.running = false)
    (inputs : List (Int × Int × Char)) : mineRounds fuel s inputs = some s := by
  cases inputs with
  | nil => rfl
  | cons a rest =>
    obtain ⟨x, y, c⟩ := a
    unfold mineRounds
    rw [if_neg (by rw [hrun]; simp)]

theorem mineRounds_append (fuel : Nat) (s : GameState) (a b : List (Int × Int × Char)) :
    mineRounds fuel s (a ++ b) = (mineRounds fuel s a).bind fun s1 => mineRounds fuel s1 b := by
  induction a generalizing s with
  | nil => rfl
  | cons i a ih =>
    obtain ⟨x, y, c⟩ := i
    by_cases hrun : s.running = true
    · simp only [List.cons_append, mineRounds, if_pos hrun]
      cases hr : mineRound fuel s x y c with
      | none => rfl
      | some s1 =>
        simp only [Option.some_bind]
        exact ih s1
    · have hstop : s.running = false := by simpa using hrun
      rw [mineRounds_stopped fuel s hstop, mineRounds_stopped fuel s hstop, Option.some_bind,
        mineRounds_stopped fuel s hstop]

/-- The rounds of the game loop return with fuel for `width * height`
dequeues, in a state of the game loop with the same layout and `numMines`. -/
theorem Reachable.rounds {s : GameState} (hR : Reachable s)
    (inputs : List (Int × Int × Char)) (fuel : Nat)
    (hf : s.mines.width.toNat * s.mines.height.toNat ≤ fuel) :
    ∃ s1, mineRounds fuel s inputs = some s1 ∧ Reachable s1 ∧ s1.mines = s.mines ∧
      s1.numMines = s.numMines := by
  induction inputs generalizing s with
  | nil => exact ⟨s, rfl, hR, rfl, rfl⟩
  | cons a rest ih =>
    obtain ⟨x, y, c⟩ := a
    by_cases hrun : s.running = true
    · obtain ⟨s1, h1, hR1, hm1, hn1⟩ := hR.next hrun x y c fuel hf
      obtain ⟨s2, h2, hR2, hm2, hn2⟩ := ih hR1 (by rw [hm1]; exact hf)
      refine ⟨s2, ?_, hR2, by rw [hm2, hm1], by rw [hn2, hn1]⟩
      unfold mineRounds
      rw [if_pos hrun, h1]
      exact h2
    · refine ⟨s, ?_, hR, rfl, rfl⟩
      unfold mineRounds
      rw [if_neg hrun]

theorem mineRounds_status (fuel : Nat) (s s1 : GameState) (inputs : List (Int × Int × Char))
    (hR : Reachable s) (hok : StatusOk s) (h : mineRounds fuel s inputs = some s1) :
    StatusOk s1 := by
  induction inputs generalizing s with
  | nil =>
    simp only [mineRounds, Option.some.injEq] at h
    subst h
    exact hok
  | cons a rest ih =>
    obtain ⟨x, y, c⟩ := a
    by_cases hrun : s.running = true
    · simp only [mineRounds, if_pos hrun] at h
      cases hr : mineRound fuel s x y c with
      | none => rw [hr] at h; simp at h
      | some s2 =>
        rw [hr, Option.some_bind] at h
        exact ih s2 (Reachable.round fuel x y c hR hrun hr)
          (mineRound_status fuel s s2 x y c hR.inv hrun hok hr) h
    · simp only [mineRounds, if_neg hrun, Option.some.injEq] at h
      subst h
      exact hok

/-- C18: on a layout with fewer mines than tiles and `numMines` equal to the
number of mine cells, `mineLoop` run on any inputs returns (with fuel for
`width * height` dequeues) a state in which exactly one of Playing, Won, Lost
holds: either the loop is running and neither `You Win!` nor `Game Over!` has
been printed, or it has stopped and exactly one of the two has been printed,
never both; and once the loop has stopped, further inputs change nothing. -/
theorem exclusive_status (mines : Array2D) (numMines : Int)
    (hcount : numMines = (mineCells mines : Int))
    (hfewer : mineCells mines < mines.width.toNat * mines.height.toNat)
    (inputs : List (Int × Int × Char)) (fuel : Nat)
    (hf : mines.width.toNat * mines.height.toNat ≤ fuel) :
    ∃ s, mineLoop fuel mines numMines inputs = some s ∧
      ¬ ("Game Over!" ∈ s.output ∧ "You Win!" ∈ s.output) ∧
      ((s.running = true ∧ "You Win!" ∉ s.output ∧ "Game Over!" ∉ s.output) ∨
        (s.running = false ∧ "You Win!" ∈ s.output ∧ "Game Over!" ∉ s.output) ∨
        (s.running = false ∧ "Game Over!" ∈ s.output ∧ "You Win!" ∉ s.output)) ∧
      (s.running = false →
        ∀ more, mineLoop fuel mines numMines (inputs ++ more) = some s) := by
  obtain ⟨d1, d2, -, -⟩ := prepare_spec mines
  have hR0 : Reachable (mineInit mines numMines) := Reachable.init mines numMines
  have hpos : 0 < mines.width.toNat * mines.height.toNat := by omega
  have hw : 0 < mines.width.toNat := Nat.pos_of_mul_pos_right hpos
  have hh : 0 < mines.height.toNat := Nat.pos_of_mul_pos_left hpos
  have hprod : mines.width * mines.height
      = ((mines.width.toNat * mines.height.toNat : Nat) : Int) := by
    have e1 : ((mines.width.toNat : Nat) : Int) = mines.width :=
      Int.toNat_of_nonneg (by omega)
    have e2 : ((mines.height.toNat : Nat) : Int) = mines.height :=
      Int.toNat_of_nonneg (by omega)
    push_cast
    rw [e1, e2]
  have hok0 : StatusOk (mineInit mines numMines) := by
    refine ⟨fun _ => ⟨?_, by simp [mineInit], by simp [mineInit]⟩, fun h => by simp [mineInit] at h⟩
    simp only [mineInit]
    rw [hprod, hcount]
    intro h
    have := Int.ofNat_inj.mp h
    omega
  obtain ⟨s, hs, -, -, -⟩ := hR0.rounds inputs fuel
    (by simp only [mineInit]; rw [d1, d2]; exact hf)
  have hok := mineRounds_status fuel _ s inputs hR0 hok0 hs
  refine ⟨s, hs, ?_, ?_, fun hstop more => ?_⟩
  · rintro ⟨h1, h2⟩
    by_cases hrun : s.running = true
    · exact (hok.1 hrun).2.1 h1
    · rcases hok.2 (by simpa using hrun) with h3 | h3
      · exact h3.2 h2
      · exact h3.2 h1
  · by_cases hrun : s.running = true
    · exact Or.inl ⟨hrun, (hok.1 hrun).2.2, (hok.1 hrun).2.1⟩
    · have hstop : s.running = false := by simpa using hrun
      rcases hok.2 hstop with h3 | h3
      · exact Or.inr (Or.inr ⟨hstop, h3.1, h3.2⟩)
      · exact Or.inr (Or.inl ⟨hstop, h3.1, h3.2⟩)
  · unfold mineLoop
    rw [mineRounds_append, hs, Option.some_bind]
    exact mineRounds_stopped fuel s hstop more

/-- C18, witness: the game on the 3 by 3 layout with mines at `(0, 0)` and
`(2, 1)`, `numMines = 2`, lost in the second round; the third input is not
applied. -/
theorem exclusive_status_witness :
    ((mineLoop 9 twoMines 2 [(2, 2, 'R'), (2, 1, 'R'), (1, 1, 'R')]).map
        (fun s => (s.running, s.output)) = some (false, ["Game Over!"])) ∧
    ∃ s, mineLoop 9 twoMines 2 [(2, 2, 'R'), (2, 1, 'R')] = some s ∧
      ¬ ("Game Over!" ∈ s.output ∧ "You Win!" ∈ s.output) ∧
      ((s.running = true ∧ "You Win!" ∉ s.output ∧ "Game Over!" ∉ s.output) ∨
        (s.running = false ∧ "You Win!" ∈ s.output ∧ "Game Over!" ∉ s.output) ∨
        (s.running = false ∧ "Game Over!" ∈ s.output ∧ "You Win!" ∉ s.output)) ∧
      (s.running = false →
        ∀ more, mineLoop 9 twoMines 2 ([(2, 2, 'R'), (2, 1, 'R')] ++ more) = some s) :=
  ⟨by decide,
    exclusive_status twoMines 2 (by decide) (by decide) [(2, 2, 'R'), (2, 1, 'R')] 9
      (by decide)⟩

/-! ## The counter of flags -/

theorem flagCount_le (b : Array2D) : flagCount b ≤ b.width.toNat * b.height.toNat := by
  unfold flagCount
  rw [← card_box]
  exact Finset.card_filter_le _ _

theorem flagCount_congr (b b2 : Array2D) (hw : b2.width = b.width) (hh : b2.height = b.height)
    (h : ∀ i j, b2.get i j = mineFlaggedChar ↔ b.get i j = mineFlaggedChar) :
    flagCount b2 = flagCount b := by
  unfold flagCount
  rw [hw, hh]
  congr 1
  apply Finset.filter_congr
  rintro ⟨i, j⟩ -
  exact h i j

theorem flagCount_set_flag (b : Array2D) (x y : Int) (hv : b.pointValid x y = true)
    (h : b.get x y ≠ mineFlaggedChar) :
    flagCount (b.set x y mineFlaggedChar) = flagCount b + 1 := by
  unfold flagCount
  have hmem : (x, y) ∈ box b.width b.height := mem_box.mpr ((pointValid_iff b x y).mp hv)
  have hnot : (x, y) ∉ (box b.width b.height).filter fun p => b.get p.1 p.2 = mineFlaggedChar := by
    simp [h]
  have heq : ((box (b.set x y mineFlaggedChar).width (b.set x y mineFlaggedChar).height).filter
        fun p => (b.set x y mineFlaggedChar).get p.1 p.2 = mineFlaggedChar)
      = insert (x, y)
          ((box b.width b.height).filter fun p => b.get p.1 p.2 = mineFlaggedChar) := by
    ext ⟨i, j⟩
    have hget : (b.set x y mineFlaggedChar).get i j
        = if i = x ∧ j = y then mineFlaggedChar else b.get i j := rfl
    have hbox : box (b.set x y mineFlaggedChar).width (b.set x y mineFlaggedChar).height
        = box b.width b.height := rfl
    rw [hbox]
    simp only [Finset.mem_filter, Finset.mem_insert, Prod.mk.injEq, hget]
    by_cases hij : i = x ∧ j = y
    · obtain ⟨rfl, rfl⟩ := hij
      simp [hmem]
    · simp [hij]
  rw [heq, Finset.card_insert_of_not_mem hnot]

theorem flagCount_set_unflag (b : Array2D) (x y : Int) (t : Char)
    (hv : b.pointValid x y = true) (h : b.get x y = mineFlaggedChar)
    (ht : t ≠ mineFlaggedChar) : flagCount (b.set x y t) + 1 = flagCount b := by
  unfold flagCount
  have hbx : (x, y) ∈ box b.width b.height := mem_box.mpr ((pointValid_iff b x y).mp hv)
  have hmem : (x, y) ∈ (box b.width b.height).filter fun p => b.get p.1 p.2 = mineFlaggedChar := by
    simp [h, hbx]
  have heq : ((box (b.set x y t).width (b.set x y t).height).filter
        fun p => (b.set x y t).get p.1 p.2 = mineFlaggedChar)
      = ((box b.width b.height).filter fun p => b.get p.1 p.2 = mineFlaggedChar).erase
          (x, y) := by
    ext ⟨i, j⟩
    have hget : (b.set x y t).get i j = if i = x ∧ j = y then t else b.get i j := rfl
    have hbox : box (b.set x y t).width (b.set x y t).height = box b.width b.height := rfl
    rw [hbox]
    simp only [Finset.mem_filter, Finset.mem_erase, ne_eq, Prod.mk.injEq, hget]
    by_cases hij : i = x ∧ j = y
    · simp [hij, ht]
    · simp [hij]
  rw [heq, Finset.card_erase_of_mem hmem]
  have := Finset.card_pos.mpr ⟨_, hmem⟩
  omega

theorem winCheck_flag (s : GameState) (h : FlagOk s) : FlagOk (winCheck s) := by
  obtain ⟨w1, -, -, w4, -, -, w7⟩ := winCheck_frame s
  refine ⟨fun hrun => ?_, by rw [w4]; exact h.2.1, by rw [w4, w1]; exact h.2.2⟩
  have e := winCheck_of_ne s (w7 hrun)
  rw [e] at hrun ⊢
  exact h.1 hrun

theorem Outcome.flag {s s2 : GameState} {x y : Int} (hI : GameInv s) (hsel : Selectable s x y)
    (hrun : s.running = true) (hok : FlagOk s) (h : Outcome s x y s2) : FlagOk s2 := by
  have hnf := hok.1 hrun
  have hbound : flagCount s.board ≤ s.mines.width.toNat * s.mines.height.toNat := by
    rw [← hI.width, ← hI.height]
    exact flagCount_le s.board
  cases h with
  | toggle t k ht =>
    rcases ht with ⟨hh, rfl, rfl⟩ | ⟨hh, rfl, rfl⟩
    · have hc := flagCount_set_flag s.board x y hsel.1 (by rw [hh]; decide)
      have hb2 : flagCount (s.board.set x y mineFlaggedChar)
          ≤ s.mines.width.toNat * s.mines.height.toNat := by
        rw [← hI.width, ← hI.height]
        exact flagCount_le (s.board.set x y mineFlaggedChar)
      refine ⟨fun _ => ?_, ?_, ?_⟩
      · simp only [hc, hnf]
        push_cast
        ring
      · simp only
        omega
      · simp only
        rw [hnf]
        have : ((flagCount s.board : Nat) : Int) + 1
            = ((flagCount (s.board.set x y mineFlaggedChar) : Nat) : Int) := by
          rw [hc]
          push_cast
          ring
        rw [this]
        exact Int.ofNat_le.mpr hb2
    · have hc := flagCount_set_unflag s.board x y mineTileChar hsel.1 hh (by decide)
      refine ⟨fun _ => ?_, ?_, ?_⟩
      · simp only [hnf]
        have : ((flagCount s.board : Nat) : Int)
            = ((flagCount (s.board.set x y mineTileChar) + 1 : Nat) : Int) := by rw [hc]
        rw [this]
        push_cast
        ring
      · simp only
        rw [hnf]
        have : ((flagCount s.board : Nat) : Int)
            = ((flagCount (s.board.set x y mineTileChar) + 1 : Nat) : Int) := by rw [hc]
        rw [this]
        push_cast
        omega
      · simp only
        have := hok.2.2
        omega
  | keep out _ _ => exact ⟨fun _ => hnf, hok.2.1, hok.2.2⟩
  | lose _ _ => exact ⟨fun h => by simp at h, hok.2.1, hok.2.2⟩
  | reveal b2 n2 hh hm d1 d2 hstart hchg _ =>
    refine ⟨fun _ => ?_, hok.2.1, hok.2.2⟩
    simp only
    rw [hnf, flagCount_congr s.board b2 d1 d2 (fun i j => ?_)]
    by_cases hij : i = x ∧ j = y
    · rw [hij.1, hij.2, hh]
      constructor
      · intro h
        rw [h] at hstart
        exact absurd hstart (by decide)
      · intro h
        exact absurd h (by decide)
    · by_cases hne : b2.get i j = s.board.get i j
      · rw [hne]
      · obtain ⟨k1, k2, -, -⟩ := hchg i j hij hne
        rw [k1]
        constructor
        · intro h
          rw [h] at k2
          exact absurd k2 (by decide)
        · intro h
          exact absurd h (by decide)

theorem Reachable.flagOk {s : GameState} (h : Reachable s) : FlagOk s := by
  induction h with
  | init mines numMines =>
    refine ⟨fun _ => ?_, le_refl _, Int.natCast_nonneg _⟩
    have : flagCount (mineInit mines numMines).board = 0 := by
      unfold flagCount
      apply Finset.card_eq_zero.mpr
      apply Finset.filter_eq_empty_iff.mpr
      rintro ⟨i, j⟩ - h
      have hb : (mineInit mines numMines).board.get i j = mineTileChar := rfl
      simp only at h
      rw [hb] at h
      exact absurd h (by decide)
    rw [this]
    rfl
  | round fuel x y c hR hrun hstep ih =>
    rcases round_outcome fuel _ _ x y c hR.inv hstep with ⟨-, rfl⟩ | ⟨s2, hsel, hout, rfl⟩
    · exact ih
    · exact winCheck_flag s2 (hout.flag hR.inv hsel hrun ih)

/-- C19: in every state of the game loop `numFlagged` lies between 0 and the
number of tiles, `width * height`. -/
theorem numFlagged_bounds (s : GameState) (hR : Reachable s) :
    0 ≤ s.numFlagged ∧
      s.numFlagged ≤ ((s.mines.width.toNat * s.mines.height.toNat : Nat) : Int) ∧
      (0 ≤ s.mines.width → 0 ≤ s.mines.height →
        s.numFlagged ≤ s.mines.width * s.mines.height) := by
  obtain ⟨-, h1, h2⟩ := hR.flagOk
  refine ⟨h1, h2, fun hw hh => ?_⟩
  have e1 : ((s.mines.width.toNat : Nat) : Int) = s.mines.width := Int.toNat_of_nonneg hw
  have e2 : ((s.mines.height.toNat : Nat) : Int) = s.mines.height := Int.toNat_of_nonneg hh
  rw [← e1, ← e2]
  exact_mod_cast h2

/-- C19, witness: the bounds in the state after flagging `(1, 1)` on the 3 by
3 layout with one mine at `(0, 0)`, where `numFlagged` is 1. -/
theorem numFlagged_bounds_witness :
    flaggedState.numFlagged = 1 ∧
      0 ≤ flaggedState.numFlagged ∧
      flaggedState.numFlagged
        ≤ ((flaggedState.mines.width.toNat * flaggedState.mines.height.toNat : Nat) : Int) ∧
      (0 ≤ flaggedState.mines.width → 0 ≤ flaggedState.mines.height →
        flaggedState.numFlagged ≤ flaggedState.mines.width * flaggedState.mines.height) :=
  ⟨by decide,
    numFlagged_bounds flaggedState
      (Reachable.round 9 1 1 'F' (Reachable.init cornerLayout 1) rfl rfl)⟩

/-! ## Counter and board -/

theorem unrevealedCount_congr (b b2 : Array2D) (hw : b2.width = b.width)
    (hh : b2.height = b.height)
    (h : ∀ i j, isUnrevealed (b2.get i j) = isUnrevealed (b.get i j)) :
    unrevealedCount b2 = unrevealedCount b := by
  unfold unrevealedCount
  rw [hw, hh]
  congr 1
  apply Finset.filter_congr
  rintro ⟨i, j⟩ -
  rw [h i j]

/-- In a consistent state whose `numMines` is the number of mine cells,
`numMines ≤ numUnrevealed`, with equality exactly when every tile that is not
a mine shows a revealed value. -/
theorem Consistent.win {s : GameState} (hc : Consistent s)
    (hw : s.board.width = s.mines.width) (hh : s.board.height = s.mines.height)
    (hn : s.numMines = (mineCells s.mines : Int)) :
    s.numMines ≤ s.numUnrevealed ∧
      (s.numUnrevealed = s.numMines ↔
        ∀ i j, s.mines.pointValid i j = true → s.mines.get i j ≠ solidChar →
          isRevealed (s.board.get i j) = true) := by
  have hsub : ((box s.mines.width s.mines.height).filter fun p : Int × Int =>
        s.mines.get p.1 p.2 = solidChar)
      ⊆ ((box s.mines.width s.mines.height).filter fun p : Int × Int =>
        isUnrevealed (s.board.get p.1 p.2) = true) := by
    intro p hp
    rw [Finset.mem_filter] at hp ⊢
    exact ⟨hp.1, hc.minesHidden p.1 p.2
      ((pointValid_iff s.mines p.1 p.2).mpr (mem_box.mp hp.1)) hp.2⟩
  have hU : unrevealedCount s.board
      = ((box s.mines.width s.mines.height).filter fun p : Int × Int =>
        isUnrevealed (s.board.get p.1 p.2) = true).card := by
    unfold unrevealedCount
    rw [hw, hh]
  have hle := Finset.card_le_card hsub
  have hvalid : ∀ i j, s.mines.pointValid i j = true → s.board.pointValid i j = true := by
    intro i j hv
    rw [pointValid_iff] at hv ⊢
    rw [hw, hh]
    exact hv
  refine ⟨?_, ?_⟩
  · rw [hn, hc.count, hU]
    exact Int.ofNat_le.mpr hle
  · rw [hn, hc.count, hU]
    constructor
    · intro heq
      have hcard := Int.ofNat_inj.mp heq
      have hset := Finset.eq_of_subset_of_card_le hsub (by unfold mineCells at hcard; omega)
      intro i j hv hm
      rcases hc.tiles i j (hvalid i j hv) with h1 | h1
      · have hmem : (i, j) ∈ ((box s.mines.width s.mines.height).filter fun p : Int × Int =>
            isUnrevealed (s.board.get p.1 p.2) = true) := by
          rw [Finset.mem_filter]
          exact ⟨mem_box.mpr ((pointValid_iff s.mines i j).mp hv), h1⟩
        rw [← hset, Finset.mem_filter] at hmem
        exact absurd hmem.2 hm
      · exact h1
    · intro hall
      have hsub2 : ((box s.mines.width s.mines.height).filter fun p : Int × Int =>
            isUnrevealed (s.board.get p.1 p.2) = true)
          ⊆ ((box s.mines.width s.mines.height).filter fun p : Int × Int =>
            s.mines.get p.1 p.2 = solidChar) := by
        intro p hp
        rw [Finset.mem_filter] at hp ⊢
        refine ⟨hp.1, ?_⟩
        by_contra hm
        have := hall p.1 p.2 ((pointValid_iff s.mines p.1 p.2).mpr (mem_box.mp hp.1)) hm
        rw [isRevealed_of_unrevealed _ hp.2] at this
        exact absurd this (by simp)
      have := Finset.Subset.antisymm hsub2 hsub
      rw [this]
      rfl

theorem Outcome.dims {s s2 : GameState} {x y : Int} (h : Outcome s x y s2) :
    s2.board.width = s.board.width ∧ s2.board.height = s.board.height := by
  cases h with
  | toggle t k _ => exact ⟨rfl, rfl⟩
  | keep out _ _ => exact ⟨rfl, rfl⟩
  | lose _ _ => exact ⟨(mineReveal_spec _ _).1, (mineReveal_spec _ _).2.1⟩
  | reveal b2 n2 _ _ d1 d2 _ _ _ => exact ⟨d1, d2⟩

theorem Outcome.running {s s2 : GameState} {x y : Int} (h : Outcome s x y s2)
    (hrun : s.running = true) :
    s2.running = true ∨ (s2.running = false ∧ s2.numUnrevealed = s.numUnrevealed) := by
  cases h with
  | toggle t k _ => exact Or.inl hrun
  | keep out _ _ => exact Or.inl hrun
  | lose _ _ => exact Or.inr ⟨rfl, rfl⟩
  | reveal b2 n2 _ _ _ _ _ _ _ => exact Or.inl hrun

theorem Outcome.consistent {s s2 : GameState} {x y : Int} (hI : GameInv s)
    (hsel : Selectable s x y) (hc : Consistent s) (h : Outcome s x y s2)
    (hrun2 : s2.running = true) : Consistent s2 := by
  have hvm := hI.valid x y hsel.1
  have hun : isUnrevealed (s.board.get x y) = true := by
    rcases hsel.2 with h1 | h1 <;> rw [h1] <;> decide
  have hset : ∀ (t : Char) i j, (s.board.set x y t).get i j
      = if i = x ∧ j = y then t else s.board.get i j := fun _ _ _ => rfl
  cases h with
  | toggle t k ht =>
    have htu : isUnrevealed t = true := by
      rcases ht with ⟨-, rfl, -⟩ | ⟨-, rfl, -⟩ <;> decide
    have hts : t ≠ mineSelectedChar := by
      rcases ht with ⟨-, rfl, -⟩ | ⟨-, rfl, -⟩ <;> decide
    have hpt : ∀ i j, isUnrevealed ((s.board.set x y t).get i j)
        = isUnrevealed (s.board.get i j) := by
      intro i j
      rw [hset]
      by_cases hij : i = x ∧ j = y
      · rw [if_pos hij, hij.1, hij.2, htu, hun]
      · rw [if_neg hij]
    refine ⟨?_, fun i j hv => ?_, fun i j hv hm => ?_, fun i j hv => ?_⟩
    · simp only
      rw [unrevealedCount_congr s.board (s.board.set x y t) rfl rfl hpt]
      exact hc.count
    · simp only [hset]
      by_cases hij : i = x ∧ j = y
      · rw [if_pos hij]
        exact hts
      · rw [if_neg hij]
        exact hc.noSelected i j hv
    · simp only
      rw [hpt]
      exact hc.minesHidden i j hv hm
    · simp only [hset]
      by_cases hij : i = x ∧ j = y
      · rw [if_pos hij]
        exact Or.inl htu
      · rw [if_neg hij]
        exact hc.tiles i j hv
  | keep out _ _ => exact ⟨hc.count, hc.noSelected, hc.minesHidden, hc.tiles⟩
  | lose _ _ => simp at hrun2
  | reveal b2 n2 hh hm d1 d2 hstart hchg hn2 =>
    have hsame : ∀ i j, ¬ (i = x ∧ j = y) → isUnrevealed (b2.get i j) = true →
        b2.get i j = s.board.get i j := by
      intro i j hij hu
      by_contra hne
      have := (hchg i j hij hne).2.1
      rw [isRevealed_of_unrevealed _ hu] at this
      exact absurd this (by simp)
    have hvalid : ∀ i j, b2.pointValid i j = true → s.board.pointValid i j = true := by
      intro i j hv
      rw [pointValid_iff] at hv ⊢
      rw [← d1, ← d2]
      exact hv
    refine ⟨?_, fun i j hv => ?_, fun i j hv hmine => ?_, fun i j hv => ?_⟩
    · simp only
      have hstartmem : (x, y) ∈ box s.mines.width s.mines.height :=
        mem_box.mpr ((pointValid_iff s.mines x y).mp hvm)
      have hnot : (x, y) ∉ (box s.mines.width s.mines.height).filter fun p : Int × Int =>
          ¬ (p.1 = x ∧ p.2 = y) ∧ b2.get p.1 p.2 ≠ s.board.get p.1 p.2 := by
        simp
      have hsub : insert (x, y) ((box s.mines.width s.mines.height).filter
            fun p : Int × Int => ¬ (p.1 = x ∧ p.2 = y) ∧ b2.get p.1 p.2 ≠ s.board.get p.1 p.2)
          ⊆ (box s.mines.width s.mines.height).filter fun p : Int × Int =>
            isUnrevealed (s.board.get p.1 p.2) = true := by
        intro p hp
        rw [Finset.mem_insert] at hp
        rw [Finset.mem_filter]
        rcases hp with rfl | hp
        · exact ⟨hstartmem, hun⟩
        · rw [Finset.mem_filter] at hp
          refine ⟨hp.1, ?_⟩
          rw [(hchg p.1 p.2 hp.2.1 hp.2.2).1]
          decide
      have heq : ((box b2.width b2.height).filter fun p : Int × Int =>
            isUnrevealed (b2.get p.1 p.2) = true)
          = ((box s.mines.width s.mines.height).filter fun p : Int × Int =>
              isUnrevealed (s.board.get p.1 p.2) = true)
            \ insert (x, y) ((box s.mines.width s.mines.height).filter
              fun p : Int × Int =>
                ¬ (p.1 = x ∧ p.2 = y) ∧ b2.get p.1 p.2 ≠ s.board.get p.1 p.2) := by
        rw [d1, d2, hI.width, hI.height]
        ext ⟨i, j⟩
        simp only [Finset.mem_filter, Finset.mem_sdiff, Finset.mem_insert, Prod.mk.injEq,
          not_or, not_and, not_not]
        constructor
        · rintro ⟨hbox, hu⟩
          have hij : ¬ (i = x ∧ j = y) := by
            rintro ⟨rfl, rfl⟩
            rw [isRevealed_of_unrevealed _ hu] at hstart
            exact absurd hstart (by simp)
          have e := hsame i j hij hu
          exact ⟨⟨hbox, by rw [← e]; exact hu⟩, fun h1 h2 => absurd ⟨h1, h2⟩ hij,
            fun _ _ => e⟩
        · rintro ⟨⟨hbox, hu⟩, hij, hne⟩
          refine ⟨hbox, ?_⟩
          have hij2 : ¬ (i = x ∧ j = y) := fun h => hij h.1 h.2
          rw [hne hbox (fun h1 h2 => absurd ⟨h1, h2⟩ hij2)]
          exact hu
      have hcount := hc.count
      unfold unrevealedCount at hcount ⊢
      rw [hI.width, hI.height] at hcount
      rw [heq, Finset.card_sdiff hsub, Finset.card_insert_of_not_mem hnot, hn2, hcount]
      have hle := Finset.card_le_card hsub
      rw [Finset.card_insert_of_not_mem hnot] at hle
      omega
    · simp only at hv ⊢
      by_cases hij : i = x ∧ j = y
      · rw [hij.1, hij.2]
        intro h
        rw [h] at hstart
        exact absurd hstart (by decide)
      · by_cases hne : b2.get i j = s.board.get i j
        · rw [hne]
          exact hc.noSelected i j (hvalid i j hv)
        · intro h
          have := (hchg i j hij hne).2.1
          rw [h] at this
          exact absurd this (by decide)
    · simp only at hv hmine ⊢
      have hij : ¬ (i = x ∧ j = y) := by
        rintro ⟨rfl, rfl⟩
        exact hm hmine
      have hne : b2.get i j = s.board.get i j := by
        by_contra hne
        exact (hchg i j hij hne).2.2.2 hmine
      rw [hne]
      exact hc.minesHidden i j hv hmine
    · simp only at hv ⊢
      by_cases hij : i = x ∧ j = y
      · rw [hij.1, hij.2]
        exact Or.inr hstart
      · by_cases hne : b2.get i j = s.board.get i j
        · rw [hne]
          exact hc.tiles i j (hvalid i j hv)
        · exact Or.inr (hchg i j hij hne).2.1

theorem mineInit_consistent (mines : Array2D) (numMines : Int) (hw : 0 ≤ mines.width)
    (hh : 0 ≤ mines.height) : Consistent (mineInit mines numMines) := by
  have hb : ∀ i j, (mineInit mines numMines).board.get i j = mineTileChar := fun _ _ => rfl
  refine ⟨?_, fun i j _ => ?_, fun i j _ _ => ?_, fun i j _ => Or.inl ?_⟩
  · have hall : ((box mines.width mines.height).filter fun p : Int × Int =>
          isUnrevealed ((mineInit mines numMines).board.get p.1 p.2) = true)
        = box mines.width mines.height := by
      apply Finset.filter_true_of_mem
      rintro ⟨i, j⟩ -
      rw [hb]
      decide
    have hcount : unrevealedCount (mineInit mines numMines).board
        = mines.width.toNat * mines.height.toNat := by
      unfold unrevealedCount
      have hd : box (mineInit mines numMines).board.width (mineInit mines numMines).board.height
          = box mines.width mines.height := rfl
      rw [hd, hall, card_box]
    have e1 : ((mines.width.toNat : Nat) : Int) = mines.width := Int.toNat_of_nonneg hw
    have e2 : ((mines.height.toNat : Nat) : Int) = mines.height := Int.toNat_of_nonneg hh
    rw [hcount]
    simp only [mineInit]
    push_cast
    rw [e1, e2]
  · rw [hb]
    decide
  · rw [hb]
    decide
  · rw [hb]
    decide

theorem Reachable.consOk {s : GameState} (h : Reachable s) : ConsOk s := by
  induction h with
  | init mines numMines =>
    intro hw hh
    obtain ⟨d1, d2, -, -⟩ := prepare_spec mines
    have hc := mineInit_consistent mines numMines
      (by rw [← d1]; exact hw) (by rw [← d2]; exact hh)
    have hI := mineInit_inv mines numMines
    exact ⟨fun _ => hc, fun hn => (hc.win hI.width hI.height hn).1⟩
  | @round s s1 fuel x y c hR hrun hstep ih =>
    rcases round_outcome fuel _ _ x y c hR.inv hstep with ⟨-, rfl⟩ | ⟨s2, hsel, hout, rfl⟩
    · exact ih
    · intro hw hh
      obtain ⟨w1, w2, w3, -, -, -, w7⟩ := winCheck_frame s2
      obtain ⟨m1, m2⟩ := hout.mines
      rw [w1, m1] at hw hh
      obtain ⟨i1, i2⟩ := ih hw hh
      have hcs := i1 hrun
      obtain ⟨e1, e2⟩ := hout.dims
      refine ⟨fun hr => ?_, fun hn => ?_⟩
      · have e := winCheck_of_ne s2 (w7 hr)
        rw [e] at hr ⊢
        exact hout.consistent hR.inv hsel hcs hr
      · rw [w2, w3]
        rw [w2, w1] at hn
        rcases hout.running hrun with hr | ⟨-, hr⟩
        · exact ((hout.consistent hR.inv hsel hcs hr).win
            (by rw [e1, m1]; exact hR.inv.width) (by rw [e2, m1]; exact hR.inv.height) hn).1
        · rw [hr, m2]
          rw [m2, m1] at hn
          exact i2 hn

/-- C20: in every running state of the game loop on a grid with non-negative
bounds, `numUnrevealed` is the number of tiles that show Hidden or Flagged, no
tile shows `mineSelectedChar` and every mine tile shows Hidden or Flagged.
When `numMines` is the number of mine cells, `numMines ≤ numUnrevealed` in
every state of the game loop, and both at the start of a round and at the win
check that follows a switch that did not lose the game,
`numUnrevealed = numMines` holds exactly when every tile that is not a mine
shows a revealed value. -/
theorem counter_board_consistency (s : GameState) (hR : Reachable s)
    (hw : 0 ≤ s.mines.width) (hh : 0 ≤ s.mines.height) :
    (s.running = true →
      s.numUnrevealed = (unrevealedCount s.board : Int) ∧
      (∀ i j, s.board.pointValid i j = true → s.board.get i j ≠ mineSelectedChar) ∧
      (∀ i j, s.mines.pointValid i j = true → s.mines.get i j = solidChar →
        isUnrevealed (s.board.get i j) = true)) ∧
    (s.numMines = (mineCells s.mines : Int) → s.numMines ≤ s.numUnrevealed) ∧
    (s.numMines = (mineCells s.mines : Int) → s.running = true →
      (s.numUnrevealed = s.numMines ↔
        ∀ i j, s.mines.pointValid i j = true → s.mines.get i j ≠ solidChar →
          isRevealed (s.board.get i j) = true)) ∧
    (s.numMines = (mineCells s.mines : Int) → s.running = true →
      ∀ (x y : Int) (c : Char) (fuel : Nat), Selectable s x y →
        s.mines.width.toNat * s.mines.height.toNat ≤ fuel →
        ∃ s2, confirm fuel { s with board := s.board.set x y mineSelectedChar } x y
            (s.board.get x y) c = some s2 ∧
          mineRound fuel s x y c = some (winCheck s2) ∧
          (s2.running = true →
            (s2.numUnrevealed = s2.numMines ↔
              ∀ i j, s2.mines.pointValid i j = true → s2.mines.get i j ≠ solidChar →
                isRevealed (s2.board.get i j) = true))) := by
  obtain ⟨c1, c2⟩ := hR.consOk hw hh
  have hI := hR.inv
  refine ⟨fun hrun => ⟨(c1 hrun).count, (c1 hrun).noSelected, (c1 hrun).minesHidden⟩, c2,
    fun hn hrun => ((c1 hrun).win hI.width hI.height hn).2,
    fun hn hrun x y c fuel hsel hf => ?_⟩
  obtain ⟨s2, h2, hround⟩ := mineRound_some fuel s x y c hI hsel hf
  have hout := confirm_outcome fuel s s2 x y c hI hsel h2
  obtain ⟨m1, m2⟩ := hout.mines
  obtain ⟨e1, e2⟩ := hout.dims
  refine ⟨s2, h2, hround, fun hr => ?_⟩
  exact ((hout.consistent hI hsel (c1 hrun) hr).win
    (by rw [e1, m1]; exact hI.width) (by rw [e2, m1]; exact hI.height)
    (by rw [m2, m1]; exact hn)).2

/-- C20, witness: the consistency in the state after flagging `(1, 1)` on the
3 by 3 layout with one mine at `(0, 0)`: nine tiles are Hidden or Flagged. -/
theorem counter_board_consistency_witness :
    (flaggedState.numUnrevealed, unrevealedCount flaggedState.board,
        mineCells flaggedState.mines, flaggedState.running) = (9, 9, 1, true) ∧
    (flaggedState.running = true →
      flaggedState.numUnrevealed = (unrevealedCount flaggedState.board : Int) ∧
      (∀ i j, flaggedState.board.pointValid i j = true →
        flaggedState.board.get i j ≠ mineSelectedChar) ∧
      (∀ i j, flaggedState.mines.pointValid i j = true →
        flaggedState.mines.get i j = solidChar →
        isUnrevealed (flaggedState.board.get i j) = true)) :=
  ⟨by decide,
    (counter_board_consistency flaggedState
      (Reachable.round 9 1 1 'F' (Reachable.init cornerLayout 1) rfl rfl) (by decide)
      (by decide)).1⟩

end FloodFill
